import Mathlib

/-!
Verification of the augmented red-black tree engine (order-statistic tree,
interval/maximum-prefix "POM" tree) and the Josephus permutation generator.

The C++ code (src/ost.h, src/pom.h, src/josephus.h) is a pointer-machine
program: nodes hold key, color, augmentation, and left/right/parent links,
with a shared black sentinel `nil`.  We embed it shallowly as follows.

* A tree is an inductive value `RBG.T α`: `nil` is the sentinel, `node c l v r`
  is a node with color `c`, payload `v` (key plus augmentation fields, exactly
  the data members of the C++ node), and children `l`, `r`.
* Parent pointers are represented by zipper contexts: walking up via
  `x->parent` in the C++ corresponds to popping a `Ctx` frame.  A frame
  remembers whether the current node was the left or the right child, and
  stores the parent's color, payload and other subtree.
* C++ `int` and `long long` are modelled as `Int`.  None of the verified
  claims concern wrap-around behaviour; where the sentinel `LLONG_MIN` takes
  part in comparisons we carry explicit range hypotheses so that the model
  and two's-complement evaluation agree.
* The two C++ classes `OrderStatisticTree` and `POMTree` are textual twins:
  they differ only in how rotations refresh the augmentation of the two
  rotated nodes, and in how insert/remove refresh augmentation along the
  changed path.  We therefore write the rotation/fix-up core once, taking the
  two refresh hooks (`rd` for the node that moves down, `ru` for the node
  that moves up) as parameters, and instantiate it twice.  Each instantiated
  operation corresponds line by line to the member function of one class.
-/

inductive RBColor
  | red
  | black
deriving DecidableEq, Repr

namespace RBG

/-- A red-black tree node as in the C++ structs: color, payload, children.
`nil` is the shared sentinel (black, size 0). -/
inductive T (α : Type)
  | nil
  | node (c : RBColor) (l : T α) (v : α) (r : T α)
deriving DecidableEq, Repr

variable {α : Type}

/-- Color of a node; the sentinel is black (`nil->color = BLACK` in both
constructors). -/
def colorOf : T α → RBColor
  | .nil => .black
  | .node c _ _ _ => c

/-- `x->color = BLACK` on a node; on the sentinel this is the C++ write
`nil->color = BLACK`, which leaves the (black) sentinel unchanged. -/
def blackenRoot : T α → T α
  | .nil => .nil
  | .node _ l v r => .node .black l v r

/-- `x->color = RED` on a node.  The C++ can only reach this write with a
non-sentinel argument in states satisfying the red-black invariants. -/
def reddenRoot : T α → T α
  | .nil => .nil
  | .node _ l v r => .node .red l v r

/-- A parent frame of the zipper: `fromL c v r` is a parent of color `c`,
payload `v`, right child `r`, whose LEFT child is the focus; `fromR c l v`
mirrors it. -/
inductive Ctx (α : Type)
  | fromL (c : RBColor) (v : α) (r : T α)
  | fromR (c : RBColor) (l : T α) (v : α)
deriving DecidableEq, Repr

/-- Rebuild one level: plug the focus back under its parent frame. -/
def reattach : Ctx α → T α → T α
  | .fromL c v r, t => .node c t v r
  | .fromR c l v, t => .node c l v t

/-- Rebuild the whole tree from a bottom-up list of parent frames
(head = immediate parent). -/
def assemble : List (Ctx α) → T α → T α
  | [], t => t
  | f :: p, t => assemble p (reattach f t)

/-- Color stored in a frame. -/
def colC : Ctx α → RBColor
  | .fromL c _ _ => c
  | .fromR c _ _ => c

/-- Direction of a frame: `true` when the focus is the LEFT child. -/
def dirC : Ctx α → Bool
  | .fromL _ _ _ => true
  | .fromR _ _ _ => false

/-- Walk down a tree along a top-down direction list (`true` = left),
returning the bottom-up frame list and the reached subtree.  On a shape
mismatch (never reached in valid executions) it stops early. -/
def descendZ : T α → List Bool → List (Ctx α) × T α
  | t, [] => ([], t)
  | .nil, _ => ([], .nil)
  | .node c l v r, true :: d =>
      let (fr, z) := descendZ l d
      (fr ++ [.fromL c v r], z)
  | .node c l v r, false :: d =>
      let (fr, z) := descendZ r d
      (fr ++ [.fromR c l v], z)

/-- How a position (top-down direction list) inside a subtree moves under
`leftRotate` of that subtree. -/
def ldirs : List Bool → List Bool
  | [] => [true]
  | true :: q => true :: true :: q
  | false :: [] => []
  | false :: true :: q => true :: false :: q
  | false :: false :: q => false :: q

/-- Position transport under `rightRotate` (mirror of `ldirs`). -/
def rdirs : List Bool → List Bool
  | [] => [false]
  | false :: q => false :: false :: q
  | true :: [] => []
  | true :: false :: q => false :: true :: q
  | true :: true :: q => true :: q

section Rotations

variable (rd : T α → α) (ru : α → T α → α)

/-- `leftRotate(x)` (src/ost.h lines 38-62, src/pom.h lines 66-89): the
pointer surgery is the same in both classes; afterwards the augmentation of
the two rotated nodes is refreshed.  `rd` recomputes the payload of the node
that moved down (given its reassembled node), `ru` recomputes the payload of
the node that moved up (given the old top payload and the reassembled node).
For the OST: `y->size = x->size; x->size = size(l)+size(r)+1`.
For the POM: `updateAugmentedData(x); updateAugmentedData(y)`. -/
def leftRotate : T α → T α
  | .node cx l x (.node cy rl y rr) =>
      let xn : T α := .node cx l (rd (.node cx l x rl)) rl
      .node cy xn (ru x (.node cy xn y rr)) rr
  | t => t

/-- `rightRotate(y)` (src/ost.h lines 64-88, src/pom.h lines 91-114). -/
def rightRotate : T α → T α
  | .node cy (.node cx xl x xr) y rr =>
      let yn : T α := .node cy xr (rd (.node cy xr y rr)) rr
      .node cx xl (ru y (.node cx xl x yn)) yn
  | t => t

end Rotations

/-- Recolor a frame's node black (write `node->color = BLACK` to a parent on
the zipper path). -/
def blackC : Ctx α → Ctx α
  | .fromL _ v r => .fromL .black v r
  | .fromR _ l v => .fromR .black l v

/-- `x->left`; on the sentinel this reads the sentinel's self-link. -/
def lchild : T α → T α
  | .nil => .nil
  | .node _ l _ _ => l

/-- `x->right`. -/
def rchild : T α → T α
  | .nil => .nil
  | .node _ _ _ r => r

section Fixups

variable (rd : T α → α) (ru : α → T α → α)

/-- `insertFixup(z)` (src/ost.h lines 90-127, src/pom.h lines 156-193),
transcribed over the zipper.  Arguments: `p` are the frames above the loop
variable `z` (head = `z->parent`), `zd` is the top-down position of the
ORIGINAL inserted node inside the current `z` subtree (the C++ caller keeps a
pointer to it; the POM class recomputes augmentation starting from it after
the fix-up), and `zt` is the subtree rooted at the loop variable `z`.
Returns the zipper positioned at the original inserted node; the final
`root->color = BLACK` of the C++ fix-up is applied by the caller on the
reassembled tree.

The loop runs while `z->parent->color == RED`.  When the parent is red a
grandparent always exists in reachable states (the root is black), so the
one-frame pattern falls out of the loop. -/
def insFix : List (Ctx α) → List Bool → T α → List (Ctx α) × T α
  | pf :: gf :: rest, zd, zt =>
    if colC pf = .red then
      match gf with
      | .fromL _gc gv gr =>
        -- z->parent == z->parent->parent->left; uncle y = grandparent->right
        match gr with
        | .node .red ul uv ur =>
            -- case 1: red uncle: recolor parent, uncle, grandparent; z = grandparent
            insFix rest (true :: dirC pf :: zd)
              (.node .red (reattach (blackC pf) zt) gv (.node .black ul uv ur))
        | _ =>
          match pf with
          | .fromR pc pl pv =>
              -- case 2: z is a right child: z = z->parent; leftRotate(z);
              -- then parent black, grandparent red, rightRotate(grandparent)
              let P1 := leftRotate rd ru (.node pc pl pv zt)
              let S := rightRotate rd ru (.node .red (blackenRoot P1) gv gr)
              let dS := rdirs (true :: ldirs (false :: zd))
              let (fr, zf) := descendZ S dS
              (fr ++ rest, zf)
          | .fromL _ pv pr =>
              -- case 3: parent black, grandparent red, rightRotate(grandparent)
              let S := rightRotate rd ru (.node .red (.node .black zt pv pr) gv gr)
              let dS := rdirs (true :: true :: zd)
              let (fr, zf) := descendZ S dS
              (fr ++ rest, zf)
      | .fromR _gc gl gv =>
        -- mirrored: uncle y = grandparent->left
        match gl with
        | .node .red ul uv ur =>
            insFix rest (false :: dirC pf :: zd)
              (.node .red (.node .black ul uv ur) gv (reattach (blackC pf) zt))
        | _ =>
          match pf with
          | .fromL pc pv pr =>
              let P1 := rightRotate rd ru (.node pc zt pv pr)
              let S := leftRotate rd ru (.node .red gl gv (blackenRoot P1))
              let dS := ldirs (false :: rdirs (true :: zd))
              let (fr, zf) := descendZ S dS
              (fr ++ rest, zf)
          | .fromR _ pl pv =>
              let S := leftRotate rd ru (.node .red gl gv (.node .black pl pv zt))
              let dS := ldirs (false :: false :: zd)
              let (fr, zf) := descendZ S dS
              (fr ++ rest, zf)
    else
      let (fr, zf) := descendZ zt zd
      (fr ++ pf :: gf :: rest, zf)
  | p, zd, zt =>
      let (fr, zf) := descendZ zt zd
      (fr ++ p, zf)

/-- In the C++ POM remover, `updateStart` is the lowest node whose subtree
composition changed; `updateAncestors(updateStart)` runs after the delete
fix-up, by which time the fix-up's rotations may have relocated that node.
We track its position relative to the fix-up's loop variable `x`: it is the
sentinel (`nilUS`, no recomputation happens), or `x`'s current parent
(`above`), or inside the `x` subtree at a top-down position (`inside`). -/
inductive USt
  | nilUS
  | above
  | inside (d : List Bool)
deriving DecidableEq, Repr

/-- When the fix-up climbs (`x = x->parent`), the tracked `updateStart`
position moves accordingly; `isLeft` tells which child the old `x` was. -/
def usUp (us : USt) (isLeft : Bool) : USt :=
  match us with
  | .nilUS => .nilUS
  | .above => .inside []
  | .inside d => .inside (isLeft :: d)

/-- Result of the delete fix-up: the zipper positioned at `updateStart`
(`path`, `focus`), whether `updateAncestors` must recompute the focus node
itself (`updUS`; false exactly when `updateStart` was the sentinel), and
whether the loop ended via `x = root` so that the final `x->color = BLACK`
blackens the tree root (`rootB`). -/
structure DFR (α : Type) where
  path : List (Ctx α)
  focus : T α
  updUS : Bool
  rootB : Bool
deriving Repr

/-- Resolve the tracked `updateStart` position into a zipper on the final
tree state `(p, x)`. -/
def finishD (p : List (Ctx α)) (us : USt) (x : T α) (rb : Bool) : DFR α :=
  match us with
  | .nilUS => ⟨[], assemble p x, false, rb⟩
  | .above =>
      match p with
      | f :: rest => ⟨rest, reattach f x, true, rb⟩
      | [] => ⟨[], x, false, rb⟩
  | .inside d =>
      let (fr, u) := descendZ x d
      ⟨fr ++ p, u, true, rb⟩

/-- `deleteFixup(x)` (src/ost.h lines 147-200, src/pom.h lines 213-266) over
the zipper.  `p` are the frames above `x` (head = `x->parent`; the C++ walks
up through `x->parent` even when `x` is the sentinel, whose parent field was
set by `transplant` — the zipper frame carries exactly that information).
One C++ loop iteration is one evaluation of the body below: the "w red" case
1 falls through to cases 2/3/4 within the same iteration, exactly as in the
source; after case 1 the parent is red, so the case-2 branch terminates at
the next loop test (`x` red) and is transcribed as the terminal it is.  The
only true back-edge is plain case 2, which pops one frame (structural
recursion).  Case 4 sets `x = root`; the loop exits and `x->color = BLACK`
blackens the tree root, reported through `rootB`. -/
def delFix : List (Ctx α) → USt → T α → DFR α
  | [], us, x =>
      -- x == root: exit loop; x->color = BLACK
      finishD [] us (blackenRoot x) false
  | f :: p, us, x =>
    if colorOf x = .red then
      -- loop exit: x is red; x->color = BLACK
      finishD (f :: p) us (blackenRoot x) false
    else
      match f with
      | .fromL pc pv w =>
        -- x == x->parent->left; w = x->parent->right
        match w with
        | .node .red wl wv wr =>
            -- case 1: w->color = BLACK; parent red; leftRotate(x->parent); w = wl
            let S1 := leftRotate rd ru (.node .red x pv (.node .black wl wv wr))
            match S1 with
            | .node c1 (.node c2 x2 v2 sib2) v1 sib1 =>
              -- x == x2 sits at position [left,left]; its parent (color c2) is red
              let p' := Ctx.fromL c1 v1 sib1 :: p
              if colorOf (lchild sib2) = .black ∧ colorOf (rchild sib2) = .black then
                -- case 2 after case 1: w2 red, x = x->parent (red) → loop
                -- exits at once and x->color = BLACK
                finishD p' (usUp us true) (.node .black x2 v2 (reddenRoot sib2)) false
              else
                match sib2 with
                | .node w2c w2l w2v w2r =>
                  let w3 :=
                    if colorOf w2r = .black then
                      rightRotate rd ru (.node .red (blackenRoot w2l) w2v w2r)
                    else .node w2c w2l w2v w2r
                  match w3 with
                  | .node _ w4l w4v w4r =>
                    -- case 4: w color = parent color (red); parent black;
                    -- w->right black; leftRotate(x->parent); x = root
                    let S := leftRotate rd ru
                      (.node .black x2 v2 (.node c2 w4l w4v (blackenRoot w4r)))
                    match S with
                    | .node c1' (.node c2' _ v2' s2') v1' s1' =>
                        finishD (Ctx.fromL c2' v2' s2' :: Ctx.fromL c1' v1' s1' :: p')
                          us x true
                    | _ => finishD p' us x true
                  | _ => finishD p' us x true
                | _ => finishD p' us x true
            | _ => finishD p us x false
        | _ =>
          if colorOf (lchild w) = .black ∧ colorOf (rchild w) = .black then
            -- case 2: w->color = RED; x = x->parent
            delFix p (usUp us true) (.node pc x pv (reddenRoot w))
          else
            match w with
            | .node wc wl wv wr =>
              let w3 :=
                if colorOf wr = .black then
                  -- case 3: w->left black; w red; rightRotate(w); w = new sibling
                  rightRotate rd ru (.node .red (blackenRoot wl) wv wr)
                else .node wc wl wv wr
              match w3 with
              | .node _ w4l w4v w4r =>
                -- case 4
                let S := leftRotate rd ru
                  (.node .black x pv (.node pc w4l w4v (blackenRoot w4r)))
                match S with
                | .node c1' (.node c2' _ v2' s2') v1' s1' =>
                    finishD (Ctx.fromL c2' v2' s2' :: Ctx.fromL c1' v1' s1' :: p)
                      us x true
                | _ => finishD p us x true
              | _ => finishD p us x true
            | _ => finishD p us x false
      | .fromR pc w pv =>
        -- mirrored: x == x->parent->right; w = x->parent->left
        match w with
        | .node .red wl wv wr =>
            let S1 := rightRotate rd ru (.node .red (.node .black wl wv wr) pv x)
            match S1 with
            | .node c1 sib1 v1 (.node c2 sib2 v2 x2) =>
              let p' := Ctx.fromR c1 sib1 v1 :: p
              if colorOf (rchild sib2) = .black ∧ colorOf (lchild sib2) = .black then
                finishD p' (usUp us false) (.node .black (reddenRoot sib2) v2 x2) false
              else
                match sib2 with
                | .node w2c w2l w2v w2r =>
                  let w3 :=
                    if colorOf w2l = .black then
                      leftRotate rd ru (.node .red w2l w2v (blackenRoot w2r))
                    else .node w2c w2l w2v w2r
                  match w3 with
                  | .node _ w4l w4v w4r =>
                    let S := rightRotate rd ru
                      (.node .black (.node c2 (blackenRoot w4l) w4v w4r) v2 x2)
                    match S with
                    | .node c1' s1' v1' (.node c2' s2' v2' _) =>
                        finishD (Ctx.fromR c2' s2' v2' :: Ctx.fromR c1' s1' v1' :: p')
                          us x true
                    | _ => finishD p' us x true
                  | _ => finishD p' us x true
                | _ => finishD p' us x true
            | _ => finishD p us x false
        | _ =>
          if colorOf (rchild w) = .black ∧ colorOf (lchild w) = .black then
            delFix p (usUp us false) (.node pc (reddenRoot w) pv x)
          else
            match w with
            | .node wc wl wv wr =>
              let w3 :=
                if colorOf wl = .black then
                  leftRotate rd ru (.node .red wl wv (blackenRoot wr))
                else .node wc wl wv wr
              match w3 with
              | .node _ w4l w4v w4r =>
                let S := rightRotate rd ru
                  (.node .black (.node pc (blackenRoot w4l) w4v w4r) pv x)
                match S with
                | .node c1' s1' v1' (.node c2' s2' v2' _) =>
                    finishD (Ctx.fromR c2' s2' v2' :: Ctx.fromR c1' s1' v1' :: p)
                      us x true
                | _ => finishD p us x true
              | _ => finishD p us x true
            | _ => finishD p us x false

end Fixups

section SearchRemove

variable (rd : T α → α) (ru : α → T α → α)

/-- Insertion descent (src/ost.h lines 241-259, src/pom.h lines 316-333):
walk down comparing with `goL`, applying `visit` to every node on the path
(the OST's `x->size++`; the identity for the POM), recording the path to the
attachment point. -/
def insPath (visit : α → α) (goL : α → Bool) : T α → List (Ctx α) → List (Ctx α)
  | .nil, p => p
  | .node c l v r, p =>
      if goL v then insPath visit goL l (.fromL c (visit v) r :: p)
      else insPath visit goL r (.fromR c l (visit v) :: p)

/-- `search` (src/ost.h lines 319-328, src/pom.h lines 268-278), recording
the descent path: `isM v` is the loop's match test, `goL v` the
descend-left test. -/
def searchPath (isM : α → Bool) (goL : α → Bool) :
    T α → List (Ctx α) → Option (List (Ctx α) × RBColor × T α × α × T α)
  | .nil, _ => none
  | .node c l v r, p =>
      if isM v then some (p, c, l, v, r)
      else if goL v then searchPath isM goL l (.fromL c v r :: p)
      else searchPath isM goL r (.fromR c l v :: p)

/-- `minimum(x)` (src/ost.h lines 140-145, src/pom.h lines 206-211) on a
non-sentinel subtree, recording the frames walked through (all `fromL`,
head = the minimum's parent).  The sentinel case is unreachable (callers
pass a node). -/
def minSplit [Inhabited α] : T α → List (Ctx α) → List (Ctx α) × RBColor × α × T α
  | .node c .nil v r, acc => (acc, c, v, r)
  | .node c (.node c' l' v' r') v r, acc =>
      minSplit (.node c' l' v' r') (.fromL c v r :: acc)
  | .nil, acc => (acc, .black, default, .nil)

/-- Apply the ancestor-payload update to one frame. -/
def decCtx (dec : α → α) : Ctx α → Ctx α
  | .fromL c v r => .fromL c (dec v) r
  | .fromR c l v => .fromR c l (dec v)

/-- Common body of `remove` once `search` has found `z`
(src/ost.h lines 265-317, src/pom.h lines 340-384).  `dec` is applied to
every ancestor payload on the path from `z` to the root before splicing
(`p->size--` for the OST; the identity for the POM) and, in the deep
two-children case, to the payloads strictly between the successor `y` and
`z`.  `yPay` recomputes the promoted successor's payload from its newly
attached children (the OST's `y->size = size(y->left)+size(y->right)+1`;
the POM keeps `y`'s stored payload, deferring to `updateAncestors`).
`updateStart` is the spliced node's parent (`above` resolves to the first
frame; `nilUS` when `z` was the root), or the successor itself when it was
`z`'s direct right child. -/
def removeAux [Inhabited α] (dec : α → α) (yPay : α → T α → T α → α)
    (p : List (Ctx α)) (zc : RBColor) (zl : T α) (zr : T α) : DFR α :=
  let p' := p.map (decCtx dec)
  let us : USt := if p'.isEmpty then .nilUS else .above
  match zl, zr with
  | .nil, _ =>
      -- x = z->right; transplant(z, z->right)
      if zc = .black then delFix rd ru p' us zr
      else finishD p' us zr false
  | .node lc ll lv lr, .nil =>
      -- x = z->left; transplant(z, z->left)
      if zc = .black then delFix rd ru p' us (.node lc ll lv lr)
      else finishD p' us (.node lc ll lv lr) false
  | .node lc ll lv lr, .node rc rl rv rr =>
      let zln : T α := .node lc ll lv lr
      let (acc, yc, yv, yr) := minSplit (.node rc rl rv rr) []
      match acc with
      | [] =>
          -- y == z->right: x = y->right, x->parent = y; y takes z's place
          let fullP := Ctx.fromR zc zln (yPay yv zln yr) :: p'
          if yc = .black then delFix rd ru fullP .above yr
          else finishD fullP .above yr false
      | a :: acc' =>
          -- transplant(y, y->right); y->right = z->right; y takes z's place
          let inner := (a :: acc').map (decCtx dec)
          let fullP := inner ++ Ctx.fromR zc zln (yPay yv zln (assemble inner yr)) :: p'
          if yc = .black then delFix rd ru fullP .above yr
          else finishD fullP .above yr false

end SearchRemove

end RBG

/-- Payload of an `OSTNode` (src/ost.h lines 19-30): key and stored subtree
size. -/
structure OPay where
  k : Int
  sz : Int
deriving DecidableEq, Repr, Inhabited

namespace OST

open RBG

/-- An `OrderStatisticTree<int>` state (the subtree hanging off `root`). -/
abbrev OT := RBG.T OPay

/-- `getSize(node)` (src/ost.h lines 202-204): 0 for the sentinel, else the
STORED size field. -/
def getSize : OT → Int
  | .nil => 0
  | .node _ _ v _ => v.sz

/-- Rotation refresh of the node that moved down:
`x->size = getSize(x->left) + getSize(x->right) + 1`. -/
def rdHook : OT → OPay
  | .node _ l v r => ⟨v.k, getSize l + getSize r + 1⟩
  | .nil => default

/-- Rotation refresh of the node that moved up: `y->size = x->size`. -/
def ruHook (old : OPay) : OT → OPay
  | .node _ _ v _ => ⟨v.k, old.sz⟩
  | .nil => old

/-- `insert(key)` (src/ost.h lines 234-263): descend comparing
`z->key < x->key` (duplicates go right), incrementing `size` along the path,
attach the new red node of size 1, run `insertFixup`, whose last line
blackens the root. -/
def insert (t : OT) (key : Int) : OT :=
  let p := insPath (fun v => ⟨v.k, v.sz + 1⟩) (fun v => key < v.k) t []
  let (fr, z) := insFix rdHook ruHook p [] (.node .red .nil ⟨key, 1⟩ .nil)
  blackenRoot (assemble fr z)

/-- `remove(key)` (src/ost.h lines 265-317): locate `z`; decrement sizes on
the path to the root; splice out `z` (promoting the in-order successor in
the two-children case, with the extra decrements between `y` and `z`); run
`deleteFixup` when a black node was unlinked. -/
def remove (t : OT) (key : Int) : OT :=
  match searchPath (fun v => key = v.k) (fun v => key < v.k) t [] with
  | none => t
  | some (p, zc, zl, _zv, zr) =>
      let dfr := removeAux rdHook ruHook (fun v => ⟨v.k, v.sz - 1⟩)
        (fun yv l r => ⟨yv.k, getSize l + getSize r + 1⟩) p zc zl zr
      let t' := assemble dfr.path dfr.focus
      if dfr.rootB then blackenRoot t' else t'

/-- `selectNode(x, k)` (src/ost.h lines 339-350). -/
def selectNode : OT → Int → OT
  | .nil, _ => .nil
  | .node c l v r, k =>
      let rk := getSize l + 1
      if k = rk then .node c l v r
      else if k < rk then selectNode l k
      else selectNode r (k - rk)

/-- `select(k)` (src/ost.h lines 331-337); `none` models the
`std::out_of_range` throw. -/
def select (t : OT) (k : Int) : Option Int :=
  match selectNode t k with
  | .nil => none
  | .node _ _ v _ => some v.k

/-- The ascent of `rank` (src/ost.h lines 360-365): add
`getSize(parent->left) + 1` whenever coming up from a right child. -/
def rankUp : List (Ctx OPay) → Int → Int
  | [], acc => acc
  | .fromL _ _ _ :: p, acc => rankUp p acc
  | .fromR _ l _ :: p, acc => rankUp p (acc + getSize l + 1)

/-- `rank(key)` (src/ost.h lines 353-368): −1 when the key is absent. -/
def rank (t : OT) (key : Int) : Int :=
  match searchPath (fun v => key = v.k) (fun v => key < v.k) t [] with
  | none => -1
  | some (p, _, l, _, _) => rankUp p (getSize l + 1)

/-- `size()` (src/ost.h lines 370-372): the root's stored size. -/
def sizeI (t : OT) : Int := getSize t

/-- `empty()` (src/ost.h lines 374-376). -/
def isEmpty : OT → Bool
  | .nil => true
  | _ => false

end OST

namespace Josephus

/-- The initialization loop of `generateOST` (src/josephus.h lines 26-28). -/
def initTree (n : Int) : OST.OT :=
  (List.range n.toNat).foldl (fun t i => OST.insert t (Int.ofNat i)) .nil

/-- The elimination loop of `generateOST` (src/josephus.h lines 33-47).
Each iteration removes one element, so fuel equal to the tree size plus one
always suffices; `none` models a `select` throw or fuel exhaustion (neither
occurs in real executions, as proved below). -/
def genLoop (m : Int) : Nat → OST.OT → Int → List Int → Option (List Int)
  | 0, t, _, acc => if OST.isEmpty t then some acc.reverse else none
  | fuel + 1, t, cur, acc =>
      if OST.isEmpty t then some acc.reverse
      else
        let cur1 := (cur + m - 1) % OST.sizeI t
        match OST.select t (cur1 + 1) with
        | none => none
        | some e =>
            let t' := OST.remove t e
            let cur2 := if OST.isEmpty t' then cur1 else cur1 % OST.sizeI t'
            genLoop m fuel t' cur2 (e :: acc)

/-- `generateOST(n, m)` (src/josephus.h lines 22-50). -/
def generateOST (n m : Int) : Option (List Int) :=
  genLoop m (n.toNat + 1) (initTree n) 0 []

/-- The inner counting loop of `generateNaive` (src/josephus.h lines 61-70):
count alive people starting at `cur`, stopping on the `m`-th. -/
def findM (alive : List Bool) (n m : Int) : Nat → Int → Int → Option Int
  | 0, _, _ => none
  | fuel + 1, count, cur =>
      if count < m then
        if alive.getD cur.toNat false then
          if count + 1 = m then some cur
          else findM alive n m fuel (count + 1) ((cur + 1) % n)
        else findM alive n m fuel count ((cur + 1) % n)
      else some cur

/-- The advance-to-next-alive loop of `generateNaive`
(src/josephus.h lines 77-83). -/
def nextAlive (alive : List Bool) (n : Int) : Nat → Int → Option Int
  | 0, _ => none
  | fuel + 1, cur =>
      if alive.getD cur.toNat false then some cur
      else nextAlive alive n fuel ((cur + 1) % n)

/-- The outer loop of `generateNaive` (src/josephus.h lines 60-84). -/
def naiveLoop (n m : Int) :
    Nat → List Bool → Int → Int → List Int → Option (List Int)
  | 0, _, _, remaining, acc => if remaining ≤ 0 then some acc.reverse else none
  | fuel + 1, alive, cur, remaining, acc =>
      if remaining ≤ 0 then some acc.reverse
      else
        match findM alive n m ((m.toNat + 1) * (n.toNat + 1) + 1) 0 cur with
        | none => none
        | some curE =>
            let alive' := alive.set curE.toNat false
            let rem' := remaining - 1
            if rem' > 0 then
              match nextAlive alive' n (n.toNat + 1) ((curE + 1) % n) with
              | none => none
              | some cur' => naiveLoop n m fuel alive' cur' rem' (curE :: acc)
            else naiveLoop n m fuel alive' curE rem' (curE :: acc)

/-- `generateNaive(n, m)` (src/josephus.h lines 53-87). -/
def generateNaive (n m : Int) : Option (List Int) :=
  naiveLoop n m (n.toNat + 1) (List.replicate n.toNat true) 0 n []

end Josephus

namespace POM

/-- `Interval` (src/pom.h lines 22-33): `[start, end)` with an integer
value, ordered by `start` (`end` is a Lean keyword; the field is `e`;
the name lives in the `POM` namespace to avoid Mathlib's `Interval`). -/
structure Interval where
  s : Int
  e : Int
  v : Int
deriving DecidableEq, Repr, Inhabited

/-- `AugmentedData` (src/pom.h lines 35-43). -/
structure Aug where
  sum : Int
  maxpref : Int
  argmax : Int
deriving DecidableEq, Repr, Inhabited

/-- The C++ `LLONG_MIN`, used as the "maxpref of an empty subtree"
sentinel. -/
def LLMIN : Int := -(2 ^ 63)

/-- Payload of a `POMNode` (src/pom.h lines 45-59). -/
structure PPay where
  iv : Interval
  d : Aug
deriving DecidableEq, Repr, Inhabited

open RBG

/-- A `POMTree` state. -/
abbrev PT := RBG.T PPay

/-- Stored `data` of a node; the sentinel holds `AugmentedData()`
(src/pom.h lines 40, 300), never mutated afterwards. -/
def dataOf : PT → Aug
  | .nil => ⟨0, LLMIN, -1⟩
  | .node _ _ p _ => p.d

/-- `updateAugmentedData(node)` (src/pom.h lines 116-154): recompute the
summary from the node's own interval and the children's STORED summaries;
three candidates under strict-improvement comparison. -/
def updAug : PT → Aug
  | .nil => ⟨0, LLMIN, -1⟩
  | .node _ l p r =>
      let sum1 := p.iv.v
      let sum2 := match l with | .nil => sum1 | _ => sum1 + (dataOf l).sum
      let sum3 := match r with | .nil => sum2 | _ => sum2 + (dataOf r).sum
      let leftSum : Int := match l with | .nil => 0 | _ => (dataOf l).sum
      let rightMaxPref : Int := match r with | .nil => LLMIN | _ => (dataOf r).maxpref
      -- case 1: the maximum prefix lies entirely in the left subtree
      let mp1 : Int := match l with | .nil => LLMIN | _ => (dataOf l).maxpref
      let am1 : Int := match l with | .nil => -1 | _ => (dataOf l).argmax
      -- case 2: the prefix ends exactly at this node
      let prefixAtNode := leftSum + p.iv.v
      let (mp2, am2) :=
        if prefixAtNode > mp1 then (prefixAtNode, p.iv.s) else (mp1, am1)
      -- case 3: the prefix extends into the right subtree
      let (mp3, am3) :=
        match r with
        | .nil => (mp2, am2)
        | _ =>
            if prefixAtNode + rightMaxPref > mp2 then
              (prefixAtNode + rightMaxPref, (dataOf r).argmax)
            else (mp2, am2)
      ⟨sum3, mp3, am3⟩

/-- Recompute a node's stored summary in place. -/
def updAugT : PT → PT
  | .nil => .nil
  | .node c l p r => .node c l ⟨p.iv, updAug (.node c l p r)⟩ r

/-- Rotation refresh, down-moved node: `updateAugmentedData(x)`
(src/pom.h lines 87, 112). -/
def rdHook : PT → PPay
  | .nil => default
  | .node c l p r => ⟨p.iv, updAug (.node c l p r)⟩

/-- Rotation refresh, up-moved node: `updateAugmentedData(y)`, run after the
down-moved child has been refreshed (src/pom.h lines 88, 113). -/
def ruHook (_old : PPay) (t : PT) : PPay := rdHook t

/-- `updateAncestors(node)` (src/pom.h lines 288-293) from a zipper
position whose focus has already been recomputed: recompute every ancestor
up to the root. -/
def updateUp : List (Ctx PPay) → PT → PT
  | [], t => t
  | f :: p, t => updateUp p (updAugT (reattach f t))

/-- `insert(interval)` (src/pom.h lines 309-338): BST descent by
`operator<` (start comparison, duplicates right), attach the red node with
its constructor summary (src/pom.h lines 53-58), `insertFixup`, then
`updateAncestors(z)` from the inserted node.  The fix-up's final
`root->color = BLACK` commutes with `updateAncestors` (recomputation reads
no colors), so it is applied last. -/
def insert (t : PT) (iv : Interval) : PT :=
  let z : PT := .node .red .nil ⟨iv, ⟨iv.v, iv.v, iv.s⟩⟩ .nil
  let p := insPath id (fun w => iv.s < w.iv.s) t []
  let (fr, zf) := insFix rdHook ruHook p [] z
  blackenRoot (updateUp fr (updAugT zf))

/-- `remove(interval)` (src/pom.h lines 340-384): locate the exact
`(start, end)` match descending by `operator<`, splice (no payload
bookkeeping on the way), fix up if a black node was unlinked, then
`updateAncestors(updateStart)`. -/
def remove (t : PT) (iv : Interval) : PT :=
  match searchPath (fun w => iv.s == w.iv.s && iv.e == w.iv.e)
      (fun w => iv.s < w.iv.s) t [] with
  | none => t
  | some (p, zc, zl, _zv, zr) =>
      let dfr := removeAux rdHook ruHook id (fun yv _ _ => yv) p zc zl zr
      let t' := updateUp dfr.path (if dfr.updUS then updAugT dfr.focus else dfr.focus)
      if dfr.rootB then blackenRoot t' else t'

/-- `findPOM()` (src/pom.h lines 387-392): the root's stored summary;
`AugmentedData()` on an empty tree. -/
def findPOM : PT → Aug
  | .nil => ⟨0, LLMIN, -1⟩
  | .node _ _ p _ => p.d

/-- `getSum()` (src/pom.h lines 394-397). -/
def getSum : PT → Int
  | .nil => 0
  | .node _ _ p _ => p.d.sum

/-- `empty()` (src/pom.h lines 399-401). -/
def isEmpty : PT → Bool
  | .nil => true
  | _ => false

end POM

/-! ## Verification layer: in-order contents -/

namespace RBG

variable {α : Type} {κ : Type}

/-- In-order sequence of the node payloads of a tree. -/
def inorder : T α → List α
  | .nil => []
  | .node _ l v r => inorder l ++ v :: inorder r

@[simp] lemma inorder_nil : inorder (.nil : T α) = [] := rfl

@[simp] lemma inorder_node (c : RBColor) (l : T α) (v : α) (r : T α) :
    inorder (.node c l v r) = inorder l ++ v :: inorder r := rfl

@[simp] lemma inorder_blackenRoot (t : T α) :
    inorder (blackenRoot t) = inorder t := by
  cases t <;> rfl

@[simp] lemma inorder_reddenRoot (t : T α) :
    inorder (reddenRoot t) = inorder t := by
  cases t <;> rfl

@[simp] lemma assemble_nilctx (t : T α) : assemble [] t = t := rfl

@[simp] lemma assemble_cons (f : Ctx α) (p : List (Ctx α)) (t : T α) :
    assemble (f :: p) t = assemble p (reattach f t) := rfl

@[simp] lemma reattach_fromL (c : RBColor) (v : α) (r t : T α) :
    reattach (.fromL c v r) t = .node c t v r := rfl

@[simp] lemma reattach_fromR (c : RBColor) (l : T α) (v : α) (t : T α) :
    reattach (.fromR c l v) t = .node c l v t := rfl

lemma assemble_append (p q : List (Ctx α)) (t : T α) :
    assemble (p ++ q) t = assemble q (assemble p t) := by
  induction p generalizing t with
  | nil => rfl
  | cons f p ih => simp [ih]

lemma descendZ_assemble (d : List Bool) (t : T α) :
    assemble (descendZ t d).1 (descendZ t d).2 = t := by
  induction d generalizing t with
  | nil => cases t <;> rfl
  | cons b d ih =>
      cases t with
      | nil => rfl
      | node c l v r =>
          cases b <;> simp [descendZ, assemble_append, ih]

lemma assemble_finishD (p : List (Ctx α)) (us : USt) (x : T α) (rb : Bool) :
    assemble (finishD p us x rb).path (finishD p us x rb).focus = assemble p x := by
  cases us with
  | nilUS => rfl
  | above => cases p <;> rfl
  | inside d => simp [finishD, assemble_append, descendZ_assemble]

section Content

variable (kf : α → κ)

/-- Projected in-order contents (OST: keys; POM: intervals). -/
def keysQ (t : T α) : List κ := (inorder t).map kf

@[simp] lemma keysQ_nil : keysQ kf (.nil : T α) = [] := rfl

@[simp] lemma keysQ_node (c : RBColor) (l : T α) (v : α) (r : T α) :
    keysQ kf (.node c l v r) = keysQ kf l ++ kf v :: keysQ kf r := by
  simp [keysQ]

@[simp] lemma keysQ_blackenRoot (t : T α) : keysQ kf (blackenRoot t) = keysQ kf t := by
  simp [keysQ]

@[simp] lemma keysQ_reddenRoot (t : T α) : keysQ kf (reddenRoot t) = keysQ kf t := by
  simp [keysQ]

/-- How a context transforms the projected contents of the plugged subtree. -/
def ctxThread : List (Ctx α) → List κ → List κ
  | [], ks => ks
  | .fromL _ v r :: p, ks => ctxThread p (ks ++ kf v :: keysQ kf r)
  | .fromR _ l v :: p, ks => ctxThread p (keysQ kf l ++ kf v :: ks)

@[simp] lemma ctxThread_nil (ks : List κ) : ctxThread kf [] ks = ks := rfl

@[simp] lemma ctxThread_fromL (c : RBColor) (v : α) (r : T α) (p : List (Ctx α))
    (ks : List κ) :
    ctxThread kf (.fromL c v r :: p) ks = ctxThread kf p (ks ++ kf v :: keysQ kf r) := rfl

@[simp] lemma ctxThread_fromR (c : RBColor) (l : T α) (v : α) (p : List (Ctx α))
    (ks : List κ) :
    ctxThread kf (.fromR c l v :: p) ks = ctxThread kf p (keysQ kf l ++ kf v :: ks) := rfl

lemma keysQ_assemble (p : List (Ctx α)) (t : T α) :
    keysQ kf (assemble p t) = ctxThread kf p (keysQ kf t) := by
  induction p generalizing t with
  | nil => rfl
  | cons f p ih => cases f <;> simp [ih]

variable (rd : T α → α) (ru : α → T α → α)
variable (hrd : ∀ c (l : T α) v r, kf (rd (.node c l v r)) = kf v)
variable (hru : ∀ (a : α) c (l : T α) v r, kf (ru a (.node c l v r)) = kf v)

include hrd hru in
lemma keysQ_leftRotate (t : T α) : keysQ kf (leftRotate rd ru t) = keysQ kf t := by
  cases t with
  | nil => rfl
  | node cx l x r =>
      cases r with
      | nil => rfl
      | node cy rl y rr => simp [leftRotate, hrd, hru]

include hrd hru in
lemma keysQ_rightRotate (t : T α) : keysQ kf (rightRotate rd ru t) = keysQ kf t := by
  cases t with
  | nil => rfl
  | node cy l y rr =>
      cases l with
      | nil => rfl
      | node cx xl x xr => simp [rightRotate, hrd, hru]

include hrd hru in
/-- The insertion fix-up reorganizes the tree but never changes the in-order
sequence of (projected) contents. -/
lemma keysQ_insFix (p : List (Ctx α)) (zd : List Bool) (zt : T α) :
    keysQ kf (assemble (insFix rd ru p zd zt).1 (insFix rd ru p zd zt).2)
      = ctxThread kf p (keysQ kf zt) := by
  induction p, zd, zt using insFix.induct rd ru with
  | case1 pf rest zd zt hred gc gv ul uv ur ih =>
      cases pf <;> simp_all [insFix, keysQ_assemble, blackC, List.append_assoc]
  | case2 rest zd zt gc gv gr hnr pc pl pv P1 dS fr z S hdes hredp =>
      have hpc : pc = RBColor.red := by simpa [colC] using hredp
      subst hpc
      unfold S dS P1 at hdes
      have hA := descendZ_assemble (rdirs (true :: ldirs (false :: zd)))
        (rightRotate rd ru
          (.node .red (blackenRoot (leftRotate rd ru (.node .red pl pv zt))) gv gr))
      rw [hdes] at hA
      have hfix : insFix rd ru (Ctx.fromR .red pl pv :: Ctx.fromL gc gv gr :: rest) zd zt
          = (fr ++ rest, z) := by
        rcases gr with _ | ⟨uc, ul, uv, ur⟩
        · simp [insFix, colC, hdes]
        · cases uc
          · exact absurd rfl (hnr ul uv ur)
          · simp [insFix, colC, hdes]
      rw [hfix]
      simp only [assemble_append, hA, keysQ_assemble]
      simp [keysQ_rightRotate kf rd ru hrd hru, keysQ_leftRotate kf rd ru hrd hru]
  | case3 rest zd zt gc gv gr hnr pc pv pr dS fr z S hdes hredp =>
      have hpc : pc = RBColor.red := by simpa [colC] using hredp
      subst hpc
      unfold S dS at hdes
      have hA := descendZ_assemble (rdirs (true :: true :: zd))
        (rightRotate rd ru (.node .red (.node .black zt pv pr) gv gr))
      rw [hdes] at hA
      have hfix : insFix rd ru (Ctx.fromL .red pv pr :: Ctx.fromL gc gv gr :: rest) zd zt
          = (fr ++ rest, z) := by
        rcases gr with _ | ⟨uc, ul, uv, ur⟩
        · simp [insFix, colC, hdes]
        · cases uc
          · exact absurd rfl (hnr ul uv ur)
          · simp [insFix, colC, hdes]
      rw [hfix]
      simp only [assemble_append, hA, keysQ_assemble]
      simp [keysQ_rightRotate kf rd ru hrd hru]
  | case4 pf rest zd zt hred gc gl ul uv ur ih =>
      cases pf <;> simp_all [insFix, keysQ_assemble, blackC, List.append_assoc]
  | case5 rest zd zt gc gv gl hnr pc pv pr P1 dS fr z S hdes hredp =>
      have hpc : pc = RBColor.red := by simpa [colC] using hredp
      subst hpc
      unfold S dS P1 at hdes
      have hA := descendZ_assemble (ldirs (false :: rdirs (true :: zd)))
        (leftRotate rd ru
          (.node .red gl gv (blackenRoot (rightRotate rd ru (.node .red zt pv pr)))))
      rw [hdes] at hA
      have hfix : insFix rd ru (Ctx.fromL .red pv pr :: Ctx.fromR gc gl gv :: rest) zd zt
          = (fr ++ rest, z) := by
        rcases gl with _ | ⟨uc, ul, uv, ur⟩
        · simp [insFix, colC, hdes]
        · cases uc
          · exact absurd rfl (hnr ul uv ur)
          · simp [insFix, colC, hdes]
      rw [hfix]
      simp only [assemble_append, hA, keysQ_assemble]
      simp [keysQ_rightRotate kf rd ru hrd hru, keysQ_leftRotate kf rd ru hrd hru]
  | case6 rest zd zt gc gv gl hnr pc pl pv dS fr z S hdes hredp =>
      have hpc : pc = RBColor.red := by simpa [colC] using hredp
      subst hpc
      unfold S dS at hdes
      have hA := descendZ_assemble (ldirs (false :: false :: zd))
        (leftRotate rd ru (.node .red gl gv (.node .black pl pv zt)))
      rw [hdes] at hA
      have hfix : insFix rd ru (Ctx.fromR .red pl pv :: Ctx.fromR gc gl gv :: rest) zd zt
          = (fr ++ rest, z) := by
        rcases gl with _ | ⟨uc, ul, uv, ur⟩
        · simp [insFix, colC, hdes]
        · cases uc
          · exact absurd rfl (hnr ul uv ur)
          · simp [insFix, colC, hdes]
      rw [hfix]
      simp only [assemble_append, hA, keysQ_assemble]
      simp [keysQ_leftRotate kf rd ru hrd hru]
  | case7 pf gf rest zd zt hnred fr z hdes =>
      have hA := descendZ_assemble zd zt
      rw [hdes] at hA
      simp only [Prod.fst, Prod.snd] at hA
      have hfix : insFix rd ru (pf :: gf :: rest) zd zt = (fr ++ pf :: gf :: rest, z) := by
        simp [insFix, hnred, hdes]
      rw [hfix, assemble_append, hA, keysQ_assemble]
  | case8 p zd zt hshape fr z hdes =>
      have hA := descendZ_assemble zd zt
      rw [hdes] at hA
      simp only [Prod.fst, Prod.snd] at hA
      have hfix : insFix rd ru p zd zt = (fr ++ p, z) := by
        match p, hshape with
        | [], _ => simp [insFix, hdes]
        | [f], _ => simp [insFix, hdes]
        | f :: g :: rest, hs => exact absurd rfl (hs f g rest)
      rw [hfix, assemble_append, hA, keysQ_assemble]

include hrd hru in
lemma keysQ_delFix (p : List (Ctx α)) (us : USt) (x : T α) :
    keysQ kf (assemble (delFix rd ru p us x).path (delFix rd ru p us x).focus)
      = ctxThread kf p (keysQ kf x) := by
  have hfin : ∀ (q : List (Ctx α)) us' (y : T α) rb,
      keysQ kf (assemble (finishD q us' y rb).path (finishD q us' y rb).focus)
        = ctxThread kf q (keysQ kf y) := by
    intro q us' y rb
    rw [assemble_finishD, keysQ_assemble]
  induction p, us, x using delFix.induct rd ru with
  | case1 us x => simpa [delFix] using hfin [] us (blackenRoot x) false
  | case2 f p us x hred =>
      have := hfin (f :: p) us (blackenRoot x) false
      simp only [delFix, hred, if_pos] at *
      cases f <;> simp_all
  | case3 p us x hx pc pv ul uv ur S1 cy cx xl x1 xr y rr hS1 hbb =>
      unfold S1 at hS1
      simp only [leftRotate] at hS1
      have e := hS1.symm
      rw [T.node.injEq, T.node.injEq] at e
      obtain ⟨rfl, ⟨rfl, rfl, rfl, rfl⟩, rfl, rfl⟩ := e
      simp only [delFix, leftRotate]
      rw [if_neg hx, if_pos hbb, hfin]
      simp [hrd, hru, List.append_assoc]
  | case4 p us x hx pc pv ul uv ur S1 cy cx xl x1 y rr c w4l w4v w4r w3 c1 w4l1 w4v1 w4r1 hw3 S cy1 cx1 xl1 x3 xr y1 rr1 hS hS1 hnbb =>
      unfold S1 at hS1
      simp only [leftRotate] at hS1
      have e := hS1.symm
      rw [T.node.injEq, T.node.injEq] at e
      obtain ⟨rfl, ⟨rfl, rfl, rfl, rfl⟩, rfl, rfl⟩ := e
      unfold w3 at hw3
      simp only [delFix, leftRotate]
      rw [if_neg hx, if_neg hnbb, hw3, hfin]
      unfold S at hS
      simp only [leftRotate] at hS ⊢
      have hk' : keysQ kf w4l1 ++ kf w4v1 :: keysQ kf w4r1
          = keysQ kf w4l ++ kf w4v :: keysQ kf w4r := by
        have hk := congrArg (keysQ kf) hw3.symm
        rcases Decidable.em (colorOf w4r = RBColor.black) with hc | hc
        · rw [if_pos hc, keysQ_rightRotate kf rd ru hrd hru] at hk
          simpa using hk
        · rw [if_neg hc] at hk
          simpa using hk
      simp [hrd, hru, List.append_assoc]
      rw [show keysQ kf w4l1 ++ kf w4v1 :: (keysQ kf w4r1 ++ kf uv :: keysQ kf rr)
          = (keysQ kf w4l1 ++ kf w4v1 :: keysQ kf w4r1) ++ kf uv :: keysQ kf rr by
        simp [List.append_assoc]]
      rw [hk']
      simp [List.append_assoc]
  | case5 p us x hx pc pv ul uv ur S1 cy cx xl x1 y rr c w4l w4v w4r w3 c1 w4l1 w4v1 w4r1 hw3 S hS1 hnbb hSfail =>
      exact (hSfail _ _ _ _ _ _ _ rfl).elim
  | case6 p us x hx pc pv ul uv ur S1 cy cx xl x1 y rr c w4l w4v w4r w3 hw3fail hS1 hnbb =>
      unfold w3 at hw3fail
      rcases Decidable.em (colorOf w4r = RBColor.black) with hc | hc
      · simp only [if_pos hc] at hw3fail
        rcases w4l with _ | ⟨wc', wl', wv', wr'⟩
        · exact (hw3fail _ _ _ _ rfl).elim
        · exact (hw3fail _ _ _ _ rfl).elim
      · simp only [if_neg hc] at hw3fail
        exact (hw3fail _ _ _ _ rfl).elim
  | case7 p us x hx pc pv ul uv ur S1 cy cx xl x1 xr y rr hS1 hnbb hxrfail =>
      unfold S1 at hS1
      simp only [leftRotate] at hS1
      have e := hS1.symm
      rw [T.node.injEq, T.node.injEq] at e
      obtain ⟨rfl, ⟨rfl, rfl, rfl, rfl⟩, rfl, rfl⟩ := e
      cases xr with
      | nil => exact absurd ⟨rfl, rfl⟩ hnbb
      | node uc' ul' uv' ur' => exact (hxrfail _ _ _ _ rfl).elim
  | case8 p us x hx pc pv ul uv ur S1 hS1fail =>
      exact (hS1fail _ _ _ _ _ _ _ rfl).elim
  | case9 p us x hx pc pv w hwnr hbb ih =>
      rcases w with _ | ⟨wc, wl, wv, wr⟩
      · simp only [delFix]
        rw [if_neg hx, if_pos hbb, ih]
        simp
      · cases wc
        · exact (hwnr _ _ _ rfl).elim
        · simp only [delFix]
          rw [if_neg hx, if_pos hbb, ih]
          simp
  | case10 p us x hx pc pv c w4l w4v w4r w3 c1 w4l1 w4v1 w4r1 hw3 S cy cx xl x2 xr y rr hS hwnr hnbb =>
      unfold w3 at hw3
      cases c
      · exact (hwnr _ _ _ rfl).elim
      · simp only [delFix]
        rw [if_neg hx, if_neg hnbb, hw3]
        dsimp only [leftRotate]
        rw [hfin]
        have hk' : keysQ kf w4l1 ++ kf w4v1 :: keysQ kf w4r1
            = keysQ kf w4l ++ kf w4v :: keysQ kf w4r := by
          have hk := congrArg (keysQ kf) hw3.symm
          rcases Decidable.em (colorOf w4r = RBColor.black) with hc | hc
          · rw [if_pos hc, keysQ_rightRotate kf rd ru hrd hru] at hk
            simpa using hk
          · rw [if_neg hc] at hk
            simpa using hk
        simp [hrd, hru, List.append_assoc]
        rw [hk']
  | case11 p us x hx pc pv c w4l w4v w4r w3 c1 w4l1 w4v1 w4r1 hw3 S hwnr hnbb hSfail =>
      exact (hSfail _ _ _ _ _ _ _ rfl).elim
  | case12 p us x hx pc pv c w4l w4v w4r w3 hwnr hnbb hw3fail =>
      unfold w3 at hw3fail
      rcases Decidable.em (colorOf w4r = RBColor.black) with hc | hc
      · simp only [if_pos hc] at hw3fail
        rcases w4l with _ | ⟨wc', wl', wv', wr'⟩
        · exact (hw3fail _ _ _ _ rfl).elim
        · exact (hw3fail _ _ _ _ rfl).elim
      · simp only [if_neg hc] at hw3fail
        exact (hw3fail _ _ _ _ rfl).elim
  | case13 p us x hx pc pv w hwnotnode hwnr hnbb =>
      cases w with
      | nil => exact absurd ⟨rfl, rfl⟩ hnbb
      | node wc wl wv wr => exact (hwnotnode _ _ _ _ rfl).elim
  | case14 p us x hx pc pv ul uv ur S1 cx l x1 cy rl y rr hS1 hbb =>
      unfold S1 at hS1
      simp only [rightRotate] at hS1
      have e := hS1.symm
      rw [T.node.injEq, T.node.injEq] at e
      obtain ⟨rfl, rfl, rfl, rfl, rfl, rfl, rfl⟩ := e
      simp only [delFix, rightRotate]
      rw [if_neg hx, if_pos hbb, hfin]
      simp [hrd, hru, List.append_assoc]
  | case15 p us x hx pc pv ul uv ur S1 cx l x1 cy y rr c w4l w4v w4r w3 c1 w4l1 w4v1 w4r1 hw3 S cx1 l1 x3 cy1 rl y1 rr1 hS hS1 hnbb =>
      unfold S1 at hS1
      simp only [rightRotate] at hS1
      have e := hS1.symm
      rw [T.node.injEq, T.node.injEq] at e
      obtain ⟨rfl, rfl, rfl, rfl, rfl, rfl, rfl⟩ := e
      unfold w3 at hw3
      simp only [delFix, rightRotate]
      rw [if_neg hx, if_neg hnbb, hw3, hfin]
      unfold S at hS
      simp only [rightRotate] at hS ⊢
      have hk' : keysQ kf w4l1 ++ kf w4v1 :: keysQ kf w4r1
          = keysQ kf w4l ++ kf w4v :: keysQ kf w4r := by
        have hk := congrArg (keysQ kf) hw3.symm
        rcases Decidable.em (colorOf w4l = RBColor.black) with hc | hc
        · rw [if_pos hc, keysQ_leftRotate kf rd ru hrd hru] at hk
          simpa using hk
        · rw [if_neg hc] at hk
          simpa using hk
      simp [hrd, hru, List.append_assoc]
      rw [show keysQ kf w4l1 ++ kf w4v1 :: (keysQ kf w4r1 ++ kf pv :: keysQ kf rr)
          = (keysQ kf w4l1 ++ kf w4v1 :: keysQ kf w4r1) ++ kf pv :: keysQ kf rr by
        simp [List.append_assoc]]
      rw [hk']
      simp [List.append_assoc]
  | case16 p us x hx pc pv ul uv ur S1 cx l x1 cy y rr c w4l w4v w4r w3 c1 w4l1 w4v1 w4r1 hw3 S hS1 hnbb hSfail =>
      exact (hSfail _ _ _ _ _ _ _ rfl).elim
  | case17 p us x hx pc pv ul uv ur S1 cx l x1 cy y rr c w4l w4v w4r w3 hw3fail hS1 hnbb =>
      unfold w3 at hw3fail
      rcases Decidable.em (colorOf w4l = RBColor.black) with hc | hc
      · simp only [if_pos hc] at hw3fail
        rcases w4r with _ | ⟨wc', wl', wv', wr'⟩
        · exact (hw3fail _ _ _ _ rfl).elim
        · exact (hw3fail _ _ _ _ rfl).elim
      · simp only [if_neg hc] at hw3fail
        exact (hw3fail _ _ _ _ rfl).elim
  | case18 p us x hx pc pv ul uv ur S1 cx l x1 cy rl y rr hS1 hnbb hrlfail =>
      unfold S1 at hS1
      simp only [rightRotate] at hS1
      have e := hS1.symm
      rw [T.node.injEq, T.node.injEq] at e
      obtain ⟨rfl, rfl, rfl, rfl, rfl, rfl, rfl⟩ := e
      cases rl with
      | nil => exact absurd ⟨rfl, rfl⟩ hnbb
      | node uc' ul' uv' ur' => exact (hrlfail _ _ _ _ rfl).elim
  | case19 p us x hx pc pv ul uv ur S1 hS1fail =>
      exact (hS1fail _ _ _ _ _ _ _ rfl).elim
  | case20 p us x hx pc pv w hwnr hbb ih =>
      rcases w with _ | ⟨wc, wl, wv, wr⟩
      · simp only [delFix]
        rw [if_neg hx, if_pos hbb, ih]
        simp
      · cases wc
        · exact (hwnr _ _ _ rfl).elim
        · simp only [delFix]
          rw [if_neg hx, if_pos hbb, ih]
          simp
  | case21 p us x hx pc pv c w4l w4v w4r w3 c1 w4l1 w4v1 w4r1 hw3 S cx l x2 cy rl y rr hS hwnr hnbb =>
      unfold w3 at hw3
      cases c
      · exact (hwnr _ _ _ rfl).elim
      · simp only [delFix]
        rw [if_neg hx, if_neg hnbb, hw3]
        dsimp only [rightRotate]
        rw [hfin]
        have hk' : keysQ kf w4l1 ++ kf w4v1 :: keysQ kf w4r1
            = keysQ kf w4l ++ kf w4v :: keysQ kf w4r := by
          have hk := congrArg (keysQ kf) hw3.symm
          rcases Decidable.em (colorOf w4l = RBColor.black) with hc | hc
          · rw [if_pos hc, keysQ_leftRotate kf rd ru hrd hru] at hk
            simpa using hk
          · rw [if_neg hc] at hk
            simpa using hk
        simp [hrd, hru, List.append_assoc]
        rw [show keysQ kf w4l1 ++ kf w4v1 :: (keysQ kf w4r1 ++ kf pv :: keysQ kf x)
            = (keysQ kf w4l1 ++ kf w4v1 :: keysQ kf w4r1) ++ kf pv :: keysQ kf x by
          simp [List.append_assoc]]
        rw [hk']
        simp [List.append_assoc]
  | case22 p us x hx pc pv c w4l w4v w4r w3 c1 w4l1 w4v1 w4r1 hw3 S hwnr hnbb hSfail =>
      exact (hSfail _ _ _ _ _ _ _ rfl).elim
  | case23 p us x hx pc pv c w4l w4v w4r w3 hwnr hnbb hw3fail =>
      unfold w3 at hw3fail
      rcases Decidable.em (colorOf w4l = RBColor.black) with hc | hc
      · simp only [if_pos hc] at hw3fail
        rcases w4r with _ | ⟨wc', wl', wv', wr'⟩
        · exact (hw3fail _ _ _ _ rfl).elim
        · exact (hw3fail _ _ _ _ rfl).elim
      · simp only [if_neg hc] at hw3fail
        exact (hw3fail _ _ _ _ rfl).elim
  | case24 p us x hx pc pv w hwnotnode hwnr hnbb =>
      cases w with
      | nil => exact absurd ⟨rfl, rfl⟩ hnbb
      | node wc wl wv wr => exact (hwnotnode _ _ _ _ rfl).elim

end Content

section Views

variable (rd : T α → α) (ru : α → T α → α)

/-- View relation for `insFix`: one constructor per reachable branch of the
fix-up, with the intermediate trees spelled out through defining equations.
`IRel p zd zt r` holds exactly when `insFix rd ru p zd zt = r`; the
invariant proofs below work by induction over this relation instead of
re-reducing the function. -/
inductive IRel : List (Ctx α) → List Bool → T α → List (Ctx α) × T α → Prop
  | exitP (pf gf : Ctx α) (rest : List (Ctx α)) (zd : List Bool) (zt : T α)
      (h : colC pf ≠ .red) :
      IRel (pf :: gf :: rest) zd zt
        ((descendZ zt zd).1 ++ pf :: gf :: rest, (descendZ zt zd).2)
  | exitNil (zd : List Bool) (zt : T α) :
      IRel [] zd zt ((descendZ zt zd).1, (descendZ zt zd).2)
  | exitOne (f : Ctx α) (zd : List Bool) (zt : T α) :
      IRel [f] zd zt ((descendZ zt zd).1 ++ [f], (descendZ zt zd).2)
  | upL (pf : Ctx α) (rest : List (Ctx α)) (zd : List Bool) (zt : T α)
      (gc : RBColor) (gv : α) (ul : T α) (uv : α) (ur : T α)
      (hp : colC pf = .red) (r : List (Ctx α) × T α)
      (hrec : IRel rest (true :: dirC pf :: zd)
        (.node .red (reattach (blackC pf) zt) gv (.node .black ul uv ur)) r) :
      IRel (pf :: .fromL gc gv (.node .red ul uv ur) :: rest) zd zt r
  | upR (pf : Ctx α) (rest : List (Ctx α)) (zd : List Bool) (zt : T α)
      (gc : RBColor) (gv : α) (ul : T α) (uv : α) (ur : T α)
      (hp : colC pf = .red) (r : List (Ctx α) × T α)
      (hrec : IRel rest (false :: dirC pf :: zd)
        (.node .red (.node .black ul uv ur) gv (reattach (blackC pf) zt)) r) :
      IRel (pf :: .fromR gc (.node .red ul uv ur) gv :: rest) zd zt r
  | rotLL (rest : List (Ctx α)) (zd : List Bool) (zt : T α)
      (gc : RBColor) (gv : α) (gr : T α) (pv : α) (pr : T α)
      (hu : colorOf gr ≠ .red)
      (S : T α) (hS : S = rightRotate rd ru (.node .red (.node .black zt pv pr) gv gr)) :
      IRel (.fromL .red pv pr :: .fromL gc gv gr :: rest) zd zt
        ((descendZ S (rdirs (true :: true :: zd))).1 ++ rest,
         (descendZ S (rdirs (true :: true :: zd))).2)
  | rotLR (rest : List (Ctx α)) (zd : List Bool) (zt : T α)
      (gc : RBColor) (gv : α) (gr : T α) (pl : T α) (pv : α)
      (hu : colorOf gr ≠ .red)
      (P1 : T α) (hP1 : P1 = leftRotate rd ru (.node .red pl pv zt))
      (S : T α) (hS : S = rightRotate rd ru (.node .red (blackenRoot P1) gv gr)) :
      IRel (.fromR .red pl pv :: .fromL gc gv gr :: rest) zd zt
        ((descendZ S (rdirs (true :: ldirs (false :: zd)))).1 ++ rest,
         (descendZ S (rdirs (true :: ldirs (false :: zd)))).2)
  | rotRR (rest : List (Ctx α)) (zd : List Bool) (zt : T α)
      (gc : RBColor) (gl : T α) (gv : α) (pl : T α) (pv : α)
      (hu : colorOf gl ≠ .red)
      (S : T α) (hS : S = leftRotate rd ru (.node .red gl gv (.node .black pl pv zt))) :
      IRel (.fromR .red pl pv :: .fromR gc gl gv :: rest) zd zt
        ((descendZ S (ldirs (false :: false :: zd))).1 ++ rest,
         (descendZ S (ldirs (false :: false :: zd))).2)
  | rotRL (rest : List (Ctx α)) (zd : List Bool) (zt : T α)
      (gc : RBColor) (gl : T α) (gv : α) (pv : α) (pr : T α)
      (hu : colorOf gl ≠ .red)
      (P1 : T α) (hP1 : P1 = rightRotate rd ru (.node .red zt pv pr))
      (S : T α) (hS : S = leftRotate rd ru (.node .red gl gv (blackenRoot P1))) :
      IRel (.fromL .red pv pr :: .fromR gc gl gv :: rest) zd zt
        ((descendZ S (ldirs (false :: rdirs (true :: zd)))).1 ++ rest,
         (descendZ S (ldirs (false :: rdirs (true :: zd)))).2)

/-- View relation for `delFix`, same role as `IRel`. -/
inductive DRel : List (Ctx α) → USt → T α → DFR α → Prop
  | root (us : USt) (x : T α) :
      DRel [] us x (finishD [] us (blackenRoot x) false)
  | redX (f : Ctx α) (p : List (Ctx α)) (us : USt) (x : T α)
      (h : colorOf x = .red) :
      DRel (f :: p) us x (finishD (f :: p) us (blackenRoot x) false)
  | L12 (p : List (Ctx α)) (us : USt) (x : T α) (pc : RBColor) (pv : α)
      (wl : T α) (wv : α) (wr : T α)
      (hx : colorOf x ≠ .red)
      (hbb : colorOf (lchild wl) = .black ∧ colorOf (rchild wl) = .black)
      (pd : α) (hpd : pd = rd (.node .red x pv wl))
      (pu : α) (hpu : pu = ru pv (.node .black (.node .red x pd wl) wv wr)) :
      DRel (.fromL pc pv (.node .red wl wv wr) :: p) us x
        (finishD (.fromL .black pu wr :: p) (usUp us true)
          (.node .black x pd (reddenRoot wl)) false)
  | L134 (p : List (Ctx α)) (us : USt) (x : T α) (pc : RBColor) (pv : α)
      (w2c : RBColor) (w2l : T α) (w2v : α) (w2r : T α) (wv : α) (wr : T α)
      (hx : colorOf x ≠ .red)
      (hnbb : ¬(colorOf w2l = .black ∧ colorOf w2r = .black))
      (pd : α) (hpd : pd = rd (.node .red x pv (.node w2c w2l w2v w2r)))
      (pu : α) (hpu : pu = ru pv
        (.node .black (.node .red x pd (.node w2c w2l w2v w2r)) wv wr))
      (w3 : T α) (hw3 : w3 = if colorOf w2r = .black then
          rightRotate rd ru (.node .red (blackenRoot w2l) w2v w2r)
        else .node w2c w2l w2v w2r)
      (c4 : RBColor) (w4l : T α) (w4v : α) (w4r : T α)
      (hw4 : w3 = .node c4 w4l w4v w4r)
      (xd : α) (hxd : xd = rd (.node .black x pd w4l))
      (xu : α) (hxu : xu = ru pd (.node .red (.node .black x xd w4l) w4v (blackenRoot w4r))) :
      DRel (.fromL pc pv (.node .red (.node w2c w2l w2v w2r) wv wr) :: p) us x
        (finishD (.fromL .black xd w4l :: .fromL .red xu (blackenRoot w4r)
            :: .fromL .black pu wr :: p) us x true)
  | L2 (p : List (Ctx α)) (us : USt) (x : T α) (pc : RBColor) (pv : α) (w : T α)
      (hx : colorOf x ≠ .red) (hwc : colorOf w ≠ .red)
      (hbb : colorOf (lchild w) = .black ∧ colorOf (rchild w) = .black)
      (r : DFR α)
      (hrec : DRel p (usUp us true) (.node pc x pv (reddenRoot w)) r) :
      DRel (.fromL pc pv w :: p) us x r
  | L34 (p : List (Ctx α)) (us : USt) (x : T α) (pc : RBColor) (pv : α)
      (wc : RBColor) (wl : T α) (wv : α) (wr : T α)
      (hx : colorOf x ≠ .red) (hwc : wc ≠ .red)
      (hnbb : ¬(colorOf wl = .black ∧ colorOf wr = .black))
      (w3 : T α) (hw3 : w3 = if colorOf wr = .black then
          rightRotate rd ru (.node .red (blackenRoot wl) wv wr)
        else .node wc wl wv wr)
      (c4 : RBColor) (w4l : T α) (w4v : α) (w4r : T α)
      (hw4 : w3 = .node c4 w4l w4v w4r)
      (xd : α) (hxd : xd = rd (.node .black x pv w4l))
      (xu : α) (hxu : xu = ru pv (.node pc (.node .black x xd w4l) w4v (blackenRoot w4r))) :
      DRel (.fromL pc pv (.node wc wl wv wr) :: p) us x
        (finishD (.fromL .black xd w4l :: .fromL pc xu (blackenRoot w4r) :: p) us x true)
  | R12 (p : List (Ctx α)) (us : USt) (x : T α) (pc : RBColor) (pv : α)
      (wl : T α) (wv : α) (wr : T α)
      (hx : colorOf x ≠ .red)
      (hbb : colorOf (rchild wr) = .black ∧ colorOf (lchild wr) = .black)
      (pd : α) (hpd : pd = rd (.node .red wr pv x))
      (pu : α) (hpu : pu = ru pv (.node .black wl wv (.node .red wr pd x))) :
      DRel (.fromR pc (.node .red wl wv wr) pv :: p) us x
        (finishD (.fromR .black wl pu :: p) (usUp us false)
          (.node .black (reddenRoot wr) pd x) false)
  | R134 (p : List (Ctx α)) (us : USt) (x : T α) (pc : RBColor) (pv : α)
      (wl : T α) (wv : α) (w2c : RBColor) (w2l : T α) (w2v : α) (w2r : T α)
      (hx : colorOf x ≠ .red)
      (hnbb : ¬(colorOf w2r = .black ∧ colorOf w2l = .black))
      (pd : α) (hpd : pd = rd (.node .red (.node w2c w2l w2v w2r) pv x))
      (pu : α) (hpu : pu = ru pv
        (.node .black wl wv (.node .red (.node w2c w2l w2v w2r) pd x)))
      (w3 : T α) (hw3 : w3 = if colorOf w2l = .black then
          leftRotate rd ru (.node .red w2l w2v (blackenRoot w2r))
        else .node w2c w2l w2v w2r)
      (c4 : RBColor) (w4l : T α) (w4v : α) (w4r : T α)
      (hw4 : w3 = .node c4 w4l w4v w4r)
      (xd : α) (hxd : xd = rd (.node .black w4r pd x))
      (xu : α) (hxu : xu = ru pd (.node .red (blackenRoot w4l) w4v (.node .black w4r xd x))) :
      DRel (.fromR pc (.node .red wl wv (.node w2c w2l w2v w2r)) pv :: p) us x
        (finishD (.fromR .black w4r xd :: .fromR .red (blackenRoot w4l) xu
            :: .fromR .black wl pu :: p) us x true)
  | R2 (p : List (Ctx α)) (us : USt) (x : T α) (pc : RBColor) (pv : α) (w : T α)
      (hx : colorOf x ≠ .red) (hwc : colorOf w ≠ .red)
      (hbb : colorOf (rchild w) = .black ∧ colorOf (lchild w) = .black)
      (r : DFR α)
      (hrec : DRel p (usUp us false) (.node pc (reddenRoot w) pv x) r) :
      DRel (.fromR pc w pv :: p) us x r
  | R34 (p : List (Ctx α)) (us : USt) (x : T α) (pc : RBColor) (pv : α)
      (wc : RBColor) (wl : T α) (wv : α) (wr : T α)
      (hx : colorOf x ≠ .red) (hwc : wc ≠ .red)
      (hnbb : ¬(colorOf wr = .black ∧ colorOf wl = .black))
      (w3 : T α) (hw3 : w3 = if colorOf wl = .black then
          leftRotate rd ru (.node .red wl wv (blackenRoot wr))
        else .node wc wl wv wr)
      (c4 : RBColor) (w4l : T α) (w4v : α) (w4r : T α)
      (hw4 : w3 = .node c4 w4l w4v w4r)
      (xd : α) (hxd : xd = rd (.node .black w4r pv x))
      (xu : α) (hxu : xu = ru pv (.node pc (blackenRoot w4l) w4v (.node .black w4r xd x))) :
      DRel (.fromR pc (.node wc wl wv wr) pv :: p) us x
        (finishD (.fromR .black w4r xd :: .fromR pc (blackenRoot w4l) xu :: p) us x true)

lemma colorOf_ne_red_of_not_rednode (t : T α)
    (h : ∀ (ul : T α) (uv : α) (ur : T α), t = .node .red ul uv ur → False) :
    colorOf t ≠ .red := by
  cases t with
  | nil => simp [colorOf]
  | node c l v r =>
      cases c
      · exact (h _ _ _ rfl).elim
      · simp [colorOf]

/-- `insFix` satisfies its view relation. -/
lemma insFix_rel (p : List (Ctx α)) (zd : List Bool) (zt : T α) :
    IRel rd ru p zd zt (insFix rd ru p zd zt) := by
  induction p, zd, zt using insFix.induct rd ru with
  | case1 pf rest zd zt hred gc gv ul uv ur ih =>
      cases pf with
      | fromL c v r =>
          simp only [insFix, hred, if_pos]
          exact IRel.upL _ _ _ _ _ _ _ _ _ hred _ ih
      | fromR c l v =>
          simp only [insFix, hred, if_pos]
          exact IRel.upL _ _ _ _ _ _ _ _ _ hred _ ih
  | case2 rest zd zt gc gv gr hnr pc pl pv P1 dS fr z S hdes hredp =>
      have hpc : pc = RBColor.red := by simpa [colC] using hredp
      subst hpc
      unfold S dS P1 at hdes
      have hu := colorOf_ne_red_of_not_rednode gr hnr
      have hfix : insFix rd ru (Ctx.fromR .red pl pv :: Ctx.fromL gc gv gr :: rest) zd zt
          = (fr ++ rest, z) := by
        rcases gr with _ | ⟨uc, ul, uv, ur⟩
        · simp [insFix, colC, hdes]
        · cases uc
          · exact absurd rfl (hnr ul uv ur)
          · simp [insFix, colC, hdes]
      rw [hfix]
      have h := @IRel.rotLR α rd ru rest zd zt gc gv gr pl pv hu _ rfl _ rfl
      rw [hdes] at h
      exact h
  | case3 rest zd zt gc gv gr hnr pc pv pr dS fr z S hdes hredp =>
      have hpc : pc = RBColor.red := by simpa [colC] using hredp
      subst hpc
      unfold S dS at hdes
      have hu := colorOf_ne_red_of_not_rednode gr hnr
      have hfix : insFix rd ru (Ctx.fromL .red pv pr :: Ctx.fromL gc gv gr :: rest) zd zt
          = (fr ++ rest, z) := by
        rcases gr with _ | ⟨uc, ul, uv, ur⟩
        · simp [insFix, colC, hdes]
        · cases uc
          · exact absurd rfl (hnr ul uv ur)
          · simp [insFix, colC, hdes]
      rw [hfix]
      have h := @IRel.rotLL α rd ru rest zd zt gc gv gr pv pr hu _ rfl
      rw [hdes] at h
      exact h
  | case4 pf rest zd zt hred gc gv ul uv ur ih =>
      cases pf with
      | fromL c v r =>
          simp only [insFix, hred, if_pos]
          exact IRel.upR _ _ _ _ _ _ _ _ _ hred _ ih
      | fromR c l v =>
          simp only [insFix, hred, if_pos]
          exact IRel.upR _ _ _ _ _ _ _ _ _ hred _ ih
  | case5 rest zd zt gc gv gl hnr pc pv pr P1 dS fr z S hdes hredp =>
      have hpc : pc = RBColor.red := by simpa [colC] using hredp
      subst hpc
      unfold S dS P1 at hdes
      have hu := colorOf_ne_red_of_not_rednode gl hnr
      have hfix : insFix rd ru (Ctx.fromL .red pv pr :: Ctx.fromR gc gl gv :: rest) zd zt
          = (fr ++ rest, z) := by
        rcases gl with _ | ⟨uc, ul, uv, ur⟩
        · simp [insFix, colC, hdes]
        · cases uc
          · exact absurd rfl (hnr ul uv ur)
          · simp [insFix, colC, hdes]
      rw [hfix]
      have h := @IRel.rotRL α rd ru rest zd zt gc gl gv pv pr hu _ rfl _ rfl
      rw [hdes] at h
      exact h
  | case6 rest zd zt gc gv gl hnr pc pl pv dS fr z S hdes hredp =>
      have hpc : pc = RBColor.red := by simpa [colC] using hredp
      subst hpc
      unfold S dS at hdes
      have hu := colorOf_ne_red_of_not_rednode gl hnr
      have hfix : insFix rd ru (Ctx.fromR .red pl pv :: Ctx.fromR gc gl gv :: rest) zd zt
          = (fr ++ rest, z) := by
        rcases gl with _ | ⟨uc, ul, uv, ur⟩
        · simp [insFix, colC, hdes]
        · cases uc
          · exact absurd rfl (hnr ul uv ur)
          · simp [insFix, colC, hdes]
      rw [hfix]
      have h := @IRel.rotRR α rd ru rest zd zt gc gl gv pl pv hu _ rfl
      rw [hdes] at h
      exact h
  | case7 pf gf rest zd zt hnred fr z hdes =>
      have hfix : insFix rd ru (pf :: gf :: rest) zd zt = (fr ++ pf :: gf :: rest, z) := by
        simp [insFix, hnred, hdes]
      rw [hfix]
      have h := @IRel.exitP α rd ru pf gf rest zd zt hnred
      rw [hdes] at h
      exact h
  | case8 p zd zt hshape fr z hdes =>
      match p, hshape with
      | [], _ =>
          have hfix : insFix rd ru [] zd zt = (fr, z) := by
            simp [insFix, hdes]
          rw [hfix]
          have h := @IRel.exitNil α rd ru zd zt
          rw [hdes] at h
          exact h
      | [f], _ =>
          have hfix : insFix rd ru [f] zd zt = (fr ++ [f], z) := by
            simp [insFix, hdes]
          rw [hfix]
          have h := @IRel.exitOne α rd ru f zd zt
          rw [hdes] at h
          exact h
      | f :: g :: rest, hs => exact absurd rfl (hs f g rest)

/-- `delFix` satisfies its view relation. -/
lemma delFix_rel (p : List (Ctx α)) (us : USt) (x : T α) :
    DRel rd ru p us x (delFix rd ru p us x) := by
  induction p, us, x using delFix.induct rd ru with
  | case1 us x =>
      simp only [delFix]
      exact DRel.root us x
  | case2 f p us x hred =>
      simp only [delFix]
      rw [if_pos hred]
      exact DRel.redX f p us x hred
  | case3 p us x hx pc pv ul uv ur S1 cy cx xl x1 xr y rr hS1 hbb =>
      unfold S1 at hS1
      simp only [leftRotate] at hS1
      have e := hS1.symm
      rw [T.node.injEq, T.node.injEq] at e
      obtain ⟨rfl, ⟨rfl, rfl, rfl, rfl⟩, rfl, rfl⟩ := e
      simp only [delFix, leftRotate]
      rw [if_neg hx, if_pos hbb]
      exact DRel.L12 p us xl pc pv _ uv _ hx hbb _ rfl _ rfl
  | case4 p us x hx pc pv ul uv ur S1 cy cx xl x1 y rr c w4l w4v w4r w3 c1 w4l1 w4v1 w4r1 hw3 S cy1 cx1 xl1 x3 xr y1 rr1 hS hS1 hnbb =>
      unfold S1 at hS1
      simp only [leftRotate] at hS1
      have e := hS1.symm
      rw [T.node.injEq, T.node.injEq] at e
      obtain ⟨rfl, ⟨rfl, rfl, rfl, rfl⟩, rfl, rfl⟩ := e
      unfold w3 at hw3
      simp only [delFix, leftRotate]
      rw [if_neg hx, if_neg hnbb, hw3]
      dsimp only [leftRotate]
      simp only [lchild, rchild] at hnbb
      exact DRel.L134 p us xl pc pv c w4l w4v w4r uv rr hx hnbb _ rfl _ rfl _ hw3.symm
        c1 w4l1 w4v1 w4r1 rfl _ rfl _ rfl
  | case5 p us x hx pc pv ul uv ur S1 cy cx xl x1 y rr c w4l w4v w4r w3 c1 w4l1 w4v1 w4r1 hw3 S hS1 hnbb hSfail =>
      exact (hSfail _ _ _ _ _ _ _ rfl).elim
  | case6 p us x hx pc pv ul uv ur S1 cy cx xl x1 y rr c w4l w4v w4r w3 hw3fail hS1 hnbb =>
      unfold w3 at hw3fail
      rcases Decidable.em (colorOf w4r = RBColor.black) with hc | hc
      · simp only [if_pos hc] at hw3fail
        rcases w4l with _ | ⟨wc', wl', wv', wr'⟩
        · exact (hw3fail _ _ _ _ rfl).elim
        · exact (hw3fail _ _ _ _ rfl).elim
      · simp only [if_neg hc] at hw3fail
        exact (hw3fail _ _ _ _ rfl).elim
  | case7 p us x hx pc pv ul uv ur S1 cy cx xl x1 xr y rr hS1 hnbb hxrfail =>
      unfold S1 at hS1
      simp only [leftRotate] at hS1
      have e := hS1.symm
      rw [T.node.injEq, T.node.injEq] at e
      obtain ⟨rfl, ⟨rfl, rfl, rfl, rfl⟩, rfl, rfl⟩ := e
      cases xr with
      | nil => exact absurd ⟨rfl, rfl⟩ hnbb
      | node uc' ul' uv' ur' => exact (hxrfail _ _ _ _ rfl).elim
  | case8 p us x hx pc pv ul uv ur S1 hS1fail =>
      exact (hS1fail _ _ _ _ _ _ _ rfl).elim
  | case9 p us x hx pc pv w hwnr hbb ih =>
      have hwc := colorOf_ne_red_of_not_rednode w hwnr
      rcases w with _ | ⟨wc, wl, wv, wr⟩
      · simp only [delFix]
        rw [if_neg hx, if_pos hbb]
        exact DRel.L2 p us x pc pv _ hx hwc hbb _ ih
      · cases wc
        · exact (hwnr _ _ _ rfl).elim
        · simp only [delFix]
          rw [if_neg hx, if_pos hbb]
          exact DRel.L2 p us x pc pv _ hx hwc hbb _ ih
  | case10 p us x hx pc pv c w4l w4v w4r w3 c1 w4l1 w4v1 w4r1 hw3 S cy cx xl x2 xr y rr hS hwnr hnbb =>
      unfold w3 at hw3
      cases c
      · exact (hwnr _ _ _ rfl).elim
      · simp only [delFix]
        rw [if_neg hx, if_neg hnbb, hw3]
        dsimp only [leftRotate]
        simp only [lchild, rchild] at hnbb
        exact DRel.L34 p us x pc pv .black w4l w4v w4r hx (by simp) hnbb _ hw3.symm
          c1 w4l1 w4v1 w4r1 rfl _ rfl _ rfl
  | case11 p us x hx pc pv c w4l w4v w4r w3 c1 w4l1 w4v1 w4r1 hw3 S hwnr hnbb hSfail =>
      exact (hSfail _ _ _ _ _ _ _ rfl).elim
  | case12 p us x hx pc pv c w4l w4v w4r w3 hwnr hnbb hw3fail =>
      unfold w3 at hw3fail
      rcases Decidable.em (colorOf w4r = RBColor.black) with hc | hc
      · simp only [if_pos hc] at hw3fail
        rcases w4l with _ | ⟨wc', wl', wv', wr'⟩
        · exact (hw3fail _ _ _ _ rfl).elim
        · exact (hw3fail _ _ _ _ rfl).elim
      · simp only [if_neg hc] at hw3fail
        exact (hw3fail _ _ _ _ rfl).elim
  | case13 p us x hx pc pv w hwnotnode hwnr hnbb =>
      cases w with
      | nil => exact absurd ⟨rfl, rfl⟩ hnbb
      | node wc wl wv wr => exact (hwnotnode _ _ _ _ rfl).elim
  | case14 p us x hx pc pv ul uv ur S1 cx l x1 cy rl y rr hS1 hbb =>
      unfold S1 at hS1
      simp only [rightRotate] at hS1
      have e := hS1.symm
      rw [T.node.injEq, T.node.injEq] at e
      obtain ⟨rfl, rfl, rfl, rfl, rfl, rfl, rfl⟩ := e
      simp only [delFix, rightRotate]
      rw [if_neg hx, if_pos hbb]
      exact DRel.R12 p us rr pc pv _ uv _ hx hbb _ rfl _ rfl
  | case15 p us x hx pc pv ul uv ur S1 cx l x1 cy y rr c w4l w4v w4r w3 c1 w4l1 w4v1 w4r1 hw3 S cx1 l1 x3 cy1 rl y1 rr1 hS hS1 hnbb =>
      unfold S1 at hS1
      simp only [rightRotate] at hS1
      have e := hS1.symm
      rw [T.node.injEq, T.node.injEq] at e
      obtain ⟨rfl, rfl, rfl, rfl, rfl, rfl, rfl⟩ := e
      unfold w3 at hw3
      simp only [delFix, rightRotate]
      rw [if_neg hx, if_neg hnbb, hw3]
      dsimp only [rightRotate]
      simp only [lchild, rchild] at hnbb
      exact DRel.R134 p us rr pc pv l uv c w4l w4v w4r hx hnbb _ rfl _ rfl _ hw3.symm
        c1 w4l1 w4v1 w4r1 rfl _ rfl _ rfl
  | case16 p us x hx pc pv ul uv ur S1 cx l x1 cy y rr c w4l w4v w4r w3 c1 w4l1 w4v1 w4r1 hw3 S hS1 hnbb hSfail =>
      exact (hSfail _ _ _ _ _ _ _ rfl).elim
  | case17 p us x hx pc pv ul uv ur S1 cx l x1 cy y rr c w4l w4v w4r w3 hw3fail hS1 hnbb =>
      unfold w3 at hw3fail
      rcases Decidable.em (colorOf w4l = RBColor.black) with hc | hc
      · simp only [if_pos hc] at hw3fail
        rcases w4r with _ | ⟨wc', wl', wv', wr'⟩
        · exact (hw3fail _ _ _ _ rfl).elim
        · exact (hw3fail _ _ _ _ rfl).elim
      · simp only [if_neg hc] at hw3fail
        exact (hw3fail _ _ _ _ rfl).elim
  | case18 p us x hx pc pv ul uv ur S1 cx l x1 cy rl y rr hS1 hnbb hrlfail =>
      unfold S1 at hS1
      simp only [rightRotate] at hS1
      have e := hS1.symm
      rw [T.node.injEq, T.node.injEq] at e
      obtain ⟨rfl, rfl, rfl, rfl, rfl, rfl, rfl⟩ := e
      cases rl with
      | nil => exact absurd ⟨rfl, rfl⟩ hnbb
      | node uc' ul' uv' ur' => exact (hrlfail _ _ _ _ rfl).elim
  | case19 p us x hx pc pv ul uv ur S1 hS1fail =>
      exact (hS1fail _ _ _ _ _ _ _ rfl).elim
  | case20 p us x hx pc pv w hwnr hbb ih =>
      have hwc := colorOf_ne_red_of_not_rednode w hwnr
      rcases w with _ | ⟨wc, wl, wv, wr⟩
      · simp only [delFix]
        rw [if_neg hx, if_pos hbb]
        exact DRel.R2 p us x pc pv _ hx hwc hbb _ ih
      · cases wc
        · exact (hwnr _ _ _ rfl).elim
        · simp only [delFix]
          rw [if_neg hx, if_pos hbb]
          exact DRel.R2 p us x pc pv _ hx hwc hbb _ ih
  | case21 p us x hx pc pv c w4l w4v w4r w3 c1 w4l1 w4v1 w4r1 hw3 S cx l x2 cy rl y rr hS hwnr hnbb =>
      unfold w3 at hw3
      cases c
      · exact (hwnr _ _ _ rfl).elim
      · simp only [delFix]
        rw [if_neg hx, if_neg hnbb, hw3]
        dsimp only [rightRotate]
        simp only [lchild, rchild] at hnbb
        exact DRel.R34 p us x pc pv .black w4l w4v w4r hx (by simp) hnbb _ hw3.symm
          c1 w4l1 w4v1 w4r1 rfl _ rfl _ rfl
  | case22 p us x hx pc pv c w4l w4v w4r w3 c1 w4l1 w4v1 w4r1 hw3 S hwnr hnbb hSfail =>
      exact (hSfail _ _ _ _ _ _ _ rfl).elim
  | case23 p us x hx pc pv c w4l w4v w4r w3 hwnr hnbb hw3fail =>
      unfold w3 at hw3fail
      rcases Decidable.em (colorOf w4l = RBColor.black) with hc | hc
      · simp only [if_pos hc] at hw3fail
        rcases w4r with _ | ⟨wc', wl', wv', wr'⟩
        · exact (hw3fail _ _ _ _ rfl).elim
        · exact (hw3fail _ _ _ _ rfl).elim
      · simp only [if_neg hc] at hw3fail
        exact (hw3fail _ _ _ _ rfl).elim
  | case24 p us x hx pc pv w hwnotnode hwnr hnbb =>
      cases w with
      | nil => exact absurd ⟨rfl, rfl⟩ hnbb
      | node wc wl wv wr => exact (hwnotnode _ _ _ _ rfl).elim

end Views

section Order

variable {κ : Type} (kf : α → κ) (sk : κ → Int)

/-- The binary-search-tree order that the code actually maintains: every key
in the left subtree is ≤ the node's key, every key in the right subtree is
≥ it (duplicates are routed right on insertion, but rotations may move an
equal key into a left subtree). -/
def BSTg (q : α → Int) : T α → Prop
  | .nil => True
  | .node _ l v r =>
      (∀ w ∈ inorder l, q w ≤ q v) ∧ (∀ w ∈ inorder r, q v ≤ q w) ∧
        BSTg q l ∧ BSTg q r

lemma sorted_append_iff (l₁ l₂ : List Int) :
    (l₁ ++ l₂).Sorted (· ≤ ·) ↔
      l₁.Sorted (· ≤ ·) ∧ l₂.Sorted (· ≤ ·) ∧ ∀ a ∈ l₁, ∀ b ∈ l₂, a ≤ b :=
  List.pairwise_append

lemma bstg_iff_sorted (q : α → Int) (t : T α) :
    BSTg q t ↔ ((inorder t).map q).Sorted (· ≤ ·) := by
  induction t with
  | nil => simp [BSTg]
  | node c l v r ihl ihr =>
      simp only [BSTg, inorder_node, List.map_append, List.map_cons,
        sorted_append_iff, List.sorted_cons, ihl, ihr]
      constructor
      · rintro ⟨hl, hr, sl, sr⟩
        refine ⟨sl, ⟨?_, sr⟩, ?_⟩
        · intro b hb
          simp only [List.mem_map] at hb
          obtain ⟨w, hw, rfl⟩ := hb
          exact hr w hw
        · intro a ha b hb
          simp only [List.mem_map] at ha
          obtain ⟨w, hw, rfl⟩ := ha
          simp only [List.mem_cons] at hb
          rcases hb with rfl | hb
          · exact hl w hw
          · simp only [List.mem_map] at hb
            obtain ⟨u, hu, rfl⟩ := hb
            exact le_trans (hl w hw) (hr u hu)
      · rintro ⟨sl, ⟨hv, sr⟩, hcross⟩
        refine ⟨?_, ?_, sl, sr⟩
        · intro w hw
          exact hcross (q w) (List.mem_map_of_mem q hw) (q v) (List.mem_cons_self _ _)
        · intro w hw
          exact hv (q w) (List.mem_map_of_mem q hw)

/-- Insertion position function of the descent: insert the new element
before the first strictly greater key (equal keys are passed, i.e.
duplicates go right). -/
def insOrd (nv : κ) : List κ → List κ
  | [] => [nv]
  | x :: xs => if sk nv < sk x then nv :: x :: xs else x :: insOrd nv xs

lemma insOrd_append_left (nv : κ) (A : List κ) (m : κ) (B : List κ)
    (h : sk nv < sk m) :
    insOrd sk nv (A ++ m :: B) = insOrd sk nv A ++ m :: B := by
  induction A with
  | nil => simp [insOrd, h]
  | cons x xs ih =>
      simp only [List.cons_append, insOrd, List.append_eq]
      split
      · rfl
      · rw [ih]
        rfl

lemma insOrd_append_right (nv : κ) (A : List κ) (m : κ) (B : List κ)
    (hA : ∀ x ∈ A, ¬sk nv < sk x) (hm : ¬sk nv < sk m) :
    insOrd sk nv (A ++ m :: B) = A ++ m :: insOrd sk nv B := by
  induction A with
  | nil => simp [insOrd, hm]
  | cons x xs ih =>
      simp only [List.cons_append, insOrd, List.append_eq,
        if_neg (hA x (by simp))]
      rw [ih]
      intro y hy
      exact hA y (by simp [hy])

lemma insOrd_perm (nv : κ) (l : List κ) : (insOrd sk nv l).Perm (nv :: l) := by
  induction l with
  | nil => simp [insOrd]
  | cons x xs ih =>
      simp only [insOrd]
      split
      · rfl
      · exact (ih.cons x).trans (List.Perm.swap nv x xs)

lemma insOrd_sorted (nv : κ) (l : List κ)
    (h : (l.map sk).Sorted (· ≤ ·)) :
    ((insOrd sk nv l).map sk).Sorted (· ≤ ·) := by
  induction l with
  | nil => simp [insOrd]
  | cons x xs ih =>
      simp only [List.map_cons, List.sorted_cons] at h
      obtain ⟨hx, hxs⟩ := h
      simp only [insOrd]
      split
      · rename_i hlt
        simp only [List.map_cons, List.sorted_cons]
        refine ⟨?_, hx, hxs⟩
        intro b hb
        simp only [List.mem_cons] at hb
        rcases hb with rfl | hb
        · exact le_of_lt hlt
        · exact le_trans (le_of_lt hlt) (hx b hb)
      · rename_i hge
        simp only [List.map_cons, List.sorted_cons]
        refine ⟨?_, ih hxs⟩
        intro b hb
        have hperm := (insOrd_perm sk nv xs).map sk
        have hb' : b ∈ (nv :: xs).map sk := hperm.mem_iff.mp hb
        simp only [List.map_cons, List.mem_cons] at hb'
        rcases hb' with rfl | hb'
        · omega
        · simp only [List.mem_map] at hb'
          obtain ⟨u, hu, rfl⟩ := hb'
          exact hx _ (List.mem_map_of_mem sk hu)

/-- Content effect of the insertion descent: the inserted payload ends up at
its `insOrd` position. -/
lemma ctxThread_insPath (visit : α → α) (hv : ∀ v, kf (visit v) = kf v)
    (zv : α) (t : T α) (p : List (Ctx α))
    (hbst : BSTg (fun a => sk (kf a)) t) :
    ctxThread kf (insPath visit (fun v => decide (sk (kf zv) < sk (kf v))) t p) [kf zv]
      = ctxThread kf p (insOrd sk (kf zv) (keysQ kf t)) := by
  induction t generalizing p with
  | nil => simp [insPath, insOrd]
  | node c l v r ihl ihr =>
      obtain ⟨hl, hr, bl, br⟩ := hbst
      simp only [insPath]
      split
      · rename_i hlt
        simp only [decide_eq_true_eq] at hlt
        rw [ihl _ bl]
        simp only [ctxThread_fromL, hv, keysQ_node]
        rw [insOrd_append_left sk _ _ _ _ hlt]
      · rename_i hge
        simp only [decide_eq_true_eq] at hge
        rw [ihr _ br]
        simp only [ctxThread_fromR, hv, keysQ_node]
        have hA : ∀ x ∈ keysQ kf l, ¬sk (kf zv) < sk x := by
          intro x hx
          simp only [keysQ, List.mem_map] at hx
          obtain ⟨w, hw, rfl⟩ := hx
          exact fun hcon => hge (lt_of_lt_of_le hcon (hl w hw))
        rw [insOrd_append_right sk (kf zv) (keysQ kf l) (kf v) (keysQ kf r) hA hge]

end Order

section RemoveContent

variable {κ : Type} (kf : α → κ)

lemma ctxThread_append (p q : List (Ctx α)) (ks : List κ) :
    ctxThread kf (p ++ q) ks = ctxThread kf q (ctxThread kf p ks) := by
  induction p generalizing ks with
  | nil => rfl
  | cons f p ih => cases f <;> simp [ih]

lemma ctxThread_decCtx (dec : α → α) (hdec : ∀ v, kf (dec v) = kf v)
    (p : List (Ctx α)) (ks : List κ) :
    ctxThread kf (p.map (decCtx dec)) ks = ctxThread kf p ks := by
  induction p generalizing ks with
  | nil => rfl
  | cons f p ih => cases f <;> simp [decCtx, hdec, ih]

/-- A context acts on contents by wrapping a fixed left and right part
around them. -/
lemma ctxThread_shape (p : List (Ctx α)) :
    ∃ P S : List κ, ∀ ks, ctxThread kf p ks = P ++ ks ++ S := by
  induction p with
  | nil => exact ⟨[], [], fun ks => by simp⟩
  | cons f p ih =>
      obtain ⟨P, S, hPS⟩ := ih
      cases f with
      | fromL c v r =>
          exact ⟨P, kf v :: keysQ kf r ++ S,
            fun ks => by simp [hPS, List.append_assoc]⟩
      | fromR c l v =>
          exact ⟨P ++ keysQ kf l ++ [kf v], S,
            fun ks => by simp [hPS, List.append_assoc]⟩

/-- The frames pushed by `minimum` are all left-descent frames. -/
lemma minSplit_fromL [Inhabited α] (t : T α) (acc : List (Ctx α))
    (h : ∀ f ∈ acc, ∃ c v r, f = Ctx.fromL c v r) :
    ∀ f ∈ (minSplit t acc).1, ∃ c v r, f = Ctx.fromL c v r := by
  induction t generalizing acc with
  | nil => exact h
  | node c l v r ihl _ =>
      cases l with
      | nil => exact h
      | node c' l' v' r' =>
          refine ihl _ ?_
          intro f hf
          simp only [List.mem_cons] at hf
          rcases hf with rfl | hf
          · exact ⟨c, v, r, rfl⟩
          · exact h f hf

lemma ctxThread_cons_of_fromL (p : List (Ctx α))
    (h : ∀ f ∈ p, ∃ c v r, f = Ctx.fromL c v r) (a : κ) (ks : List κ) :
    ctxThread kf p (a :: ks) = a :: ctxThread kf p ks := by
  induction p generalizing ks with
  | nil => rfl
  | cons f p ih =>
      obtain ⟨c, v, r, rfl⟩ := h f (by simp)
      simp only [ctxThread_fromL, List.cons_append]
      exact ih (fun g hg => h g (by simp [hg])) _

/-- Content view of the `minimum` walk: it splits off the leftmost payload. -/
lemma minSplit_keys [Inhabited α] (c : RBColor) (l : T α) (v : α) (r : T α)
    (acc : List (Ctx α)) :
    ctxThread kf acc (keysQ kf (T.node c l v r))
      = ctxThread kf (minSplit (T.node c l v r) acc).1
          (kf (minSplit (T.node c l v r) acc).2.2.1
            :: keysQ kf (minSplit (T.node c l v r) acc).2.2.2) := by
  induction l generalizing acc c v r with
  | nil => simp [minSplit]
  | node c' l' v' r' ihl _ =>
      have step := ihl c' v' r' (Ctx.fromL c v r :: acc)
      simp only [minSplit]
      rw [← step]
      simp

/-- Structural view of the `minimum` walk: the subtree decomposes as the
collected frames around the minimum node (whose left child is the
sentinel). -/
lemma minSplit_assemble [Inhabited α] (c : RBColor) (l : T α) (v : α) (r : T α)
    (acc : List (Ctx α)) :
    assemble (minSplit (T.node c l v r) acc).1
      (T.node (minSplit (T.node c l v r) acc).2.1 .nil
        (minSplit (T.node c l v r) acc).2.2.1
        (minSplit (T.node c l v r) acc).2.2.2)
      = assemble acc (T.node c l v r) := by
  induction l generalizing acc c v r with
  | nil => simp [minSplit]
  | node c' l' v' r' ihl _ =>
      have step := ihl c' v' r' (Ctx.fromL c v r :: acc)
      simp only [minSplit]
      rw [step]
      rfl

variable (rd : T α → α) (ru : α → T α → α)
variable (hrd : ∀ c (l : T α) v r, kf (rd (.node c l v r)) = kf v)
variable (hru : ∀ (a : α) c (l : T α) v r, kf (ru a (.node c l v r)) = kf v)

include hrd hru in
/-- Content effect of the splice-out (plus `deleteFixup`): the removed
node's own payload disappears, everything else keeps its in-order place. -/
lemma keysQ_removeAux [Inhabited α] (dec : α → α)
    (hdec : ∀ v, kf (dec v) = kf v)
    (yPay : α → T α → T α → α) (hyPay : ∀ v l r, kf (yPay v l r) = kf v)
    (p : List (Ctx α)) (zc : RBColor) (zl zr : T α) :
    keysQ kf (assemble (removeAux rd ru dec yPay p zc zl zr).path
        (removeAux rd ru dec yPay p zc zl zr).focus)
      = ctxThread kf p (keysQ kf zl ++ keysQ kf zr) := by
  have hth : ∀ (q : List (Ctx α)) (us : USt) (x : T α),
      keysQ kf (assemble (delFix rd ru q us x).path (delFix rd ru q us x).focus)
        = ctxThread kf q (keysQ kf x) := fun q us x => keysQ_delFix kf rd ru hrd hru q us x
  have hfin : ∀ (q : List (Ctx α)) (us : USt) (x : T α) (rb : Bool),
      keysQ kf (assemble (finishD q us x rb).path (finishD q us x rb).focus)
        = ctxThread kf q (keysQ kf x) := by
    intro q us x rb
    rw [assemble_finishD, keysQ_assemble]
  cases zl with
  | nil =>
      simp only [removeAux]
      split <;>
        simp [hth, hfin, ctxThread_decCtx kf dec hdec]
  | node lc ll lv lr =>
      cases zr with
      | nil =>
          simp only [removeAux]
          split <;>
            simp [hth, hfin, ctxThread_decCtx kf dec hdec]
      | node rc rl rv rr =>
          rcases hms : minSplit (T.node rc rl rv rr) ([] : List (Ctx α))
            with ⟨acc, yc, yv, yr⟩
          have hkeys := minSplit_keys kf rc rl rv rr []
          rw [hms] at hkeys
          simp only [ctxThread_nil] at hkeys
          have haccL : ∀ f ∈ acc, ∃ c v r, f = Ctx.fromL c v r := by
            have := minSplit_fromL (T.node rc rl rv rr) ([] : List (Ctx α))
              (by intro f hf; simp at hf)
            rw [hms] at this
            exact this
          simp only [removeAux, hms]
          cases acc with
          | nil =>
              simp only [ctxThread_nil] at hkeys
              dsimp only
              split <;>
                simp [hth, hfin, ctxThread_decCtx kf dec hdec, hyPay, hkeys]
          | cons a acc' =>
              rw [ctxThread_cons_of_fromL kf _ haccL] at hkeys
              dsimp only
              split
              · rw [hth, ctxThread_append, ctxThread_fromR,
                  ctxThread_decCtx kf dec hdec,
                  ctxThread_decCtx kf dec hdec, hyPay, ← hkeys]
              · rw [hfin, ctxThread_append, ctxThread_fromR,
                  ctxThread_decCtx kf dec hdec,
                  ctxThread_decCtx kf dec hdec, hyPay, ← hkeys]

end RemoveContent

section SearchLemmas

/-- If `search` reports a match, the returned zipper is a decomposition of
the input tree and the focused payload satisfies the match test. -/
lemma searchPath_found (isM goL : α → Bool) (t : T α) (p q : List (Ctx α))
    (c : RBColor) (l : T α) (v : α) (r : T α)
    (h : searchPath isM goL t p = some (q, c, l, v, r)) :
    assemble q (.node c l v r) = assemble p t ∧ isM v = true := by
  induction t generalizing p with
  | nil => simp [searchPath] at h
  | node c0 l0 v0 r0 ihl ihr =>
      rw [searchPath] at h
      split at h
      · rename_i hm
        simp only [Option.some.injEq, Prod.mk.injEq] at h
        obtain ⟨rfl, rfl, rfl, rfl, rfl⟩ := h
        exact ⟨rfl, hm⟩
      · split at h
        · exact ihl _ h
        · exact ihr _ h

/-- If no payload of the subtree satisfies the match test, `search` runs off
the sentinel. -/
lemma searchPath_none (isM goL : α → Bool) (t : T α) (p : List (Ctx α))
    (h : ∀ w ∈ inorder t, isM w = false) :
    searchPath isM goL t p = none := by
  induction t generalizing p with
  | nil => rfl
  | node c l v r ihl ihr =>
      have hv := h v (by simp)
      rw [searchPath, hv]
      simp only [Bool.false_eq_true, if_false]
      split
      · exact ihl _ (fun w hw => h w (by simp [hw]))
      · exact ihr _ (fun w hw => h w (by simp [hw]))

/-- A found payload is one of the tree's payloads. -/
lemma searchPath_found_mem (isM goL : α → Bool) (t : T α) (p q : List (Ctx α))
    (c : RBColor) (l : T α) (v : α) (r : T α)
    (h : searchPath isM goL t p = some (q, c, l, v, r)) :
    v ∈ inorder t := by
  induction t generalizing p with
  | nil => simp [searchPath] at h
  | node c0 l0 v0 r0 ihl ihr =>
      rw [searchPath] at h
      split at h
      · simp only [Option.some.injEq, Prod.mk.injEq] at h
        obtain ⟨rfl, rfl, rfl, rfl, rfl⟩ := h
        simp
      · split at h
        · simp [ihl _ h]
        · simp [ihr _ h]

end SearchLemmas

end RBG

/-! ## Verification layer: sorted lists and erasure -/

namespace RBG

lemma append_cons_of_all_eq (k : Int) (l₁ l₂ : List Int)
    (h : ∀ y ∈ l₁, y = k) : l₁ ++ k :: l₂ = k :: (l₁ ++ l₂) := by
  induction l₁ with
  | nil => rfl
  | cons y l₁ ih =>
      have hy := h y (by simp)
      subst hy
      rw [List.cons_append, ih (fun z hz => h z (by simp [hz])), List.cons_append]

/-- Erasing a value from a sorted list that exhibits it at a known slot
removes exactly that slot. -/
lemma erase_middle_sorted (k : Int) (l₁ l₂ : List Int)
    (hs : (l₁ ++ k :: l₂).Sorted (· ≤ ·)) :
    (l₁ ++ k :: l₂).erase k = l₁ ++ l₂ := by
  induction l₁ with
  | nil => simp
  | cons x l₁ ih =>
      simp only [List.cons_append, List.sorted_cons] at hs
      obtain ⟨hx, hs⟩ := hs
      by_cases hxk : x = k
      · subst hxk
        rw [List.cons_append, List.erase_cons_head]
        have hall : ∀ y ∈ l₁, y = x := by
          intro y hy
          have h1 : x ≤ y := hx y (by simp [hy])
          have h2 : y ≤ x := by
            have := (List.pairwise_append.mp hs).2.2 y hy x (by simp)
            exact this
          omega
        exact (append_cons_of_all_eq x l₁ l₂ hall).symm ▸ rfl
      · rw [List.cons_append, List.erase_cons_tail, ih hs, List.cons_append]
        simp [hxk]

lemma sorted_of_sorted_append_middle (l₁ l₂ : List Int) (k : Int)
    (hs : (l₁ ++ k :: l₂).Sorted (· ≤ ·)) :
    (l₁ ++ l₂).Sorted (· ≤ ·) := by
  have hsub : (l₁ ++ l₂).Sublist (l₁ ++ k :: l₂) :=
    List.Sublist.append_left (List.sublist_cons_self k l₂) l₁
  exact List.Pairwise.sublist hsub hs

end RBG

/-! ## Verification layer: order-statistic tree contents -/

namespace OST

open RBG

/-- In-order key sequence of an order-statistic tree. -/
def keys (t : OT) : List Int := keysQ OPay.k t

/-- Key-ordered insertion into a list: the new key goes in front of the
first strictly greater element (duplicates are passed over, matching the
descent `z->key < x->key`). -/
def insR (key : Int) : List Int → List Int
  | [] => [key]
  | x :: xs => if key < x then key :: x :: xs else x :: insR key xs

lemma insR_eq_insOrd (key : Int) (l : List Int) :
    insR key l = insOrd id key l := by
  induction l with
  | nil => rfl
  | cons x xs ih =>
      simp only [insR, insOrd, id]
      split <;> simp_all

lemma hrdO : ∀ c (l : OT) v r, OPay.k (rdHook (T.node c l v r)) = OPay.k v :=
  fun _ _ _ _ => rfl

lemma hruO : ∀ (a : OPay) c (l : OT) v r,
    OPay.k (ruHook a (T.node c l v r)) = OPay.k v :=
  fun _ _ _ _ _ => rfl

/-- `insert` places the new key at its ordered position (duplicates to the
right) and changes nothing else in the in-order key sequence. -/
lemma keys_insert (t : OT) (key : Int)
    (hs : (keys t).Sorted (· ≤ ·)) :
    keys (insert t key) = insR key (keys t) := by
  have hbst : BSTg (fun a => id (OPay.k a)) t := by
    rw [bstg_iff_sorted]
    exact hs
  unfold insert
  rcases hfz : insFix rdHook ruHook
      (insPath (fun v => ⟨v.k, v.sz + 1⟩) (fun v => decide (key < v.k)) t [])
      [] (.node .red .nil ⟨key, 1⟩ .nil) with ⟨fr, z⟩
  simp only [hfz]
  have hI := keysQ_insFix OPay.k rdHook ruHook hrdO hruO
      (insPath (fun v => ⟨v.k, v.sz + 1⟩) (fun v => decide (key < v.k)) t [])
      [] (.node .red .nil ⟨key, 1⟩ .nil)
  rw [hfz] at hI
  have hP := ctxThread_insPath OPay.k id (fun v => ⟨v.k, v.sz + 1⟩)
      (fun v => rfl) (⟨key, 1⟩ : OPay) t [] hbst
  show keys (blackenRoot (assemble fr z)) = _
  rw [keys, keysQ_blackenRoot, hI]
  rw [insR_eq_insOrd]
  exact hP

lemma sorted_keys_insert (t : OT) (key : Int)
    (hs : (keys t).Sorted (· ≤ ·)) :
    (keys (insert t key)).Sorted (· ≤ ·) := by
  rw [keys_insert t key hs, insR_eq_insOrd]
  have := insOrd_sorted (id : Int → Int) key (keys t) (by simpa using hs)
  simpa using this

/-- Removing an absent key is a complete no-op. -/
lemma remove_not_mem (t : OT) (key : Int) (h : key ∉ keys t) :
    remove t key = t := by
  have hnone : searchPath (fun v => decide (key = v.k))
      (fun v => decide (key < v.k)) t [] = none := by
    apply searchPath_none
    intro w hw
    simp only [decide_eq_false_iff_not]
    intro hk
    exact h (by rw [hk]; exact List.mem_map_of_mem OPay.k hw)
  unfold remove
  rw [hnone]

/-- `search` finds a node whenever the key is present (under BST order). -/
lemma searchPath_ne_none_of_mem (t : OT) (key : Int) (p : List (Ctx OPay))
    (hbst : BSTg (fun a => id (OPay.k a)) t) (hmem : key ∈ keys t) :
    searchPath (fun v => decide (key = v.k)) (fun v => decide (key < v.k)) t p
      ≠ none := by
  induction t generalizing p with
  | nil => simp [keys, keysQ] at hmem
  | node c l v r ihl ihr =>
      obtain ⟨hl, hr, bl, br⟩ := hbst
      rw [searchPath]
      by_cases hk : key = v.k
      · simp [hk]
      · rw [if_neg (by simpa using hk)]
        by_cases hlt : key < v.k
        · rw [if_pos (by simpa using hlt)]
          refine ihl _ bl ?_
          simp only [keys, keysQ, inorder_node, List.map_append, List.map_cons,
            List.mem_append, List.mem_cons] at hmem ⊢
          rcases hmem with h | h | h
          · exact h
          · exact absurd h hk
          · exfalso
            simp only [List.mem_map] at h
            obtain ⟨w, hw, rfl⟩ := h
            exact absurd (lt_of_lt_of_le hlt (hr w hw)) (lt_irrefl _)
        · rw [if_neg (by simpa using hlt)]
          refine ihr _ br ?_
          have hgt : v.k < key := by
            rcases lt_trichotomy key v.k with h | h | h
            · exact absurd h hlt
            · exact absurd h hk
            · exact h
          simp only [keys, keysQ, inorder_node, List.map_append, List.map_cons,
            List.mem_append, List.mem_cons] at hmem ⊢
          rcases hmem with h | h | h
          · exfalso
            simp only [List.mem_map] at h
            obtain ⟨w, hw, rfl⟩ := h
            exact absurd (lt_of_le_of_lt (hl w hw) hgt) (lt_irrefl _)
          · exact absurd h hk
          · exact h

/-- `remove` erases exactly one occurrence of the key from the in-order key
sequence (and nothing at all when the key is absent). -/
lemma keys_remove (t : OT) (key : Int)
    (hs : (keys t).Sorted (· ≤ ·)) :
    keys (remove t key) = (keys t).erase key := by
  by_cases hmem : key ∈ keys t
  case neg =>
      rw [remove_not_mem t key hmem, List.erase_of_not_mem hmem]
  case pos =>
  have hbst : BSTg (fun a => id (OPay.k a)) t := by
    rw [bstg_iff_sorted]; exact hs
  obtain ⟨q, zc, zl, zv, zr, hsp⟩ :
      ∃ q zc zl zv zr, searchPath (fun v => decide (key = v.k))
        (fun v => decide (key < v.k)) t [] = some (q, zc, zl, zv, zr) := by
    rcases h : searchPath (fun v => decide (key = v.k))
        (fun v => decide (key < v.k)) t [] with _ | ⟨q, zc, zl, zv, zr⟩
    · exact absurd h (searchPath_ne_none_of_mem t key [] hbst hmem)
    · exact ⟨q, zc, zl, zv, zr, h⟩
  obtain ⟨hasm, hisM⟩ := searchPath_found _ _ t [] q zc zl zv zr hsp
  have hkey : key = zv.k := by simpa using hisM
  have hkt : keys t
      = ctxThread OPay.k q (keysQ OPay.k zl ++ zv.k :: keysQ OPay.k zr) := by
    have h0 : keys t = keysQ OPay.k (assemble q (.node zc zl zv zr)) := by
      rw [hasm]; rfl
    rw [h0, keysQ_assemble, keysQ_node]
  have hrem := keysQ_removeAux OPay.k rdHook ruHook hrdO hruO
    (fun v => ⟨v.k, v.sz - 1⟩) (fun v => rfl)
    (fun yv l r => ⟨yv.k, getSize l + getSize r + 1⟩) (fun v l r => rfl)
    q zc zl zr
  obtain ⟨P, S, hPS⟩ := ctxThread_shape OPay.k q
  have hsplit : keys t
      = (P ++ keysQ OPay.k zl) ++ key :: (keysQ OPay.k zr ++ S) := by
    rw [hkt, hPS, hkey]
    simp [List.append_assoc]
  have hres : keysQ OPay.k (assemble
      (removeAux rdHook ruHook (fun v => ⟨v.k, v.sz - 1⟩)
        (fun yv l r => ⟨yv.k, getSize l + getSize r + 1⟩) q zc zl zr).path
      (removeAux rdHook ruHook (fun v => ⟨v.k, v.sz - 1⟩)
        (fun yv l r => ⟨yv.k, getSize l + getSize r + 1⟩) q zc zl zr).focus)
      = (keys t).erase key := by
    rw [hrem, hPS, hsplit, erase_middle_sorted key _ _ (hsplit ▸ hs)]
    simp [List.append_assoc]
  unfold remove
  rw [hsp]
  dsimp only
  split
  · show keys (blackenRoot (assemble _ _)) = _
    rw [keys, keysQ_blackenRoot]
    exact hres
  · exact hres

lemma sorted_keys_remove (t : OT) (key : Int)
    (hs : (keys t).Sorted (· ≤ ·)) :
    (keys (remove t key)).Sorted (· ≤ ·) := by
  rw [keys_remove t key hs]
  exact List.Pairwise.sublist (List.erase_sublist key (keys t)) hs


/-! ### Subtree-size invariant -/

/-- Actual number of nodes in a subtree (as an integer, to compare with the
stored `size` fields). -/
def cnt : OT → Int
  | .nil => 0
  | .node _ l _ r => cnt l + cnt r + 1

@[simp] lemma cnt_nil : cnt .nil = 0 := rfl

@[simp] lemma cnt_node (c : RBColor) (l : OT) (v : OPay) (r : OT) :
    cnt (.node c l v r) = cnt l + cnt r + 1 := rfl

/-- Every stored `size` field equals the true subtree size
(`node->size == 1 + size(left) + size(right)`). -/
def SizeOk : OT → Prop
  | .nil => True
  | .node _ l v r => v.sz = cnt l + cnt r + 1 ∧ SizeOk l ∧ SizeOk r

@[simp] lemma sizeOk_nil : SizeOk .nil := trivial

lemma sizeOk_node (c : RBColor) (l : OT) (v : OPay) (r : OT) :
    SizeOk (.node c l v r) ↔ v.sz = cnt l + cnt r + 1 ∧ SizeOk l ∧ SizeOk r :=
  Iff.rfl

lemma getSize_eq_cnt (t : OT) (h : SizeOk t) : getSize t = cnt t := by
  cases t with
  | nil => rfl
  | node c l v r => exact h.1

@[simp] lemma cnt_blackenRoot (t : OT) : cnt (blackenRoot t) = cnt t := by
  cases t <;> rfl

lemma sizeOk_blackenRoot (t : OT) (h : SizeOk t) : SizeOk (blackenRoot t) := by
  cases t with
  | nil => trivial
  | node c l v r => exact h

@[simp] lemma cnt_reddenRoot (t : OT) : cnt (reddenRoot t) = cnt t := by
  cases t <;> rfl

lemma sizeOk_reddenRoot (t : OT) (h : SizeOk t) : SizeOk (reddenRoot t) := by
  cases t with
  | nil => trivial
  | node c l v r => exact h

/-- Size-correctness of a zipper context around a hole holding `n` nodes. -/
def CtxSz : List (Ctx OPay) → Int → Prop
  | [], _ => True
  | .fromL _ v r :: p, n => v.sz = n + cnt r + 1 ∧ SizeOk r ∧ CtxSz p (n + cnt r + 1)
  | .fromR _ l v :: p, n => v.sz = cnt l + n + 1 ∧ SizeOk l ∧ CtxSz p (cnt l + n + 1)

lemma sizeOk_assemble_iff (p : List (Ctx OPay)) (t : OT) :
    SizeOk (assemble p t) ↔ SizeOk t ∧ CtxSz p (cnt t) := by
  induction p generalizing t with
  | nil => simp [CtxSz]
  | cons f p ih =>
      cases f with
      | fromL c v r =>
          show SizeOk (assemble p (.node c t v r)) ↔ _
          rw [ih]
          simp only [sizeOk_node, cnt_node, CtxSz]
          tauto
      | fromR c l v =>
          show SizeOk (assemble p (.node c l v t)) ↔ _
          rw [ih]
          simp only [sizeOk_node, cnt_node, CtxSz]
          tauto

lemma cnt_leftRotate (t : OT) : cnt (leftRotate rdHook ruHook t) = cnt t := by
  rcases t with _ | ⟨cx, l, x, _ | ⟨cy, rl, y, rr⟩⟩
  · rfl
  · rfl
  · simp only [leftRotate, cnt_node]
    ring

lemma cnt_rightRotate (t : OT) : cnt (rightRotate rdHook ruHook t) = cnt t := by
  rcases t with _ | ⟨cy, _ | ⟨cx, xl, x, xr⟩, y, rr⟩
  · rfl
  · rfl
  · simp only [rightRotate, cnt_node]
    ring

lemma sizeOk_leftRotate (t : OT) (h : SizeOk t) :
    SizeOk (leftRotate rdHook ruHook t) := by
  rcases t with _ | ⟨cx, l, x, _ | ⟨cy, rl, y, rr⟩⟩
  · trivial
  · exact h
  · have hx := h.1
    have hl := h.2.1
    have hrl := h.2.2.2.1
    have hrr := h.2.2.2.2
    simp only [leftRotate]
    refine ⟨?_, ⟨?_, hl, hrl⟩, hrr⟩
    · show x.sz = cnt (T.node cx l (rdHook (T.node cx l x rl)) rl) + cnt rr + 1
      rw [hx]
      simp only [cnt_node]
      ring
    · show getSize l + getSize rl + 1 = cnt l + cnt rl + 1
      rw [getSize_eq_cnt l hl, getSize_eq_cnt rl hrl]

lemma sizeOk_rightRotate (t : OT) (h : SizeOk t) :
    SizeOk (rightRotate rdHook ruHook t) := by
  rcases t with _ | ⟨cy, _ | ⟨cx, xl, x, xr⟩, y, rr⟩
  · trivial
  · exact h
  · have hy := h.1
    have hxl := h.2.1.2.1
    have hxr := h.2.1.2.2
    have hrr := h.2.2
    simp only [rightRotate]
    refine ⟨?_, hxl, ⟨?_, hxr, hrr⟩⟩
    · show y.sz = cnt xl + cnt (T.node cy xr (rdHook (T.node cy xr y rr)) rr) + 1
      rw [hy]
      simp only [cnt_node]
      ring
    · show getSize xr + getSize rr + 1 = cnt xr + cnt rr + 1
      rw [getSize_eq_cnt xr hxr, getSize_eq_cnt rr hrr]


/-- Size-correctness is preserved by the insertion fix-up. -/
lemma sizeOk_IRel : ∀ (p : List (Ctx OPay)) (zd : List Bool) (zt : OT)
    (r : List (Ctx OPay) × OT), IRel rdHook ruHook p zd zt r →
    SizeOk (assemble p zt) → SizeOk (assemble r.1 r.2) := by
  intro p zd zt r hrel
  induction hrel with
  | exitP pf gf rest zd zt hc =>
      intro h
      simpa [assemble_append, descendZ_assemble] using h
  | exitNil zd zt =>
      intro h
      simpa [descendZ_assemble] using h
  | exitOne f zd zt =>
      intro h
      simpa [assemble_append, descendZ_assemble] using h
  | upL pf rest zd zt gc gv ul uv ur hp r hrec ih =>
      intro h
      apply ih
      cases pf with
      | fromL c v rr =>
          replace h : SizeOk (assemble rest
              (T.node gc (T.node c zt v rr) gv (T.node .red ul uv ur))) := h
          rw [sizeOk_assemble_iff] at h ⊢
          exact h
      | fromR c ll v =>
          replace h : SizeOk (assemble rest
              (T.node gc (T.node c ll v zt) gv (T.node .red ul uv ur))) := h
          rw [sizeOk_assemble_iff] at h ⊢
          exact h
  | upR pf rest zd zt gc gv ul uv ur hp r hrec ih =>
      intro h
      apply ih
      cases pf with
      | fromL c v rr =>
          replace h : SizeOk (assemble rest
              (T.node gc (T.node .red ul uv ur) gv (T.node c zt v rr))) := h
          rw [sizeOk_assemble_iff] at h ⊢
          exact h
      | fromR c ll v =>
          replace h : SizeOk (assemble rest
              (T.node gc (T.node .red ul uv ur) gv (T.node c ll v zt))) := h
          rw [sizeOk_assemble_iff] at h ⊢
          exact h
  | rotLL rest zd zt gc gv gr pv pr hu S hS =>
      intro h
      rw [assemble_append, descendZ_assemble]
      subst hS
      replace h : SizeOk (assemble rest
          (T.node gc (T.node .red zt pv pr) gv gr)) := h
      rw [sizeOk_assemble_iff] at h ⊢
      obtain ⟨hX, hctx⟩ := h
      constructor
      · exact sizeOk_rightRotate _ hX
      · rw [cnt_rightRotate]
        exact hctx
  | rotLR rest zd zt gc gv gr pl pv hu P1 hP1 S hS =>
      intro h
      rw [assemble_append, descendZ_assemble]
      subst hS
      subst hP1
      replace h : SizeOk (assemble rest
          (T.node gc (T.node .red pl pv zt) gv gr)) := h
      rw [sizeOk_assemble_iff] at h ⊢
      obtain ⟨hX, hctx⟩ := h
      have hmid : SizeOk (T.node .red
          (blackenRoot (leftRotate rdHook ruHook (T.node .red pl pv zt))) gv gr) := by
        refine ⟨?_, sizeOk_blackenRoot _ (sizeOk_leftRotate _ hX.2.1), hX.2.2⟩
        simp only [cnt_blackenRoot, cnt_leftRotate]
        exact hX.1
      constructor
      · exact sizeOk_rightRotate _ hmid
      · simp only [cnt_rightRotate, cnt_node, cnt_blackenRoot, cnt_leftRotate]
        exact hctx
  | rotRR rest zd zt gc gl gv pl pv hu S hS =>
      intro h
      rw [assemble_append, descendZ_assemble]
      subst hS
      replace h : SizeOk (assemble rest
          (T.node gc gl gv (T.node .red pl pv zt))) := h
      rw [sizeOk_assemble_iff] at h ⊢
      obtain ⟨hX, hctx⟩ := h
      constructor
      · exact sizeOk_leftRotate _ hX
      · rw [cnt_leftRotate]
        exact hctx
  | rotRL rest zd zt gc gl gv pv pr hu P1 hP1 S hS =>
      intro h
      rw [assemble_append, descendZ_assemble]
      subst hS
      subst hP1
      replace h : SizeOk (assemble rest
          (T.node gc gl gv (T.node .red zt pv pr))) := h
      rw [sizeOk_assemble_iff] at h ⊢
      obtain ⟨hX, hctx⟩ := h
      have hmid : SizeOk (T.node .red gl gv
          (blackenRoot (rightRotate rdHook ruHook (T.node .red zt pv pr)))) := by
        refine ⟨?_, hX.2.1, sizeOk_blackenRoot _ (sizeOk_rightRotate _ hX.2.2)⟩
        simp only [cnt_blackenRoot, cnt_rightRotate]
        exact hX.1
      constructor
      · exact sizeOk_leftRotate _ hmid
      · simp only [cnt_leftRotate, cnt_node, cnt_blackenRoot, cnt_rightRotate]
        exact hctx


/-- The size-incrementing descent of `insert` leaves a context that is
size-correct around a singleton hole. -/
lemma insPath_ctxSz (t : OT) (key : Int) (p : List (Ctx OPay))
    (hok : SizeOk t) (hp : CtxSz p (cnt t + 1)) :
    CtxSz (insPath (fun v => ⟨v.k, v.sz + 1⟩) (fun v => decide (key < v.k)) t p)
      1 := by
  induction t generalizing p with
  | nil =>
      simp only [cnt_nil, zero_add] at hp
      simpa [insPath] using hp
  | node c l v r ihl ihr =>
      obtain ⟨hsz, hl, hr⟩ := hok
      rw [insPath]
      split
      · refine ihl _ hl ?_
        refine ⟨?_, hr, ?_⟩
        · show v.sz + 1 = cnt l + 1 + cnt r + 1
          rw [hsz]; ring
        · rw [show cnt l + 1 + cnt r + 1 = cnt l + cnt r + 1 + 1 from by ring]
          exact hp
      · refine ihr _ hr ?_
        refine ⟨?_, hl, ?_⟩
        · show v.sz + 1 = cnt l + (cnt r + 1) + 1
          rw [hsz]; ring
        · rw [show cnt l + (cnt r + 1) + 1 = cnt l + cnt r + 1 + 1 from by ring]
          exact hp

/-- `insert` preserves size-correctness. -/
lemma sizeOk_insert (t : OT) (key : Int) (h : SizeOk t) :
    SizeOk (insert t key) := by
  unfold insert
  rcases hfz : insFix rdHook ruHook
      (insPath (fun v => ⟨v.k, v.sz + 1⟩) (fun v => decide (key < v.k)) t [])
      [] (.node .red .nil ⟨key, 1⟩ .nil) with ⟨fr, z⟩
  simp only [hfz]
  apply sizeOk_blackenRoot
  have hpre : SizeOk (assemble
      (insPath (fun v => ⟨v.k, v.sz + 1⟩) (fun v => decide (key < v.k)) t [])
      (.node .red .nil ⟨key, 1⟩ .nil)) := by
    rw [sizeOk_assemble_iff]
    constructor
    · exact ⟨by norm_num, trivial, trivial⟩
    · have := insPath_ctxSz t key [] h trivial
      rw [show cnt (.node .red .nil (⟨key, 1⟩ : OPay) .nil) = 1 from by
        simp [cnt]]
      exact this
  have := sizeOk_IRel _ _ _ _ (insFix_rel rdHook ruHook
      (insPath (fun v => ⟨v.k, v.sz + 1⟩) (fun v => decide (key < v.k)) t [])
      [] (.node .red .nil ⟨key, 1⟩ .nil)) hpre
  rw [hfz] at this
  exact this

/-- The true node count is the length of the in-order key sequence. -/
lemma cnt_eq_length (t : OT) : cnt t = (keys t).length := by
  induction t with
  | nil => rfl
  | node c l v r ihl ihr =>
      simp only [cnt_node, keys] at *
      simp only [keysQ_node, List.length_append, List.length_cons]
      push_cast
      rw [ihl, ihr]
      ring


@[simp] lemma rdHook_sz (c : RBColor) (l : OT) (v : OPay) (r : OT) :
    (rdHook (T.node c l v r)).sz = getSize l + getSize r + 1 := rfl

@[simp] lemma ruHook_sz (a : OPay) (c : RBColor) (l : OT) (v : OPay) (r : OT) :
    (ruHook a (T.node c l v r)).sz = a.sz := rfl

lemma sizeOk_assemble_of (p : List (Ctx OPay)) (X Y : OT)
    (hY : SizeOk X → SizeOk Y) (hcnt : cnt Y = cnt X)
    (h : SizeOk (assemble p X)) : SizeOk (assemble p Y) := by
  rw [sizeOk_assemble_iff] at h ⊢
  exact ⟨hY h.1, by rw [hcnt]; exact h.2⟩

/-- Size-correctness is preserved by the deletion fix-up. -/
lemma sizeOk_DRel : ∀ (p : List (Ctx OPay)) (us : USt) (x : OT) (r : DFR OPay),
    DRel rdHook ruHook p us x r →
    SizeOk (assemble p x) → SizeOk (assemble r.path r.focus) := by
  intro p us x r hrel
  induction hrel with
  | root us x =>
      intro h
      rw [assemble_finishD]
      exact sizeOk_blackenRoot _ h
  | redX f p us x hc =>
      intro h
      rw [assemble_finishD]
      cases f with
      | fromL c v rr =>
          refine sizeOk_assemble_of p (T.node c x v rr) _ ?_ ?_ h
          · intro hX
            exact ⟨by simpa using hX.1, sizeOk_blackenRoot _ hX.2.1, hX.2.2⟩
          · simp
      | fromR c ll v =>
          refine sizeOk_assemble_of p (T.node c ll v x) _ ?_ ?_ h
          · intro hX
            exact ⟨by simpa using hX.1, hX.2.1, sizeOk_blackenRoot _ hX.2.2⟩
          · simp
  | L12 p us x pc pv wl wv wr hx hbb pd hpd pu hpu =>
      intro h
      rw [assemble_finishD]
      subst hpd hpu
      refine sizeOk_assemble_of p (T.node pc x pv (T.node .red wl wv wr)) _ ?_ ?_ h
      · intro hX
        have e1 := hX.1
        have e2 := hX.2.2.1
        simp only [cnt_node] at e1
        refine ⟨?_, ⟨?_, hX.2.1, sizeOk_reddenRoot _ hX.2.2.2.1⟩, hX.2.2.2.2⟩
        · show pv.sz = _
          simp only [cnt_node, cnt_reddenRoot]
          omega
        · show getSize x + getSize wl + 1 = _
          rw [getSize_eq_cnt x hX.2.1, getSize_eq_cnt wl hX.2.2.2.1]
          simp [cnt_reddenRoot]
      · simp only [reattach_fromL, reattach_fromR, cnt_node, cnt_reddenRoot]
        ring
  | R12 p us x pc pv wl wv wr hx hbb pd hpd pu hpu =>
      intro h
      rw [assemble_finishD]
      subst hpd hpu
      refine sizeOk_assemble_of p (T.node pc (T.node .red wl wv wr) pv x) _ ?_ ?_ h
      · intro hX
        have e1 := hX.1
        simp only [cnt_node] at e1
        refine ⟨?_, hX.2.1.2.1, ⟨?_, sizeOk_reddenRoot _ hX.2.1.2.2, hX.2.2⟩⟩
        · show pv.sz = _
          simp only [cnt_node, cnt_reddenRoot]
          omega
        · show getSize wr + getSize x + 1 = _
          rw [getSize_eq_cnt wr hX.2.1.2.2, getSize_eq_cnt x hX.2.2]
          simp [cnt_reddenRoot]
      · simp only [reattach_fromL, reattach_fromR, cnt_node, cnt_reddenRoot]
        ring
  | L2 p us x pc pv w hx hwc hbb r hrec ih =>
      intro h
      apply ih
      refine sizeOk_assemble_of p (T.node pc x pv w) _ ?_ ?_ h
      · intro hX
        refine ⟨?_, hX.2.1, sizeOk_reddenRoot _ hX.2.2⟩
        simp only [cnt_node, cnt_reddenRoot]
        simpa using hX.1
      · simp
  | R2 p us x pc pv w hx hwc hbb r hrec ih =>
      intro h
      apply ih
      refine sizeOk_assemble_of p (T.node pc w pv x) _ ?_ ?_ h
      · intro hX
        refine ⟨?_, sizeOk_reddenRoot _ hX.2.1, hX.2.2⟩
        simp only [cnt_node, cnt_reddenRoot]
        simpa using hX.1
      · simp
  | L34 p us x pc pv wc wl wv wr hx hwc hnbb w3 hw3 c4 w4l w4v w4r hw4 xd hxd xu hxu =>
      intro h
      rw [assemble_finishD]
      subst hxd hxu
      have hw : SizeOk (assemble p (T.node pc x pv (T.node wc wl wv wr))) := h
      rw [sizeOk_assemble_iff] at hw
      obtain ⟨hX, hctx⟩ := hw
      have hxok := hX.2.1
      have hwvsz := hX.2.2.1
      have hwl := hX.2.2.2.1
      have hwr := hX.2.2.2.2
      have hpvsz := hX.1
      simp only [cnt_node] at hpvsz
      have hw34 : SizeOk (T.node c4 w4l w4v w4r)
          ∧ cnt (T.node c4 w4l w4v w4r) = cnt wl + cnt wr + 1 := by
        rw [← hw4, hw3]
        split
        · constructor
          · apply sizeOk_rightRotate
            refine ⟨?_, sizeOk_blackenRoot _ hwl, hwr⟩
            simpa [cnt_blackenRoot] using hwvsz
          · rw [cnt_rightRotate]
            simp [cnt_blackenRoot]
        · exact ⟨⟨hwvsz, hwl, hwr⟩, by simp⟩
      have hw4l := hw34.1.2.1
      have hw4r := hw34.1.2.2
      have hw4cnt := hw34.2
      simp only [cnt_node] at hw4cnt
      have gx : getSize x = cnt x := getSize_eq_cnt x hxok
      have gw4l : getSize w4l = cnt w4l := getSize_eq_cnt w4l hw4l
      refine sizeOk_assemble_of p (T.node pc x pv (T.node wc wl wv wr)) _ ?_ ?_ h
      · intro hX2
        refine ⟨?_, ⟨?_, hxok, hw4l⟩, sizeOk_blackenRoot _ hw4r⟩
        · simp only [ruHook_sz, reattach_fromL, reattach_fromR, cnt_node, cnt_blackenRoot]
          omega
        · simp only [rdHook_sz, reattach_fromL, reattach_fromR, cnt_node]
          omega
      · simp only [reattach_fromL, cnt_node, cnt_blackenRoot]
        omega
  | R34 p us x pc pv wc wl wv wr hx hwc hnbb w3 hw3 c4 w4l w4v w4r hw4 xd hxd xu hxu =>
      intro h
      rw [assemble_finishD]
      subst hxd hxu
      have hw : SizeOk (assemble p (T.node pc (T.node wc wl wv wr) pv x)) := h
      rw [sizeOk_assemble_iff] at hw
      obtain ⟨hX, hctx⟩ := hw
      have hxok := hX.2.2
      have hwvsz := hX.2.1.1
      have hwl := hX.2.1.2.1
      have hwr := hX.2.1.2.2
      have hpvsz := hX.1
      simp only [cnt_node] at hpvsz
      have hw34 : SizeOk (T.node c4 w4l w4v w4r)
          ∧ cnt (T.node c4 w4l w4v w4r) = cnt wl + cnt wr + 1 := by
        rw [← hw4, hw3]
        split
        · constructor
          · apply sizeOk_leftRotate
            refine ⟨?_, hwl, sizeOk_blackenRoot _ hwr⟩
            simpa [cnt_blackenRoot] using hwvsz
          · rw [cnt_leftRotate]
            simp [cnt_blackenRoot]
        · exact ⟨⟨hwvsz, hwl, hwr⟩, by simp⟩
      have hw4l := hw34.1.2.1
      have hw4r := hw34.1.2.2
      have hw4cnt := hw34.2
      simp only [cnt_node] at hw4cnt
      have gx : getSize x = cnt x := getSize_eq_cnt x hxok
      have gw4r : getSize w4r = cnt w4r := getSize_eq_cnt w4r hw4r
      refine sizeOk_assemble_of p (T.node pc (T.node wc wl wv wr) pv x) _ ?_ ?_ h
      · intro hX2
        refine ⟨?_, sizeOk_blackenRoot _ hw4l, ⟨?_, hw4r, hxok⟩⟩
        · simp only [ruHook_sz, reattach_fromL, reattach_fromR, cnt_node, cnt_blackenRoot]
          omega
        · simp only [rdHook_sz, reattach_fromL, reattach_fromR, cnt_node]
          omega
      · simp only [reattach_fromR, cnt_node, cnt_blackenRoot]
        omega
  | L134 p us x pc pv w2c w2l w2v w2r wv wr hx hnbb pd hpd pu hpu w3 hw3 c4 w4l w4v w4r hw4 xd hxd xu hxu =>
      intro h
      rw [assemble_finishD]
      subst hpd hpu hxd hxu
      have hw : SizeOk (assemble p
          (T.node pc x pv (T.node .red (T.node w2c w2l w2v w2r) wv wr))) := h
      rw [sizeOk_assemble_iff] at hw
      obtain ⟨hX, hctx⟩ := hw
      have hxok := hX.2.1
      have hW := hX.2.2
      have hwvsz := hW.1
      have hW2 := hW.2.1
      have hwr := hW.2.2
      have hw2vsz := hW2.1
      have hw2l := hW2.2.1
      have hw2r := hW2.2.2
      have hpvsz := hX.1
      simp only [cnt_node] at hpvsz hwvsz
      have hw34 : SizeOk (T.node c4 w4l w4v w4r)
          ∧ cnt (T.node c4 w4l w4v w4r) = cnt w2l + cnt w2r + 1 := by
        rw [← hw4, hw3]
        split
        · constructor
          · apply sizeOk_rightRotate
            refine ⟨?_, sizeOk_blackenRoot _ hw2l, hw2r⟩
            simpa [cnt_blackenRoot] using hw2vsz
          · rw [cnt_rightRotate]
            simp [cnt_blackenRoot]
        · exact ⟨⟨hw2vsz, hw2l, hw2r⟩, by simp⟩
      have hw4l := hw34.1.2.1
      have hw4r := hw34.1.2.2
      have hw4cnt := hw34.2
      simp only [cnt_node] at hw4cnt
      have gx : getSize x = cnt x := getSize_eq_cnt x hxok
      have gw4l : getSize w4l = cnt w4l := getSize_eq_cnt w4l hw4l
      have gW2 : getSize (T.node w2c w2l w2v w2r)
          = cnt (T.node w2c w2l w2v w2r) := getSize_eq_cnt _ hW2
      simp only [cnt_node] at gW2
      refine sizeOk_assemble_of p
        (T.node pc x pv (T.node .red (T.node w2c w2l w2v w2r) wv wr)) _ ?_ ?_ h
      · intro hX2
        refine ⟨?_, ⟨?_, ⟨?_, hxok, hw4l⟩, sizeOk_blackenRoot _ hw4r⟩, hwr⟩
        · simp only [ruHook_sz, reattach_fromL, reattach_fromR, cnt_node, cnt_blackenRoot]
          omega
        · simp only [ruHook_sz, rdHook_sz, reattach_fromL, reattach_fromR, cnt_node, cnt_blackenRoot]
          omega
        · simp only [rdHook_sz, reattach_fromL, reattach_fromR, cnt_node]
          omega
      · simp only [reattach_fromL, cnt_node, cnt_blackenRoot]
        omega
  | R134 p us x pc pv wl wv w2c w2l w2v w2r hx hnbb pd hpd pu hpu w3 hw3 c4 w4l w4v w4r hw4 xd hxd xu hxu =>
      intro h
      rw [assemble_finishD]
      subst hpd hpu hxd hxu
      have hw : SizeOk (assemble p
          (T.node pc (T.node .red wl wv (T.node w2c w2l w2v w2r)) pv x)) := h
      rw [sizeOk_assemble_iff] at hw
      obtain ⟨hX, hctx⟩ := hw
      have hxok := hX.2.2
      have hW := hX.2.1
      have hwvsz := hW.1
      have hwl := hW.2.1
      have hW2 := hW.2.2
      have hw2vsz := hW2.1
      have hw2l := hW2.2.1
      have hw2r := hW2.2.2
      have hpvsz := hX.1
      simp only [cnt_node] at hpvsz hwvsz
      have hw34 : SizeOk (T.node c4 w4l w4v w4r)
          ∧ cnt (T.node c4 w4l w4v w4r) = cnt w2l + cnt w2r + 1 := by
        rw [← hw4, hw3]
        split
        · constructor
          · apply sizeOk_leftRotate
            refine ⟨?_, hw2l, sizeOk_blackenRoot _ hw2r⟩
            simpa [cnt_blackenRoot] using hw2vsz
          · rw [cnt_leftRotate]
            simp [cnt_blackenRoot]
        · exact ⟨⟨hw2vsz, hw2l, hw2r⟩, by simp⟩
      have hw4l := hw34.1.2.1
      have hw4r := hw34.1.2.2
      have hw4cnt := hw34.2
      simp only [cnt_node] at hw4cnt
      have gx : getSize x = cnt x := getSize_eq_cnt x hxok
      have gw4r : getSize w4r = cnt w4r := getSize_eq_cnt w4r hw4r
      have gW2 : getSize (T.node w2c w2l w2v w2r)
          = cnt (T.node w2c w2l w2v w2r) := getSize_eq_cnt _ hW2
      simp only [cnt_node] at gW2
      refine sizeOk_assemble_of p
        (T.node pc (T.node .red wl wv (T.node w2c w2l w2v w2r)) pv x) _ ?_ ?_ h
      · intro hX2
        refine ⟨?_, hwl, ⟨?_, sizeOk_blackenRoot _ hw4l, ⟨?_, hw4r, hxok⟩⟩⟩
        · simp only [ruHook_sz, reattach_fromL, reattach_fromR, cnt_node, cnt_blackenRoot]
          omega
        · simp only [ruHook_sz, rdHook_sz, reattach_fromL, reattach_fromR, cnt_node, cnt_blackenRoot]
          omega
        · simp only [rdHook_sz, reattach_fromL, reattach_fromR, cnt_node]
          omega
      · simp only [reattach_fromR, cnt_node, cnt_blackenRoot]
        omega


/-- Total node contribution of a context's frames. -/
def ctxCnt : List (Ctx OPay) → Int
  | [] => 0
  | .fromL _ _ r :: p => cnt r + 1 + ctxCnt p
  | .fromR _ l _ :: p => cnt l + 1 + ctxCnt p

lemma cnt_assemble (p : List (Ctx OPay)) (t : OT) :
    cnt (assemble p t) = cnt t + ctxCnt p := by
  induction p generalizing t with
  | nil => simp [ctxCnt]
  | cons f p ih =>
      cases f <;> simp [ctxCnt, ih] <;> ring

lemma ctxCnt_decCtx (dec : OPay → OPay) (p : List (Ctx OPay)) :
    ctxCnt (p.map (decCtx dec)) = ctxCnt p := by
  induction p with
  | nil => rfl
  | cons f p ih => cases f <;> simp [decCtx, ctxCnt, ih]

/-- The size-decrement pass on the ancestor path stays size-correct for a
hole holding one node fewer. -/
lemma ctxSz_dec (p : List (Ctx OPay)) (n : Int) (h : CtxSz p (n + 1)) :
    CtxSz (p.map (decCtx (fun v => ⟨v.k, v.sz - 1⟩))) n := by
  induction p generalizing n with
  | nil => trivial
  | cons f p ih =>
      cases f with
      | fromL c v r =>
          obtain ⟨h1, h2, h3⟩ := h
          refine ⟨?_, h2, ?_⟩
          · show v.sz - 1 = n + cnt r + 1
            omega
          · refine ih (n + cnt r + 1) ?_
            rw [show n + cnt r + 1 + 1 = n + 1 + cnt r + 1 from by ring]
            exact h3
      | fromR c l v =>
          obtain ⟨h1, h2, h3⟩ := h
          refine ⟨?_, h2, ?_⟩
          · show v.sz - 1 = cnt l + n + 1
            omega
          · refine ih (cnt l + n + 1) ?_
            rw [show cnt l + n + 1 + 1 = cnt l + (n + 1) + 1 from by ring]
            exact h3

lemma ctxSz_congr (p : List (Ctx OPay)) (m n : Int) (h : m = n)
    (hc : CtxSz p m) : CtxSz p n := h ▸ hc

/-- The splice-out plus `deleteFixup` preserve size-correctness. -/
lemma sizeOk_removeAux (p : List (Ctx OPay)) (zc : RBColor) (zl zr : OT)
    (hl : SizeOk zl) (hr : SizeOk zr)
    (hctx : CtxSz p (cnt zl + cnt zr + 1)) :
    SizeOk (assemble
      (removeAux rdHook ruHook (fun v => ⟨v.k, v.sz - 1⟩)
        (fun yv l r => ⟨yv.k, getSize l + getSize r + 1⟩) p zc zl zr).path
      (removeAux rdHook ruHook (fun v => ⟨v.k, v.sz - 1⟩)
        (fun yv l r => ⟨yv.k, getSize l + getSize r + 1⟩) p zc zl zr).focus) := by
  have hdel : ∀ (q : List (Ctx OPay)) (us : USt) (x : OT),
      SizeOk (assemble q x) →
      SizeOk (assemble (delFix rdHook ruHook q us x).path
        (delFix rdHook ruHook q us x).focus) :=
    fun q us x hq => sizeOk_DRel q us x _ (delFix_rel rdHook ruHook q us x) hq
  have hfin : ∀ (q : List (Ctx OPay)) (us : USt) (x : OT) (rb : Bool),
      SizeOk (assemble q x) →
      SizeOk (assemble (finishD q us x rb).path (finishD q us x rb).focus) := by
    intro q us x rb hq
    rw [assemble_finishD]
    exact hq
  cases zl with
  | nil =>
      simp only [cnt_nil, zero_add] at hctx
      have hpre : SizeOk (assemble
          (p.map (decCtx (fun v => ⟨v.k, v.sz - 1⟩))) zr) := by
        rw [sizeOk_assemble_iff]
        exact ⟨hr, ctxSz_dec p (cnt zr) hctx⟩
      simp only [removeAux]
      split
      · exact hdel _ _ _ hpre
      · exact hfin _ _ _ _ hpre
  | node lc ll lv lr =>
      cases zr with
      | nil =>
          simp only [cnt_nil, add_zero] at hctx
          have hpre : SizeOk (assemble
              (p.map (decCtx (fun v => ⟨v.k, v.sz - 1⟩)))
              (T.node lc ll lv lr)) := by
            rw [sizeOk_assemble_iff]
            exact ⟨hl, ctxSz_dec p (cnt (T.node lc ll lv lr)) hctx⟩
          simp only [removeAux]
          split
          · exact hdel _ _ _ hpre
          · exact hfin _ _ _ _ hpre
      | node rc rl rv rr =>
          rcases hms : minSplit (T.node rc rl rv rr) ([] : List (Ctx OPay))
            with ⟨acc, yc, yv, yr⟩
          have hasmr := minSplit_assemble rc rl rv rr ([] : List (Ctx OPay))
          rw [hms] at hasmr
          have hzr : SizeOk (assemble acc (T.node yc .nil yv yr)) := by
            rw [hasmr]
            exact hr
          rw [sizeOk_assemble_iff] at hzr
          obtain ⟨hyok, hacc⟩ := hzr
          have hyr := hyok.2.2
          have hcntzr : cnt (T.node rc rl rv rr) = cnt yr + 1 + ctxCnt acc := by
            have h2 : cnt (assemble acc (T.node yc .nil yv yr))
                = cnt (T.node rc rl rv rr) := by
              rw [hasmr]
              exact rfl
            rw [cnt_assemble] at h2
            simp only [cnt_node, cnt_nil] at h2 ⊢
            omega
          simp only [removeAux, hms]
          cases acc with
          | nil =>
              dsimp only
              have hpre : SizeOk (assemble
                  (Ctx.fromR zc (T.node lc ll lv lr)
                    ⟨yv.k, getSize (T.node lc ll lv lr) + getSize yr + 1⟩
                    :: p.map (decCtx (fun v => ⟨v.k, v.sz - 1⟩))) yr) := by
                show SizeOk (assemble (p.map (decCtx (fun v => ⟨v.k, v.sz - 1⟩)))
                  (T.node zc (T.node lc ll lv lr)
                    ⟨yv.k, getSize (T.node lc ll lv lr) + getSize yr + 1⟩ yr))
                rw [sizeOk_assemble_iff]
                constructor
                · refine ⟨?_, hl, hyr⟩
                  show getSize (T.node lc ll lv lr) + getSize yr + 1 = _
                  rw [getSize_eq_cnt _ hl, getSize_eq_cnt _ hyr]
                · refine ctxSz_dec p _ (ctxSz_congr p _ _ ?_ hctx)
                  have hacc0 : ctxCnt ([] : List (Ctx OPay)) = 0 := rfl
                  rw [hacc0] at hcntzr
                  simp only [cnt_node] at hcntzr ⊢
                  omega
              split
              · exact hdel _ _ _ hpre
              · exact hfin _ _ _ _ hpre
          | cons a acc' =>
              dsimp only
              simp only [cnt_node, cnt_nil, zero_add] at hacc
              have hinner : SizeOk (assemble
                  ((a :: acc').map (decCtx (fun v => ⟨v.k, v.sz - 1⟩))) yr) := by
                rw [sizeOk_assemble_iff]
                exact ⟨hyr, ctxSz_dec (a :: acc') (cnt yr) hacc⟩
              have hX : SizeOk (assemble
                  (Ctx.fromR zc (T.node lc ll lv lr)
                    ⟨yv.k, getSize (T.node lc ll lv lr)
                      + getSize (assemble
                          ((a :: acc').map (decCtx (fun v => ⟨v.k, v.sz - 1⟩))) yr)
                      + 1⟩
                    :: p.map (decCtx (fun v => ⟨v.k, v.sz - 1⟩)))
                  (assemble ((a :: acc').map (decCtx (fun v => ⟨v.k, v.sz - 1⟩))) yr)) := by
                show SizeOk (assemble (p.map (decCtx (fun v => ⟨v.k, v.sz - 1⟩)))
                  (T.node zc (T.node lc ll lv lr) _
                    (assemble ((a :: acc').map (decCtx (fun v => ⟨v.k, v.sz - 1⟩))) yr)))
                rw [sizeOk_assemble_iff]
                constructor
                · refine ⟨?_, hl, hinner⟩
                  show getSize (T.node lc ll lv lr)
                      + getSize (assemble
                          ((a :: acc').map (decCtx (fun v => ⟨v.k, v.sz - 1⟩))) yr)
                      + 1 = _
                  rw [getSize_eq_cnt _ hl, getSize_eq_cnt _ hinner]
                · refine ctxSz_dec p _ (ctxSz_congr p _ _ ?_ hctx)
                  have e1 : cnt (assemble
                      ((a :: acc').map (decCtx (fun v => ⟨v.k, v.sz - 1⟩))) yr)
                      = cnt yr + ctxCnt (a :: acc') := by
                    rw [cnt_assemble, ctxCnt_decCtx]
                  simp only [cnt_node] at hcntzr ⊢
                  rw [e1]
                  omega
              have hpre : SizeOk (assemble
                  ((a :: acc').map (decCtx (fun v => ⟨v.k, v.sz - 1⟩))
                    ++ Ctx.fromR zc (T.node lc ll lv lr)
                      ⟨yv.k, getSize (T.node lc ll lv lr)
                        + getSize (assemble
                            ((a :: acc').map (decCtx (fun v => ⟨v.k, v.sz - 1⟩))) yr)
                        + 1⟩
                      :: p.map (decCtx (fun v => ⟨v.k, v.sz - 1⟩))) yr) := by
                rw [assemble_append]
                exact hX
              split
              · exact hdel _ _ _ hpre
              · exact hfin _ _ _ _ hpre


/-- `remove` preserves size-correctness. -/
lemma sizeOk_remove (t : OT) (key : Int) (h : SizeOk t) :
    SizeOk (remove t key) := by
  rcases hsp : searchPath (fun v => decide (key = v.k))
      (fun v => decide (key < v.k)) t [] with _ | ⟨q, zc, zl, zv, zr⟩
  · unfold remove
    rw [hsp]
    exact h
  · obtain ⟨hasm, _⟩ := searchPath_found _ _ t [] q zc zl zv zr hsp
    have hq : SizeOk (assemble q (T.node zc zl zv zr)) := by
      rw [hasm]
      exact h
    rw [sizeOk_assemble_iff] at hq
    obtain ⟨hz, hctx⟩ := hq
    unfold remove
    rw [hsp]
    dsimp only
    split
    · exact sizeOk_blackenRoot _
        (sizeOk_removeAux q zc zl zr hz.2.1 hz.2.2 hctx)
    · exact sizeOk_removeAux q zc zl zr hz.2.1 hz.2.2 hctx

/-- `size()` returns the number of stored keys. -/
lemma sizeI_eq_length (t : OT) (h : SizeOk t) :
    sizeI t = ((keys t).length : Int) := by
  show getSize t = _
  rw [getSize_eq_cnt t h, cnt_eq_length]


/-! ### `select` and `rank` -/

lemma cnt_nonneg (t : OT) : 0 ≤ cnt t := by
  induction t with
  | nil => simp
  | node c l v r ihl ihr => simp only [cnt_node]; omega

/-- `selectNode` returns the sentinel exactly on out-of-range ranks. -/
lemma selectNode_out (t : OT) (k : Int) (h : SizeOk t)
    (hk : k < 1 ∨ cnt t < k) : selectNode t k = .nil := by
  induction t generalizing k with
  | nil => rfl
  | node c l v r ihl ihr =>
      obtain ⟨hsz, hl, hr⟩ := h
      have hnl := cnt_nonneg l
      have hnr := cnt_nonneg r
      rw [selectNode]
      simp only [getSize_eq_cnt l hl]
      split
      · exfalso
        simp only [cnt_node] at hk
        omega
      · split
        · refine ihl _ hl ?_
          simp only [cnt_node] at hk
          omega
        · refine ihr _ hr ?_
          simp only [cnt_node] at hk
          omega

/-- `selectNode` finds the node holding the `(k−1)`-indexed in-order key. -/
lemma selectNode_spec (t : OT) (k : Int) (h : SizeOk t) (h1 : 1 ≤ k)
    (h2 : k ≤ cnt t) :
    ∃ c l v r, selectNode t k = .node c l v r
      ∧ (keys t).get? (k - 1).toNat = some v.k := by
  induction t generalizing k with
  | nil =>
      simp only [cnt_nil] at h2
      omega
  | node c l v r ihl ihr =>
      obtain ⟨hsz, hl, hr⟩ := h
      have hnl := cnt_nonneg l
      have hnr := cnt_nonneg r
      have hlen : (keys l).length = (cnt l).toNat := by
        rw [cnt_eq_length]
        simp
      rw [selectNode]
      simp only [getSize_eq_cnt l hl]
      split
      · rename_i hkr
        refine ⟨c, l, v, r, rfl, ?_⟩
        show (keysQ OPay.k (T.node c l v r)).get? (k - 1).toNat = some v.k
        rw [keysQ_node]
        rw [List.get?_append_right (by rw [show keysQ OPay.k l = keys l from rfl, hlen]; omega)]
        rw [show keysQ OPay.k l = keys l from rfl, hlen]
        rw [show (k - 1).toNat - (cnt l).toNat = 0 from by omega]
        rfl
      · rename_i hkr
        split
        · rename_i hklt
          obtain ⟨c', l', v', r', hsel, hget⟩ := ihl k hl h1 (by omega)
          refine ⟨c', l', v', r', hsel, ?_⟩
          show (keysQ OPay.k (T.node c l v r)).get? (k - 1).toNat = some v'.k
          rw [keysQ_node]
          rw [List.get?_append (by rw [show keysQ OPay.k l = keys l from rfl, hlen]; omega)]
          exact hget
        · rename_i hklt
          have hgt : cnt l + 1 < k := by omega
          obtain ⟨c', l', v', r', hsel, hget⟩ := ihr (k - (cnt l + 1)) hr
            (by omega) (by simp only [cnt_node] at h2; omega)
          refine ⟨c', l', v', r', hsel, ?_⟩
          show (keysQ OPay.k (T.node c l v r)).get? (k - 1).toNat = some v'.k
          rw [keysQ_node]
          rw [List.get?_append_right (by rw [show keysQ OPay.k l = keys l from rfl, hlen]; omega)]
          rw [show keysQ OPay.k l = keys l from rfl, hlen]
          rw [show (k - 1).toNat - (cnt l).toNat = ((k - (cnt l + 1) - 1).toNat + 1) from by omega]
          show (keys r).get? (k - (cnt l + 1) - 1).toNat = some v'.k
          exact hget

/-- In-range `select` returns the `(k−1)`-indexed in-order key. -/
lemma select_spec (t : OT) (k : Int) (h : SizeOk t) (h1 : 1 ≤ k)
    (h2 : k ≤ cnt t) :
    select t k = (keys t).get? (k - 1).toNat := by
  obtain ⟨c, l, v, r, hsel, hget⟩ := selectNode_spec t k h h1 h2
  rw [select, hsel, hget]

/-- Out-of-range `select` reports the error (`none` models the throw). -/
lemma select_out (t : OT) (k : Int) (h : SizeOk t)
    (hk : k < 1 ∨ cnt t < k) : select t k = none := by
  rw [select, selectNode_out t k h hk]


/-- Keys contributed by a context strictly before (in in-order) its hole. -/
def preKeys : List (Ctx OPay) → List Int
  | [] => []
  | .fromL _ _ _ :: p => preKeys p
  | .fromR _ l v :: p => preKeys p ++ keys l ++ [v.k]

/-- Keys contributed by a context strictly after its hole. -/
def sufKeys : List (Ctx OPay) → List Int
  | [] => []
  | .fromL _ v r :: p => v.k :: keys r ++ sufKeys p
  | .fromR _ _ _ :: p => sufKeys p

lemma ctxThread_pre_suf (q : List (Ctx OPay)) (ks : List Int) :
    ctxThread OPay.k q ks = preKeys q ++ ks ++ sufKeys q := by
  induction q generalizing ks with
  | nil => simp [preKeys, sufKeys]
  | cons f p ih =>
      cases f with
      | fromL c v r =>
          rw [ctxThread_fromL, ih]
          simp [preKeys, sufKeys, keys, List.append_assoc]
      | fromR c l v =>
          rw [ctxThread_fromR, ih]
          simp [preKeys, sufKeys, keys, List.append_assoc]

/-- The ascent of `rank` counts exactly the keys in-order before the hole. -/
lemma rankUp_spec (q : List (Ctx OPay)) (acc : Int) (n : Int)
    (hq : CtxSz q n) :
    rankUp q acc = acc + ((preKeys q).length : Int) := by
  induction q generalizing acc n with
  | nil => simp [rankUp, preKeys]
  | cons f p ih =>
      cases f with
      | fromL c v r =>
          obtain ⟨_, _, h3⟩ := hq
          rw [rankUp, ih _ _ h3]
          simp [preKeys]
      | fromR c l v =>
          obtain ⟨h1, h2, h3⟩ := hq
          rw [rankUp, ih _ _ h3]
          simp only [preKeys, List.length_append, List.length_cons,
            List.length_nil, getSize_eq_cnt l h2, cnt_eq_length]
          push_cast
          ring

/-- `rank` of a present key: the tree decomposes around the found
occurrence, and `rank` returns its 1-indexed in-order position. -/
lemma rank_mem (t : OT) (key : Int) (h : SizeOk t)
    (hs : (keys t).Sorted (· ≤ ·)) (hmem : key ∈ keys t) :
    ∃ A B : List Int, keys t = A ++ key :: B
      ∧ rank t key = (A.length : Int) + 1 := by
  have hbst : BSTg (fun a => id (OPay.k a)) t := by
    rw [bstg_iff_sorted]; exact hs
  obtain ⟨q, zc, zl, zv, zr, hsp⟩ :
      ∃ q zc zl zv zr, searchPath (fun v => decide (key = v.k))
        (fun v => decide (key < v.k)) t [] = some (q, zc, zl, zv, zr) := by
    rcases hh : searchPath (fun v => decide (key = v.k))
        (fun v => decide (key < v.k)) t [] with _ | ⟨q, zc, zl, zv, zr⟩
    · exact absurd hh (searchPath_ne_none_of_mem t key [] hbst hmem)
    · exact ⟨q, zc, zl, zv, zr, hh⟩
  obtain ⟨hasm, hisM⟩ := searchPath_found _ _ t [] q zc zl zv zr hsp
  have hkey : key = zv.k := by simpa using hisM
  have hq : SizeOk (assemble q (T.node zc zl zv zr)) := by
    rw [hasm]; exact h
  rw [sizeOk_assemble_iff] at hq
  obtain ⟨hz, hctx⟩ := hq
  have hkt : keys t = preKeys q ++ (keys zl ++ key :: keys zr) ++ sufKeys q := by
    have h0 : keys t = keysQ OPay.k (assemble q (.node zc zl zv zr)) := by
      rw [hasm]; rfl
    rw [h0, keysQ_assemble, keysQ_node, ctxThread_pre_suf, hkey]
    rfl
  refine ⟨preKeys q ++ keys zl, keys zr ++ sufKeys q, ?_, ?_⟩
  · rw [hkt]
    simp [List.append_assoc]
  · unfold rank
    rw [hsp]
    dsimp only
    have := rankUp_spec q (getSize zl + 1) _ hctx
    rw [this, getSize_eq_cnt zl hz.2.1, cnt_eq_length]
    simp only [List.length_append]
    push_cast
    ring


/-! ### Reachable trees -/

/-- One public mutation of an order-statistic tree. -/
inductive OOp
  | ins (k : Int)
  | del (k : Int)

def applyOp (t : OT) : OOp → OT
  | .ins k => insert t k
  | .del k => remove t k

/-- The tree obtained from the empty tree by a sequence of `insert`/`remove`
calls — exactly the trees the claims quantify over. -/
def runOps (ops : List OOp) : OT := ops.foldl applyOp .nil

/-- Specification-side contents: ordered insertion (duplicates right) and
first-occurrence erasure. -/
def specApply (l : List Int) : OOp → List Int
  | .ins k => insR k l
  | .del k => l.erase k

/-- The multiset of inserted-and-not-removed keys, as a sorted list. -/
def specKeys (ops : List OOp) : List Int := ops.foldl specApply []

lemma run_master (ops : List OOp) (t : OT) (hs : (keys t).Sorted (· ≤ ·))
    (hz : SizeOk t) :
    keys (ops.foldl applyOp t) = ops.foldl specApply (keys t)
      ∧ (keys (ops.foldl applyOp t)).Sorted (· ≤ ·)
      ∧ SizeOk (ops.foldl applyOp t) := by
  induction ops generalizing t with
  | nil => exact ⟨rfl, hs, hz⟩
  | cons op ops ih =>
      cases op with
      | ins k =>
          have h1 := keys_insert t k hs
          have this := ih (insert t k) (sorted_keys_insert t k hs)
            (sizeOk_insert t k hz)
          refine ⟨?_, this.2.1, this.2.2⟩
          simp only [List.foldl_cons, applyOp, specApply]
          rw [this.1, h1]
      | del k =>
          have h1 := keys_remove t k hs
          have this := ih (remove t k) (sorted_keys_remove t k hs)
            (sizeOk_remove t k hz)
          refine ⟨?_, this.2.1, this.2.2⟩
          simp only [List.foldl_cons, applyOp, specApply]
          rw [this.1, h1]

lemma runOps_keys (ops : List OOp) : keys (runOps ops) = specKeys ops :=
  (run_master ops .nil (by simp [keys]) trivial).1

lemma runOps_sorted (ops : List OOp) :
    (keys (runOps ops)).Sorted (· ≤ ·) :=
  (run_master ops .nil (by simp [keys]) trivial).2.1

lemma runOps_sizeOk (ops : List OOp) : SizeOk (runOps ops) :=
  (run_master ops .nil (by simp [keys]) trivial).2.2


/-- Second inverse law, unconditionally: selecting at a present key's rank
returns that key. -/
lemma select_rank_of_mem (t : OT) (key : Int) (h : SizeOk t)
    (hs : (keys t).Sorted (· ≤ ·)) (hmem : key ∈ keys t) :
    select t (rank t key) = some key := by
  obtain ⟨A, B, hAB, hrk⟩ := rank_mem t key h hs hmem
  have hlen := cnt_eq_length t
  have h1 : 1 ≤ rank t key := by
    rw [hrk]
    have : (0:Int) ≤ (A.length : Int) := by positivity
    omega
  have h2 : rank t key ≤ cnt t := by
    rw [hrk, hlen, hAB]
    simp only [List.length_append, List.length_cons]
    push_cast
    omega
  rw [select_spec t _ h h1 h2, hrk]
  rw [show ((A.length : Int) + 1 - 1).toNat = A.length from by omega]
  rw [hAB, List.get?_append_right (le_refl _)]
  simp

/-- First inverse law under distinct keys: the rank of the `k`-th smallest
is `k`. -/
lemma rank_select_of_nodup (t : OT) (k : Int) (h : SizeOk t)
    (hs : (keys t).Sorted (· ≤ ·)) (hnd : (keys t).Nodup)
    (h1 : 1 ≤ k) (h2 : k ≤ cnt t) :
    ∃ x, select t k = some x ∧ rank t x = k := by
  have hsel := select_spec t k h h1 h2
  have hlen := cnt_eq_length t
  have hidx : (k - 1).toNat < (keys t).length := by omega
  obtain ⟨x, hx⟩ : ∃ x, (keys t).get? (k - 1).toNat = some x := by
    rw [List.get?_eq_getElem?]
    exact ⟨(keys t)[(k - 1).toNat], List.getElem?_eq_getElem hidx⟩
  refine ⟨x, by rw [hsel, hx], ?_⟩
  have hmem : x ∈ keys t := List.get?_mem hx
  obtain ⟨A, B, hAB, hrk⟩ := rank_mem t x h hs hmem
  have hxA : (keys t).get? A.length = some x := by
    rw [hAB, List.get?_append_right (le_refl _)]
    simp
  have heq : (k - 1).toNat = A.length := by
    apply List.getElem?_inj hidx hnd
    rw [← List.get?_eq_getElem?, ← List.get?_eq_getElem?, hx, hxA]
  rw [hrk, ← heq]
  omega

end OST


/-! ## Verification layer: interval-tree contents -/

namespace POM

open RBG

/-- In-order interval sequence of a POM tree. -/
def ivs (t : PT) : List Interval := keysQ PPay.iv t

/-- In-order start sequence. -/
def starts (t : PT) : List Int := (ivs t).map Interval.s

lemma hrdP : ∀ c (l : PT) v r, PPay.iv (rdHook (T.node c l v r)) = PPay.iv v :=
  fun _ _ _ _ => rfl

lemma hruP : ∀ (a : PPay) c (l : PT) v r,
    PPay.iv (ruHook a (T.node c l v r)) = PPay.iv v :=
  fun _ _ _ _ _ => rfl

@[simp] lemma ivs_updAugT (t : PT) : ivs (updAugT t) = ivs t := by
  cases t with
  | nil => rfl
  | node c l v r => simp [updAugT, ivs]

/-- `updateAncestors` only rewrites summaries: contents are those of the
assembled tree. -/
lemma ivs_updateUp (p : List (Ctx PPay)) (t : PT) :
    ivs (updateUp p t) = keysQ PPay.iv (assemble p t) := by
  induction p generalizing t with
  | nil => rfl
  | cons f p ih =>
      rw [updateUp, ih]
      rw [keysQ_assemble, keysQ_assemble]
      cases f with
      | fromL c v r =>
          simp only [reattach_fromL]
          rw [show keysQ PPay.iv (updAugT (T.node c t v r))
              = keysQ PPay.iv (T.node c t v r) from ivs_updAugT _]
          rw [keysQ_node, ctxThread_fromL]
      | fromR c l v =>
          simp only [reattach_fromR]
          rw [show keysQ PPay.iv (updAugT (T.node c l v t))
              = keysQ PPay.iv (T.node c l v t) from ivs_updAugT _]
          rw [keysQ_node, ctxThread_fromR]

/-- `insert` places the new interval at its start-ordered position. -/
lemma ivs_insert (t : PT) (iv : Interval)
    (hs : (starts t).Sorted (· ≤ ·)) :
    ivs (insert t iv) = insOrd Interval.s iv (ivs t) := by
  have hbst : BSTg (fun a => Interval.s (PPay.iv a)) t := by
    rw [bstg_iff_sorted]
    have : (inorder t).map (fun a => Interval.s (PPay.iv a))
        = (starts t) := by
      simp [starts, ivs, keysQ, List.map_map]
    rw [this]
    exact hs
  unfold insert
  rcases hfz : insFix rdHook ruHook
      (insPath id (fun w => decide (iv.s < w.iv.s)) t [])
      [] (.node .red .nil ⟨iv, ⟨iv.v, iv.v, iv.s⟩⟩ .nil) with ⟨fr, zf⟩
  simp only [hfz]
  have hI := keysQ_insFix PPay.iv rdHook ruHook hrdP hruP
      (insPath id (fun w => decide (iv.s < w.iv.s)) t [])
      [] (.node .red .nil ⟨iv, ⟨iv.v, iv.v, iv.s⟩⟩ .nil)
  rw [hfz] at hI
  have hP := ctxThread_insPath PPay.iv Interval.s id
      (fun v => rfl) (⟨iv, ⟨iv.v, iv.v, iv.s⟩⟩ : PPay) t [] hbst
  show ivs (blackenRoot (updateUp fr (updAugT zf))) = _
  rw [show ivs (blackenRoot (updateUp fr (updAugT zf)))
      = ivs (updateUp fr (updAugT zf)) from keysQ_blackenRoot _ _]
  rw [ivs_updateUp]
  rw [show keysQ PPay.iv (assemble fr (updAugT zf))
      = keysQ PPay.iv (assemble fr zf) from by
    rw [keysQ_assemble, keysQ_assemble, show keysQ PPay.iv (updAugT zf)
      = keysQ PPay.iv zf from ivs_updAugT _]]
  rw [hI]
  exact hP


lemma sorted_starts_insert (t : PT) (iv : Interval)
    (hs : (starts t).Sorted (· ≤ ·)) :
    (starts (insert t iv)).Sorted (· ≤ ·) := by
  rw [starts, ivs_insert t iv hs]
  exact insOrd_sorted Interval.s iv (ivs t) hs

/-- Removing an interval whose exact `(start, end)` pair is not present is
a complete no-op. -/
lemma remove_not_found (t : PT) (iv : Interval)
    (h : ∀ w ∈ ivs t, ¬(w.s = iv.s ∧ w.e = iv.e)) :
    remove t iv = t := by
  have hnone : searchPath (fun w => iv.s == w.iv.s && iv.e == w.iv.e)
      (fun w => decide (iv.s < w.iv.s)) t [] = none := by
    apply searchPath_none
    intro w hw
    have hmem : w.iv ∈ ivs t := List.mem_map_of_mem PPay.iv hw
    have hw2 := h w.iv hmem
    rw [Bool.eq_false_iff]
    intro hc
    simp only [Bool.and_eq_true, beq_iff_eq] at hc
    exact hw2 ⟨hc.1.symm, hc.2.symm⟩
  unfold remove
  rw [hnone]

/-- Content view of a successful removal: exactly the located slot
disappears, everything else keeps its place. -/
lemma ivs_remove_found (t : PT) (iv : Interval) (q : List (Ctx PPay))
    (zc : RBColor) (zl : PT) (zv : PPay) (zr : PT)
    (hsp : searchPath (fun w => iv.s == w.iv.s && iv.e == w.iv.e)
      (fun w => decide (iv.s < w.iv.s)) t [] = some (q, zc, zl, zv, zr)) :
    ivs (remove t iv)
        = ctxThread PPay.iv q (keysQ PPay.iv zl ++ keysQ PPay.iv zr)
      ∧ ivs t
        = ctxThread PPay.iv q (keysQ PPay.iv zl ++ zv.iv :: keysQ PPay.iv zr)
      ∧ zv.iv.s = iv.s ∧ zv.iv.e = iv.e := by
  obtain ⟨hasm, hisM⟩ := searchPath_found _ _ t [] q zc zl zv zr hsp
  simp only [Bool.and_eq_true, beq_iff_eq] at hisM
  have hrem := keysQ_removeAux PPay.iv rdHook ruHook hrdP hruP
    id (fun v => rfl) (fun yv _ _ => yv) (fun v l r => rfl) q zc zl zr
  have hup : ∀ d : DFR PPay,
      ivs (updateUp d.path (if d.updUS then updAugT d.focus else d.focus))
        = keysQ PPay.iv (assemble d.path d.focus) := by
    intro d
    rw [ivs_updateUp]
    split
    · rw [keysQ_assemble, keysQ_assemble, show keysQ PPay.iv (updAugT d.focus)
        = keysQ PPay.iv d.focus from ivs_updAugT d.focus]
    · rfl
  refine ⟨?_, ?_, hisM.1.symm, hisM.2.symm⟩
  · unfold remove
    rw [hsp]
    dsimp only
    split
    · rw [show ∀ u : PT, ivs (blackenRoot u) = ivs u from
        fun u => keysQ_blackenRoot _ u]
      rw [hup]
      exact hrem
    · rw [hup]
      exact hrem
  · have h0 : ivs t = keysQ PPay.iv (assemble q (.node zc zl zv zr)) := by
      rw [hasm]; rfl
    rw [h0, keysQ_assemble, keysQ_node]

lemma sorted_starts_remove (t : PT) (iv : Interval)
    (hs : (starts t).Sorted (· ≤ ·)) :
    (starts (remove t iv)).Sorted (· ≤ ·) := by
  rcases hsp : searchPath (fun w => iv.s == w.iv.s && iv.e == w.iv.e)
      (fun w => decide (iv.s < w.iv.s)) t [] with _ | ⟨q, zc, zl, zv, zr⟩
  · unfold remove
    rw [hsp]
    exact hs
  · obtain ⟨h1, h2, _, _⟩ := ivs_remove_found t iv q zc zl zv zr hsp
    obtain ⟨P, S, hPS⟩ := ctxThread_shape PPay.iv q
    have hsub : List.Sublist (ivs (remove t iv)) (ivs t) := by
      rw [h1, h2, hPS, hPS]
      refine List.Sublist.append ?_ (List.Sublist.refl S)
      refine List.Sublist.append (List.Sublist.refl P) ?_
      exact List.Sublist.append_left (List.sublist_cons_self zv.iv _) _
    exact List.Pairwise.sublist (hsub.map Interval.s) hs

/-- One public mutation of a POM tree. -/
inductive POp
  | ins (iv : Interval)
  | del (iv : Interval)

def applyP (t : PT) : POp → PT
  | .ins iv => insert t iv
  | .del iv => remove t iv

/-- The POM tree obtained from the empty tree by a sequence of public
mutations. -/
def runPOps (ops : List POp) : PT := ops.foldl applyP .nil

lemma runPOps_sorted (ops : List POp) :
    (starts (runPOps ops)).Sorted (· ≤ ·) := by
  suffices h : ∀ (t : PT), (starts t).Sorted (· ≤ ·) →
      (starts (ops.foldl applyP t)).Sorted (· ≤ ·) by
    exact h .nil (by simp [starts, ivs])
  induction ops with
  | nil => exact fun t ht => ht
  | cons op ops ih =>
      intro t ht
      cases op with
      | ins iv => exact ih _ (sorted_starts_insert t iv ht)
      | del iv => exact ih _ (sorted_starts_remove t iv ht)

end POM


/-! ## Verification layer: the elimination-order generator -/

namespace Josephus

open RBG OST

lemma insR_append_end (k : Int) (l : List Int) (h : ∀ x ∈ l, x ≤ k) :
    insR k l = l ++ [k] := by
  induction l with
  | nil => rfl
  | cons x xs ih =>
      rw [insR, if_neg (by simpa using h x (by simp)), ih
        (fun y hy => h y (by simp [hy]))]
      rfl

/-- The initialization loop builds the sorted tree of `0 .. n−1`. -/
lemma initTree_spec (n : Int) :
    keys (initTree n) = (List.range n.toNat).map Int.ofNat
      ∧ (keys (initTree n)).Sorted (· ≤ ·)
      ∧ SizeOk (initTree n) := by
  unfold initTree
  generalize n.toNat = md
  induction md with
  | zero => exact ⟨rfl, by simp [keys], trivial⟩
  | succ md ih =>
      obtain ⟨hk, hs, hz⟩ := ih
      rw [List.range_succ, List.foldl_append, List.foldl_cons, List.foldl_nil]
      have h1 : keys (OST.insert
          ((List.range md).foldl (fun t i => OST.insert t (Int.ofNat i)) .nil)
          (Int.ofNat md))
          = (List.range md).map Int.ofNat ++ [Int.ofNat md] := by
        rw [keys_insert _ _ hs, hk]
        apply insR_append_end
        intro x hx
        simp only [List.mem_map, List.mem_range] at hx
        obtain ⟨i, hi, rfl⟩ := hx
        simpa using Nat.le_of_lt hi
      refine ⟨by rw [h1]; simp [List.range_succ], ?_, sizeOk_insert _ _ hz⟩
      exact sorted_keys_insert _ _ hs

/-- The elimination loop with enough fuel succeeds and eliminates exactly
the tree's contents (as a multiset). -/
lemma genLoop_spec (m : Int) (hm : 1 ≤ m) :
    ∀ (fuel : Nat) (t : OT) (cur : Int) (acc : List Int),
      SizeOk t → (keys t).Sorted (· ≤ ·) → 0 ≤ cur →
      (keys t).length ≤ fuel →
      ∃ res, genLoop m fuel t cur acc = some res
        ∧ res.Perm (acc.reverse ++ keys t) := by
  intro fuel
  induction fuel with
  | zero =>
      intro t cur acc hsz hs hc hlen
      have ht : t = .nil := by
        cases t with
        | nil => rfl
        | node c l v r =>
            exfalso
            simp only [keys, keysQ_node, List.length_append,
              List.length_cons] at hlen
            omega
      subst ht
      exact ⟨acc.reverse, rfl, by simp [keys]⟩
  | succ fuel ih =>
      intro t cur acc hsz hs hc hlen
      cases t with
      | nil => exact ⟨acc.reverse, rfl, by simp [keys]⟩
      | node c l v r =>
          rw [genLoop]
          rw [if_neg (by simp [OST.isEmpty])]
          dsimp only
          have hpos : 0 < cnt (T.node c l v r) := by
            have := cnt_nonneg l
            have := cnt_nonneg r
            simp only [cnt_node]
            omega
          have hsizeI : sizeI (T.node c l v r) = cnt (T.node c l v r) :=
            getSize_eq_cnt _ hsz
          have hc1a : 0 ≤ (cur + m - 1) % sizeI (T.node c l v r) := by
            apply Int.emod_nonneg
            omega
          have hc1b : (cur + m - 1) % sizeI (T.node c l v r)
              < cnt (T.node c l v r) := by
            rw [← hsizeI]
            apply Int.emod_lt_of_pos
            omega
          have hsel := select_spec (T.node c l v r)
            ((cur + m - 1) % sizeI (T.node c l v r) + 1) hsz (by omega)
            (by omega)
          have hlen2 := cnt_eq_length (T.node c l v r)
          have hidx : ((cur + m - 1) % sizeI (T.node c l v r) + 1 - 1).toNat
              < (keys (T.node c l v r)).length := by omega
          obtain ⟨e, he⟩ : ∃ e, (keys (T.node c l v r)).get?
              ((cur + m - 1) % sizeI (T.node c l v r) + 1 - 1).toNat
              = some e := by
            rw [List.get?_eq_getElem?]
            exact ⟨_, List.getElem?_eq_getElem hidx⟩
          rw [hsel, he]
          dsimp only
          have hmem : e ∈ keys (T.node c l v r) := List.get?_mem he
          have hkeys' := keys_remove (T.node c l v r) e hs
          have hs' := sorted_keys_remove (T.node c l v r) e hs
          have hz' := sizeOk_remove (T.node c l v r) e hsz
          have hlen' : (keys (remove (T.node c l v r) e)).length ≤ fuel := by
            rw [hkeys', List.length_erase_of_mem hmem]
            simp only [keys, keysQ_node, List.length_append,
              List.length_cons] at hlen ⊢
            omega
          have hcur2 : 0 ≤ (if OST.isEmpty (remove (T.node c l v r) e)
              then (cur + m - 1) % sizeI (T.node c l v r)
              else (cur + m - 1) % sizeI (T.node c l v r)
                % sizeI (remove (T.node c l v r) e)) := by
            split
            · exact hc1a
            · rename_i hne
              apply Int.emod_nonneg
              rw [show sizeI (remove (T.node c l v r) e)
                  = cnt (remove (T.node c l v r) e) from
                getSize_eq_cnt _ hz']
              cases hre : remove (T.node c l v r) e with
              | nil => rw [hre] at hne; simp [OST.isEmpty] at hne
              | node c2 l2 v2 r2 =>
                  have := cnt_nonneg l2
                  have := cnt_nonneg r2
                  simp only [cnt_node]
                  intro hcon
                  omega
          obtain ⟨res, hres, hperm⟩ := ih (remove (T.node c l v r) e) _
            (e :: acc) hz' hs' hcur2 hlen'
          refine ⟨res, hres, ?_⟩
          refine hperm.trans ?_
          rw [List.reverse_cons, hkeys', List.append_assoc]
          exact List.Perm.append_left acc.reverse
            (List.perm_cons_erase hmem).symm


/-- `generateOST` succeeds and returns a permutation of `0 .. n−1`. -/
lemma generateOST_perm (n m : Int) (hm : 1 ≤ m) :
    ∃ res, generateOST n m = some res
      ∧ res.Perm ((List.range n.toNat).map Int.ofNat) := by
  obtain ⟨hk, hs, hz⟩ := initTree_spec n
  have hlen : (keys (initTree n)).length ≤ n.toNat + 1 := by
    rw [hk]
    simp
  obtain ⟨res, hres, hperm⟩ := genLoop_spec m hm (n.toNat + 1)
    (initTree n) 0 [] hz hs le_rfl hlen
  refine ⟨res, hres, ?_⟩
  simpa [hk] using hperm

end Josephus


/-! ## Verification layer: red-black invariants -/

namespace RBG

variable {α : Type}

/-- Black contribution of a color. -/
def bcount : RBColor → Nat
  | .black => 1
  | .red => 0

/-- Black-height along the left spine (sentinel = 0). -/
def Rbh : T α → Nat
  | .nil => 0
  | .node c l _ _ => Rbh l + bcount c

/-- Equal black-height of every root-to-leaf path, at every node. -/
def BHOk : T α → Prop
  | .nil => True
  | .node _ l _ r => BHOk l ∧ BHOk r ∧ Rbh l = Rbh r

/-- No red node has a red child. -/
def RRF : T α → Prop
  | .nil => True
  | .node c l _ r =>
      (c = .red → colorOf l ≠ .red ∧ colorOf r ≠ .red) ∧ RRF l ∧ RRF r

/-- The full red-black invariant of the claims: black root, no red-red
edge, equal black-heights. -/
def RBInv (t : T α) : Prop :=
  colorOf t ≠ .red ∧ RRF t ∧ BHOk t

@[simp] lemma rbh_nil : Rbh (.nil : T α) = 0 := rfl

@[simp] lemma rbh_node (c : RBColor) (l : T α) (v : α) (r : T α) :
    Rbh (.node c l v r) = Rbh l + bcount c := rfl

@[simp] lemma rbh_blackenRoot_red (l : T α) (v : α) (r : T α) :
    Rbh (blackenRoot (.node .red l v r)) = Rbh (.node .red l v r) + 1 := by
  simp [blackenRoot, bcount]

@[simp] lemma bhOk_nil : BHOk (.nil : T α) := trivial

lemma bhOk_node (c : RBColor) (l : T α) (v : α) (r : T α) :
    BHOk (.node c l v r) ↔ BHOk l ∧ BHOk r ∧ Rbh l = Rbh r := Iff.rfl

@[simp] lemma rrf_nil : RRF (.nil : T α) := trivial

lemma rrf_node (c : RBColor) (l : T α) (v : α) (r : T α) :
    RRF (.node c l v r) ↔
      (c = .red → colorOf l ≠ .red ∧ colorOf r ≠ .red) ∧ RRF l ∧ RRF r :=
  Iff.rfl

lemma bhOk_blackenRoot (t : T α) (h : BHOk t) : BHOk (blackenRoot t) := by
  cases t with
  | nil => trivial
  | node c l v r => exact h

lemma rrf_blackenRoot (t : T α) (h : RRF t) : RRF (blackenRoot t) := by
  cases t with
  | nil => trivial
  | node c l v r => exact ⟨by simp [colorOf], h.2.1, h.2.2⟩

/-- Black-height validity of a context around a hole of black-height `n`. -/
def CtxBH : List (Ctx α) → Nat → Prop
  | [], _ => True
  | .fromL c _ r :: p, n => BHOk r ∧ Rbh r = n ∧ CtxBH p (n + bcount c)
  | .fromR c l _ :: p, n => BHOk l ∧ Rbh l = n ∧ CtxBH p (n + bcount c)

/-- Red-red freedom of a context, for a hole whose root has color `hc`. -/
def CtxRRF : List (Ctx α) → RBColor → Prop
  | [], _ => True
  | .fromL c _ r :: p, hc =>
      RRF r ∧ (c = .red → hc ≠ .red ∧ colorOf r ≠ .red) ∧ CtxRRF p c
  | .fromR c l _ :: p, hc =>
      RRF l ∧ (c = .red → hc ≠ .red ∧ colorOf l ≠ .red) ∧ CtxRRF p c

/-- Color of the outermost frame (i.e. of the whole tree's root once
assembled), with `d` as default for an empty context. -/
def lastCD : List (Ctx α) → RBColor → RBColor
  | [], d => d
  | f :: p, _ => lastCD p (colC f)

lemma bhOk_assemble_iff (p : List (Ctx α)) (t : T α) :
    BHOk (assemble p t) ↔ BHOk t ∧ CtxBH p (Rbh t) := by
  induction p generalizing t with
  | nil => simp [CtxBH]
  | cons f p ih =>
      cases f with
      | fromL c v r =>
          show BHOk (assemble p (.node c t v r)) ↔ _
          rw [ih]
          simp only [bhOk_node, rbh_node, CtxBH]
          tauto
      | fromR c l v =>
          show BHOk (assemble p (.node c l v t)) ↔ _
          rw [ih]
          simp only [bhOk_node, rbh_node, CtxBH]
          constructor
          · rintro ⟨⟨h1, h2, h3⟩, h4⟩
            exact ⟨h2, ⟨h1, h3, by rw [← h3]; exact h4⟩⟩
          · rintro ⟨h2, ⟨h1, h3, h4⟩⟩
            exact ⟨⟨h1, h2, h3⟩, by rw [h3]; exact h4⟩

lemma rrf_assemble_iff (p : List (Ctx α)) (t : T α) :
    RRF (assemble p t) ↔ RRF t ∧ CtxRRF p (colorOf t) := by
  induction p generalizing t with
  | nil => simp [CtxRRF]
  | cons f p ih =>
      cases f with
      | fromL c v r =>
          show RRF (assemble p (.node c t v r)) ↔ _
          rw [ih]
          simp only [rrf_node, CtxRRF, colorOf]
          tauto
      | fromR c l v =>
          show RRF (assemble p (.node c l v t)) ↔ _
          rw [ih]
          simp only [rrf_node, CtxRRF, colorOf]
          tauto

lemma colorOf_assemble (p : List (Ctx α)) (t : T α) :
    colorOf (assemble p t) = lastCD p (colorOf t) := by
  induction p generalizing t with
  | nil => rfl
  | cons f p ih =>
      cases f with
      | fromL c v r =>
          show colorOf (assemble p (.node c t v r)) = _
          rw [ih]
          rfl
      | fromR c l v =>
          show colorOf (assemble p (.node c l v t)) = _
          rw [ih]
          rfl

lemma lastCD_indep (p : List (Ctx α)) (h : p ≠ []) (d d' : RBColor) :
    lastCD p d = lastCD p d' := by
  cases p with
  | nil => exact absurd rfl h
  | cons f p => rfl

/-- Weakening: a context red-red-valid for some hole color is valid when
the hole is treated as black. -/
lemma ctxRRF_black (p : List (Ctx α)) (hc : RBColor) (h : CtxRRF p hc) :
    CtxRRF p .black := by
  cases p with
  | nil => trivial
  | cons f p =>
      cases f with
      | fromL c v r =>
          exact ⟨h.1, fun hred => ⟨by simp, (h.2.1 hred).2⟩, h.2.2⟩
      | fromR c l v =>
          exact ⟨h.1, fun hred => ⟨by simp, (h.2.1 hred).2⟩, h.2.2⟩

/-- Strengthening: when the head frame is not red, the hole color is
unconstrained. -/
lemma ctxRRF_of_black (p : List (Ctx α)) (hc : RBColor)
    (h : CtxRRF p .black)
    (hhead : ∀ f q, p = f :: q → colC f ≠ .red) :
    CtxRRF p hc := by
  cases p with
  | nil => trivial
  | cons f p =>
      cases f with
      | fromL c v r =>
          exact ⟨h.1, fun hred => absurd (by simpa [colC] using hred)
            (hhead _ _ rfl), h.2.2⟩
      | fromR c l v =>
          exact ⟨h.1, fun hred => absurd (by simpa [colC] using hred)
            (hhead _ _ rfl), h.2.2⟩


lemma lastCD_black_tail (f : Ctx α) (p : List (Ctx α))
    (h : lastCD (f :: p) .black = .black) : lastCD p .black = .black := by
  cases p with
  | nil => rfl
  | cons g q =>
      rw [lastCD_indep (g :: q) (by simp) .black (colC f)]
      exact h

lemma ctxBH_congr (p : List (Ctx α)) (m n : Nat) (h : m = n)
    (hc : CtxBH p m) : CtxBH p n := h ▸ hc

/-- The insertion fix-up repairs the red-red violation: starting from a
red-rooted focus whose context is valid except possibly for the link to the
head frame, it produces a tree with correct black-heights and no red-red
edge (the root may still be red; the caller blackens it). -/
lemma rb_IRel (rd : T α → α) (ru : α → T α → α) :
    ∀ (p : List (Ctx α)) (zd : List Bool) (zt : T α)
      (r : List (Ctx α) × T α), IRel rd ru p zd zt r →
      BHOk zt → RRF zt → colorOf zt = .red →
      CtxBH p (Rbh zt) → CtxRRF p .black → lastCD p .black = .black →
      BHOk (assemble r.1 r.2) ∧ RRF (assemble r.1 r.2) := by
  intro p zd zt r hrel
  induction hrel with
  | exitP pf gf rest zd zt hc =>
      intro hBH hRRF hcol hcb hcr hlast
      constructor
      · rw [assemble_append, descendZ_assemble, bhOk_assemble_iff]
        exact ⟨hBH, hcb⟩
      · rw [assemble_append, descendZ_assemble, rrf_assemble_iff]
        refine ⟨hRRF, ctxRRF_of_black _ _ hcr ?_⟩
        intro f q hfq
        cases hfq
        exact hc
  | exitNil zd zt =>
      intro hBH hRRF hcol hcb hcr hlast
      constructor
      · show BHOk (assemble (descendZ zt zd).1 (descendZ zt zd).2)
        rw [descendZ_assemble]
        exact hBH
      · show RRF (assemble (descendZ zt zd).1 (descendZ zt zd).2)
        rw [descendZ_assemble]
        exact hRRF
  | exitOne f zd zt =>
      intro hBH hRRF hcol hcb hcr hlast
      have hf : colC f = .black := hlast
      constructor
      · rw [assemble_append, descendZ_assemble, bhOk_assemble_iff]
        exact ⟨hBH, hcb⟩
      · rw [assemble_append, descendZ_assemble, rrf_assemble_iff]
        refine ⟨hRRF, ctxRRF_of_black _ _ hcr ?_⟩
        intro g q hgq
        cases hgq
        rw [hf]
        simp
  | upL pf rest zd zt gc gv ul uv ur hp r hrec ih =>
      intro hBH hRRF hcol hcb hcr hlast
      cases pf with
      | fromL c v rr =>
          simp only [colC] at hp
          subst hp
          have hb1 := hcb.1
          have hb2 := hcb.2.1
          have hb4 := hcb.2.2.1
          have hb5 := hcb.2.2.2.1
          have hb6 := hcb.2.2.2.2
          have hr1 := hcr.1
          have hr2 := hcr.2.1
          have hr4 := hcr.2.2.1
          have hr5 := hcr.2.2.2.1
          have hr6 := hcr.2.2.2.2
          have hgc : gc = .black := by
            cases gc with
            | red => exact absurd rfl (hr5 rfl).1
            | black => rfl
          subst hgc
          apply ih
          · refine ⟨⟨hBH, hb1, hb2.symm⟩, hb4, ?_⟩
            simp only [blackC, reattach_fromL, reattach_fromR, rbh_node, bcount] at hb5 ⊢
            omega
          · refine ⟨?_, ⟨?_, hRRF, hr1⟩, ⟨?_, hr4.2.1, hr4.2.2⟩⟩
            · intro _
              exact ⟨by simp [colorOf, blackC, reattach_fromL, reattach_fromR], by simp [colorOf, blackC, reattach_fromL, reattach_fromR]⟩
            · exact (fun h => nomatch h)
            · exact (fun h => nomatch h)
          · rfl
          · refine ctxBH_congr rest _ _ ?_ hb6
            simp only [blackC, reattach_fromL, reattach_fromR, rbh_node, bcount]
          · exact ctxRRF_black _ _ hr6
          · exact lastCD_black_tail _ _ (lastCD_black_tail _ _ hlast)
      | fromR c ll v =>
          simp only [colC] at hp
          subst hp
          have hb1 := hcb.1
          have hb2 := hcb.2.1
          have hb4 := hcb.2.2.1
          have hb5 := hcb.2.2.2.1
          have hb6 := hcb.2.2.2.2
          have hr1 := hcr.1
          have hr2 := hcr.2.1
          have hr4 := hcr.2.2.1
          have hr5 := hcr.2.2.2.1
          have hr6 := hcr.2.2.2.2
          have hgc : gc = .black := by
            cases gc with
            | red => exact absurd rfl (hr5 rfl).1
            | black => rfl
          subst hgc
          apply ih
          · refine ⟨⟨hb1, hBH, hb2⟩, hb4, ?_⟩
            simp only [blackC, reattach_fromL, reattach_fromR, rbh_node, bcount] at hb2 hb5 ⊢
            omega
          · refine ⟨?_, ⟨?_, hr1, hRRF⟩, ⟨?_, hr4.2.1, hr4.2.2⟩⟩
            · intro _
              exact ⟨by simp [colorOf, blackC, reattach_fromL, reattach_fromR], by simp [colorOf, blackC, reattach_fromL, reattach_fromR]⟩
            · exact (fun h => nomatch h)
            · exact (fun h => nomatch h)
          · rfl
          · refine ctxBH_congr rest _ _ ?_ hb6
            simp only [blackC, reattach_fromL, reattach_fromR, rbh_node, bcount] at hb2 ⊢
            omega
          · exact ctxRRF_black _ _ hr6
          · exact lastCD_black_tail _ _ (lastCD_black_tail _ _ hlast)
  | upR pf rest zd zt gc gv ul uv ur hp r hrec ih =>
      intro hBH hRRF hcol hcb hcr hlast
      cases pf with
      | fromL c v rr =>
          simp only [colC] at hp
          subst hp
          have hb1 := hcb.1
          have hb2 := hcb.2.1
          have hb4 := hcb.2.2.1
          have hb5 := hcb.2.2.2.1
          have hb6 := hcb.2.2.2.2
          have hr1 := hcr.1
          have hr2 := hcr.2.1
          have hr4 := hcr.2.2.1
          have hr5 := hcr.2.2.2.1
          have hr6 := hcr.2.2.2.2
          have hgc : gc = .black := by
            cases gc with
            | red => exact absurd rfl (hr5 rfl).1
            | black => rfl
          subst hgc
          apply ih
          · refine ⟨hb4, ⟨hBH, hb1, hb2.symm⟩, ?_⟩
            simp only [blackC, reattach_fromL, reattach_fromR, rbh_node, bcount] at hb5 ⊢
            omega
          · refine ⟨?_, ⟨?_, hr4.2.1, hr4.2.2⟩, ⟨?_, hRRF, hr1⟩⟩
            · intro _
              exact ⟨by simp [colorOf, blackC, reattach_fromL, reattach_fromR], by simp [colorOf, blackC, reattach_fromL, reattach_fromR]⟩
            · exact (fun h => nomatch h)
            · exact (fun h => nomatch h)
          · rfl
          · refine ctxBH_congr rest _ _ ?_ hb6
            simp only [blackC, reattach_fromL, reattach_fromR, rbh_node, bcount] at hb5 ⊢
            omega
          · exact ctxRRF_black _ _ hr6
          · exact lastCD_black_tail _ _ (lastCD_black_tail _ _ hlast)
      | fromR c ll v =>
          simp only [colC] at hp
          subst hp
          have hb1 := hcb.1
          have hb2 := hcb.2.1
          have hb4 := hcb.2.2.1
          have hb5 := hcb.2.2.2.1
          have hb6 := hcb.2.2.2.2
          have hr1 := hcr.1
          have hr2 := hcr.2.1
          have hr4 := hcr.2.2.1
          have hr5 := hcr.2.2.2.1
          have hr6 := hcr.2.2.2.2
          have hgc : gc = .black := by
            cases gc with
            | red => exact absurd rfl (hr5 rfl).1
            | black => rfl
          subst hgc
          apply ih
          · refine ⟨hb4, ⟨hb1, hBH, hb2⟩, ?_⟩
            simp only [blackC, reattach_fromL, reattach_fromR, rbh_node, bcount] at hb2 hb5 ⊢
            omega
          · refine ⟨?_, ⟨?_, hr4.2.1, hr4.2.2⟩, ⟨?_, hr1, hRRF⟩⟩
            · intro _
              exact ⟨by simp [colorOf, blackC, reattach_fromL, reattach_fromR], by simp [colorOf, blackC, reattach_fromL, reattach_fromR]⟩
            · exact (fun h => nomatch h)
            · exact (fun h => nomatch h)
          · rfl
          · refine ctxBH_congr rest _ _ ?_ hb6
            simp only [blackC, reattach_fromL, reattach_fromR, rbh_node, bcount] at hb5 ⊢
            omega
          · exact ctxRRF_black _ _ hr6
          · exact lastCD_black_tail _ _ (lastCD_black_tail _ _ hlast)
  | rotLL rest zd zt gc gv gr pv pr hu S hS =>
      intro hBH hRRF hcol hcb hcr hlast
      subst hS
      have hb1 := hcb.1
      have hb2 := hcb.2.1
      have hb4 := hcb.2.2.1
      have hb5 := hcb.2.2.2.1
      have hb6 := hcb.2.2.2.2
      have hr1 := hcr.1
      have hr2 := hcr.2.1
      have hr4 := hcr.2.2.1
      have hr5 := hcr.2.2.2.1
      have hr6 := hcr.2.2.2.2
      have hgc : gc = .black := by
        cases gc with
        | red => exact absurd rfl (hr5 rfl).1
        | black => rfl
      subst hgc
      have hprc : colorOf pr ≠ .red := (hr2 rfl).2
      constructor
      · rw [assemble_append, descendZ_assemble, bhOk_assemble_iff]
        constructor
        · refine ⟨hBH, ⟨hb1, hb4, ?_⟩, ?_⟩
          · simp only [blackC, reattach_fromL, reattach_fromR, rbh_node, bcount] at hb5 ⊢
            omega
          · simp only [blackC, reattach_fromL, reattach_fromR, rbh_node, bcount] at hb2 hb5 ⊢
            omega
        · simp only [rightRotate, rbh_node, bcount] at hb6 ⊢
          simpa using hb6
      · rw [assemble_append, descendZ_assemble, rrf_assemble_iff]
        constructor
        · refine ⟨by simp, hRRF, ⟨?_, hr1, hr4⟩⟩
          intro _
          exact ⟨hprc, hu⟩
        · exact hr6
  | rotLR rest zd zt gc gv gr pl pv hu P1 hP1 S hS =>
      intro hBH hRRF hcol hcb hcr hlast
      cases zt with
      | nil => simp [colorOf] at hcol
      | node zc za zv zc2 =>
      cases zc with
      | black => simp [colorOf] at hcol
      | red =>
      subst hP1 hS
      have hza := hBH.1
      have hzc := hBH.2.1
      have hzeq := hBH.2.2
      have hch := hRRF.1
      have hrza := hRRF.2.1
      have hrzc := hRRF.2.2
      have hb1 := hcb.1
      have hb2 := hcb.2.1
      have hb4 := hcb.2.2.1
      have hb5 := hcb.2.2.2.1
      have hb6 := hcb.2.2.2.2
      have hr1 := hcr.1
      have hr2 := hcr.2.1
      have hr4 := hcr.2.2.1
      have hr5 := hcr.2.2.2.1
      have hr6 := hcr.2.2.2.2
      have hgc : gc = .black := by
        cases gc with
        | red => exact absurd rfl (hr5 rfl).1
        | black => rfl
      subst hgc
      constructor
      · rw [assemble_append, descendZ_assemble, bhOk_assemble_iff]
        constructor
        · refine ⟨⟨hb1, hza, ?_⟩, ⟨hzc, hb4, ?_⟩, ?_⟩
          · simp only [blackC, reattach_fromL, reattach_fromR, rbh_node, bcount] at hb2 ⊢
            omega
          · simp only [blackC, reattach_fromL, reattach_fromR, rbh_node, bcount] at hb5 hzeq ⊢
            omega
          · simp only [blackC, reattach_fromL, reattach_fromR, rbh_node, bcount] at hb2 hzeq ⊢
            omega
        · refine ctxBH_congr rest _ _ ?_ hb6
          simp only [leftRotate, rightRotate, blackenRoot, rbh_node, bcount] at hb2 ⊢
          omega
      · rw [assemble_append, descendZ_assemble, rrf_assemble_iff]
        constructor
        · refine ⟨by simp, ⟨?_, hr1, hrza⟩, ⟨?_, hrzc, hr4⟩⟩
          · intro _
            exact ⟨(hr2 rfl).2, (hch rfl).1⟩
          · intro _
            exact ⟨(hch rfl).2, hu⟩
        · exact hr6
  | rotRR rest zd zt gc gl gv pl pv hu S hS =>
      intro hBH hRRF hcol hcb hcr hlast
      subst hS
      have hb1 := hcb.1
      have hb2 := hcb.2.1
      have hb4 := hcb.2.2.1
      have hb5 := hcb.2.2.2.1
      have hb6 := hcb.2.2.2.2
      have hr1 := hcr.1
      have hr2 := hcr.2.1
      have hr4 := hcr.2.2.1
      have hr5 := hcr.2.2.2.1
      have hr6 := hcr.2.2.2.2
      have hgc : gc = .black := by
        cases gc with
        | red => exact absurd rfl (hr5 rfl).1
        | black => rfl
      subst hgc
      have hplc : colorOf pl ≠ .red := (hr2 rfl).2
      constructor
      · rw [assemble_append, descendZ_assemble, bhOk_assemble_iff]
        constructor
        · refine ⟨⟨hb4, hb1, ?_⟩, hBH, ?_⟩
          · simp only [blackC, reattach_fromL, reattach_fromR, rbh_node, bcount] at hb2 hb5 ⊢
            omega
          · simp only [blackC, reattach_fromL, reattach_fromR, rbh_node, bcount] at hb2 hb5 ⊢
            omega
        · simp only [leftRotate, rbh_node, bcount] at hb6 ⊢
          simp only [blackC, reattach_fromL, reattach_fromR, rbh_node, bcount] at hb5 ⊢
          simpa [hb5] using hb6
      · rw [assemble_append, descendZ_assemble, rrf_assemble_iff]
        constructor
        · refine ⟨by simp, ⟨?_, hr4, hr1⟩, hRRF⟩
          intro _
          exact ⟨hu, hplc⟩
        · exact hr6
  | rotRL rest zd zt gc gl gv pv pr hu P1 hP1 S hS =>
      intro hBH hRRF hcol hcb hcr hlast
      cases zt with
      | nil => simp [colorOf] at hcol
      | node zc za zv zc2 =>
      cases zc with
      | black => simp [colorOf] at hcol
      | red =>
      subst hP1 hS
      have hza := hBH.1
      have hzc := hBH.2.1
      have hzeq := hBH.2.2
      have hch := hRRF.1
      have hrza := hRRF.2.1
      have hrzc := hRRF.2.2
      have hb1 := hcb.1
      have hb2 := hcb.2.1
      have hb4 := hcb.2.2.1
      have hb5 := hcb.2.2.2.1
      have hb6 := hcb.2.2.2.2
      have hr1 := hcr.1
      have hr2 := hcr.2.1
      have hr4 := hcr.2.2.1
      have hr5 := hcr.2.2.2.1
      have hr6 := hcr.2.2.2.2
      have hgc : gc = .black := by
        cases gc with
        | red => exact absurd rfl (hr5 rfl).1
        | black => rfl
      subst hgc
      constructor
      · rw [assemble_append, descendZ_assemble, bhOk_assemble_iff]
        constructor
        · refine ⟨⟨hb4, hza, ?_⟩, ⟨hzc, hb1, ?_⟩, ?_⟩
          · simp only [blackC, reattach_fromL, reattach_fromR, rbh_node, bcount] at hb5 ⊢
            omega
          · simp only [blackC, reattach_fromL, reattach_fromR, rbh_node, bcount] at hb2 hzeq ⊢
            omega
          · simp only [blackC, reattach_fromL, reattach_fromR, rbh_node, bcount] at hb2 hb5 hzeq ⊢
            omega
        · refine ctxBH_congr rest _ _ ?_ hb6
          simp only [rightRotate, leftRotate, blackenRoot, rbh_node, bcount] at hb5 ⊢
          omega
      · rw [assemble_append, descendZ_assemble, rrf_assemble_iff]
        constructor
        · refine ⟨by simp, ⟨?_, hr4, hrza⟩, ⟨?_, hrzc, hr1⟩⟩
          · intro _
            exact ⟨hu, (hch rfl).1⟩
          · intro _
            exact ⟨(hch rfl).2, (hr2 rfl).2⟩
        · exact hr6


lemma ne_red_of_eq_black (c : RBColor) (h : c = .black) : c ≠ .red :=
  fun hr => nomatch h.symm.trans hr

lemma colorOf_blackenRoot (t : T α) : colorOf (blackenRoot t) ≠ .red := by
  cases t <;> simp [blackenRoot, colorOf]

lemma rrf_of_blacken (t : T α) (hc : colorOf t ≠ .red)
    (h : RRF (blackenRoot t)) : RRF t := by
  cases t with
  | nil => trivial
  | node c l v r =>
      cases c with
      | red => simp [colorOf] at hc
      | black => exact h

lemma finishD_rootB (q : List (Ctx α)) (us : USt) (x : T α) (rb : Bool) :
    (finishD q us x rb).rootB = rb := by
  cases us with
  | nilUS => rfl
  | above => cases q <;> rfl
  | inside d => rfl

/-- The deletion fix-up absorbs the missing black: from a focus one black
short whose context is otherwise valid, it rebuilds a tree with correct
black-heights and no red-red edge; when its `rootB` flag is clear the root
is already black. -/
lemma rb_DRel (rd : T α → α) (ru : α → T α → α) :
    ∀ (p : List (Ctx α)) (us : USt) (x : T α) (r : DFR α),
      DRel rd ru p us x r →
      BHOk x → RRF (blackenRoot x) →
      CtxBH p (Rbh x + 1) → CtxRRF p .black → lastCD p .black = .black →
      BHOk (assemble r.path r.focus) ∧ RRF (assemble r.path r.focus)
        ∧ (colorOf (assemble r.path r.focus) ≠ .red ∨ r.rootB = true) := by
  intro p us x r hrel
  induction hrel with
  | root us x =>
      intro hBH hRRF hcb hcr hlast
      refine ⟨?_, ?_, Or.inl ?_⟩
      · rw [assemble_finishD]
        exact bhOk_blackenRoot _ hBH
      · rw [assemble_finishD]
        exact hRRF
      · rw [assemble_finishD]
        exact colorOf_blackenRoot x
  | redX f p us x hc =>
      intro hBH hRRF hcb hcr hlast
      cases x with
      | nil => simp [colorOf] at hc
      | node xc xl xv xr =>
      cases xc with
      | black => simp [colorOf] at hc
      | red =>
      refine ⟨?_, ?_, Or.inl ?_⟩
      · rw [assemble_finishD, bhOk_assemble_iff]
        refine ⟨hBH, ctxBH_congr _ _ _ ?_ hcb⟩
        simp [blackenRoot, rbh_node, bcount]
      · rw [assemble_finishD, rrf_assemble_iff]
        exact ⟨hRRF, hcr⟩
      · rw [assemble_finishD, colorOf_assemble]
        cases f with
        | fromL c v rr =>
            show lastCD p c ≠ .red
            cases p with
            | nil => exact fun h => nomatch (hlast.symm.trans h)
            | cons g q =>
                have htail := lastCD_black_tail (Ctx.fromL c v rr) (g :: q) hlast
                rw [lastCD_indep (g :: q) (by simp) c .black, htail]
                exact (fun h => nomatch h)
        | fromR c ll v =>
            show lastCD p c ≠ .red
            cases p with
            | nil => exact fun h => nomatch (hlast.symm.trans h)
            | cons g q =>
                have htail := lastCD_black_tail (Ctx.fromR c ll v) (g :: q) hlast
                rw [lastCD_indep (g :: q) (by simp) c .black, htail]
                exact (fun h => nomatch h)
  | L12 p us x pc pv wl wv wr hx hbb pd hpd pu hpu =>
      intro hBH hRRF hcb hcr hlast
      have hbW := hcb.1
      have hbWrbh := hcb.2.1
      have hbp := hcb.2.2
      have hrW := hcr.1
      have hrImp := hcr.2.1
      have hcrp := hcr.2.2
      have hpc : pc = .black := by
        cases pc with
        | red => exact absurd rfl (hrImp rfl).2
        | black => rfl
      subst hpc
      have hbwl := hbW.1
      have hbwr := hbW.2.1
      have hbweq := hbW.2.2
      have hwlnr : colorOf wl ≠ .red := (hrW.1 rfl).1
      have hrwl := hrW.2.1
      have hrwr := hrW.2.2
      have hrx : RRF x := rrf_of_blacken x hx hRRF
      simp only [rbh_node, bcount] at hbWrbh
      cases wl with
      | nil => simp [Rbh] at hbWrbh
      | node wlc wla wlv1 wlb =>
      cases wlc with
      | red => simp [colorOf] at hwlnr
      | black =>
      simp only [rbh_node, bcount] at hbWrbh hbweq
      refine ⟨?_, ?_, Or.inl ?_⟩
      · rw [assemble_finishD, bhOk_assemble_iff]
        refine ⟨⟨hBH, ⟨hbwl, ?_⟩⟩, ⟨hbwr, ⟨?_, ctxBH_congr _ _ _ ?_ hbp⟩⟩⟩
        · simp only [reddenRoot, rbh_node, bcount] <;> omega
        · simp only [reddenRoot, rbh_node, bcount] <;> omega
        · simp only [reddenRoot, rbh_node, bcount] <;> omega
      · rw [assemble_finishD, rrf_assemble_iff]
        refine ⟨⟨(fun h => nomatch h), ⟨hrx,
            ⟨fun _ => ⟨ne_red_of_eq_black _ hbb.1, ne_red_of_eq_black _ hbb.2⟩,
              ⟨hrwl.2.1, hrwl.2.2⟩⟩⟩⟩,
          ⟨hrwr, ⟨(fun h => nomatch h), hcrp⟩⟩⟩
      · rw [assemble_finishD, colorOf_assemble]
        show lastCD p .black ≠ .red
        rw [lastCD_black_tail _ _ hlast]
        exact (fun h => nomatch h)
  | R12 p us x pc pv wl wv wr hx hbb pd hpd pu hpu =>
      intro hBH hRRF hcb hcr hlast
      have hbW := hcb.1
      have hbWrbh := hcb.2.1
      have hbp := hcb.2.2
      have hrW := hcr.1
      have hrImp := hcr.2.1
      have hcrp := hcr.2.2
      have hpc : pc = .black := by
        cases pc with
        | red => exact absurd rfl (hrImp rfl).2
        | black => rfl
      subst hpc
      have hbwl := hbW.1
      have hbwr := hbW.2.1
      have hbweq := hbW.2.2
      have hwrnr : colorOf wr ≠ .red := (hrW.1 rfl).2
      have hrwl := hrW.2.1
      have hrwr := hrW.2.2
      have hrx : RRF x := rrf_of_blacken x hx hRRF
      simp only [rbh_node, bcount] at hbWrbh
      cases wr with
      | nil =>
          rw [rbh_nil] at hbweq
          exact absurd hbWrbh (by omega)
      | node wrc wra wrv1 wrb =>
      cases wrc with
      | red => simp [colorOf] at hwrnr
      | black =>
      simp only [rbh_node, bcount] at hbweq
      refine ⟨?_, ?_, Or.inl ?_⟩
      · rw [assemble_finishD, bhOk_assemble_iff]
        refine ⟨⟨hbwr, ⟨hBH, ?_⟩⟩, ⟨hbwl, ⟨?_, ctxBH_congr _ _ _ ?_ hbp⟩⟩⟩
        · simp only [reddenRoot, rbh_node, bcount] <;> omega
        · simp only [reddenRoot, rbh_node, bcount] <;> omega
        · simp only [reddenRoot, rbh_node, bcount] <;> omega
      · rw [assemble_finishD, rrf_assemble_iff]
        refine ⟨⟨(fun h => nomatch h),
            ⟨⟨fun _ => ⟨ne_red_of_eq_black _ hbb.2, ne_red_of_eq_black _ hbb.1⟩,
                ⟨hrwr.2.1, hrwr.2.2⟩⟩,
              hrx⟩⟩,
          ⟨hrwl, ⟨(fun h => nomatch h), hcrp⟩⟩⟩
      · rw [assemble_finishD, colorOf_assemble]
        show lastCD p .black ≠ .red
        rw [lastCD_black_tail _ _ hlast]
        exact (fun h => nomatch h)
  | L2 p us x pc pv w hx hwc hbb r hrec ih =>
      intro hBH hRRF hcb hcr hlast
      have hbW := hcb.1
      have hbWrbh := hcb.2.1
      have hbp := hcb.2.2
      have hrW := hcr.1
      have hcrp := hcr.2.2
      cases w with
      | nil => simp [Rbh] at hbWrbh
      | node wc2 wa wv2 wb =>
      cases wc2 with
      | red => simp [colorOf] at hwc
      | black =>
      simp only [rbh_node, bcount] at hbWrbh
      apply ih
      · refine ⟨hBH, ⟨hbW, ?_⟩⟩
        simp only [reddenRoot, rbh_node, bcount] <;> omega
      · refine ⟨(fun h => nomatch h), ⟨rrf_of_blacken x hx hRRF,
          ⟨fun _ => ⟨ne_red_of_eq_black _ hbb.1, ne_red_of_eq_black _ hbb.2⟩,
            ⟨hrW.2.1, hrW.2.2⟩⟩⟩⟩
      · refine ctxBH_congr _ _ _ ?_ hbp
        simp only [reddenRoot, rbh_node, bcount] <;> omega
      · exact ctxRRF_black _ _ hcrp
      · exact lastCD_black_tail _ _ hlast
  | R2 p us x pc pv w hx hwc hbb r hrec ih =>
      intro hBH hRRF hcb hcr hlast
      have hbW := hcb.1
      have hbWrbh := hcb.2.1
      have hbp := hcb.2.2
      have hrW := hcr.1
      have hcrp := hcr.2.2
      cases w with
      | nil => simp [Rbh] at hbWrbh
      | node wc2 wa wv2 wb =>
      cases wc2 with
      | red => simp [colorOf] at hwc
      | black =>
      simp only [rbh_node, bcount] at hbWrbh
      apply ih
      · refine ⟨hbW, ⟨hBH, ?_⟩⟩
        simp only [reddenRoot, rbh_node, bcount] <;> omega
      · refine ⟨(fun h => nomatch h),
          ⟨⟨fun _ => ⟨ne_red_of_eq_black _ hbb.2, ne_red_of_eq_black _ hbb.1⟩,
              ⟨hrW.2.1, hrW.2.2⟩⟩,
            rrf_of_blacken x hx hRRF⟩⟩
      · refine ctxBH_congr _ _ _ ?_ hbp
        simp only [reddenRoot, rbh_node, bcount] <;> omega
      · exact ctxRRF_black _ _ hcrp
      · exact lastCD_black_tail _ _ hlast
  | L34 p us x pc pv wc wl wv wr hx hwc hnbb w3 hw3 c4 w4l w4v w4r hw4 xd hxd xu hxu =>
      intro hBH hRRF hcb hcr hlast
      have hbW := hcb.1
      have hbWrbh := hcb.2.1
      have hbp := hcb.2.2
      have hrW := hcr.1
      have hcrp := hcr.2.2
      cases wc with
      | red => exact absurd rfl hwc
      | black =>
      have hbwl := hbW.1
      have hbwr := hbW.2.1
      have hbweq := hbW.2.2
      have hrwl := hrW.2.1
      have hrwr := hrW.2.2
      have hrx : RRF x := rrf_of_blacken x hx hRRF
      simp only [rbh_node, bcount] at hbWrbh
      by_cases hwr2 : colorOf wr = .black
      · rw [if_pos hwr2] at hw3
        have hwlr : colorOf wl = .red := by
          cases h2 : colorOf wl with
          | red => rfl
          | black => exact absurd ⟨h2, hwr2⟩ hnbb
        cases wl with
        | nil => simp [colorOf] at hwlr
        | node wlc wla wlv1 wlb =>
        cases wlc with
        | black => simp [colorOf] at hwlr
        | red =>
        have hred : rightRotate rd ru
            (.node .red (blackenRoot (.node .red wla wlv1 wlb)) wv wr)
            = .node .black wla
                (ru wv (.node .black wla wlv1
                  (.node .red wlb (rd (.node .red wlb wv wr)) wr)))
                (.node .red wlb (rd (.node .red wlb wv wr)) wr) := rfl
        rw [hw3] at hw4
        have hw4n := hred.symm.trans hw4
        injection hw4n with h1 h2 h3 h4
        subst h1 h2 h3 h4
        have hbwla := hbwl.1
        have hbwlb := hbwl.2.1
        have hbe : Rbh wla = Rbh wlb := hbwl.2.2
        have hrwla := hrwl.2.1
        have hrwlb := hrwl.2.2
        simp only [rbh_node, bcount] at hbWrbh hbweq
        refine ⟨?_, ?_, Or.inr (finishD_rootB _ _ _ _)⟩
        · rw [assemble_finishD]
          simp only [assemble_cons, reattach_fromL, blackenRoot]
          rw [bhOk_assemble_iff]
          refine ⟨⟨⟨hBH, ⟨hbwla, ?_⟩⟩, ⟨⟨hbwlb, ⟨hbwr, ?_⟩⟩, ?_⟩⟩,
            ctxBH_congr _ _ _ ?_ hbp⟩
          · omega
          · omega
          · simp only [rbh_node, bcount] <;> omega
          · simp only [rbh_node, bcount] <;> omega
        · rw [assemble_finishD]
          simp only [assemble_cons, reattach_fromL, blackenRoot]
          rw [rrf_assemble_iff]
          refine ⟨⟨fun _ => ⟨(fun h => nomatch h), (fun h => nomatch h)⟩,
              ⟨⟨(fun h => nomatch h), ⟨hrx, hrwla⟩⟩,
                ⟨(fun h => nomatch h), ⟨hrwlb, hrwr⟩⟩⟩⟩,
            hcrp⟩
      · rw [if_neg hwr2] at hw3
        have hwrr : colorOf wr = .red := by
          cases h2 : colorOf wr with
          | red => rfl
          | black => exact absurd h2 hwr2
        cases wr with
        | nil => simp [colorOf] at hwrr
        | node wrc wra wrv1 wrb =>
        cases wrc with
        | black => simp [colorOf] at hwrr
        | red =>
        rw [hw3] at hw4
        injection hw4 with h1 h2 h3 h4
        subst h1 h2 h3 h4
        have hbwra := hbwr.1
        have hbwrb := hbwr.2.1
        have hbe : Rbh wra = Rbh wrb := hbwr.2.2
        have hrwra := hrwr.2.1
        have hrwrb := hrwr.2.2
        simp only [rbh_node, bcount] at hbweq
        refine ⟨?_, ?_, Or.inr (finishD_rootB _ _ _ _)⟩
        · rw [assemble_finishD]
          simp only [assemble_cons, reattach_fromL, blackenRoot]
          rw [bhOk_assemble_iff]
          refine ⟨⟨⟨hBH, ⟨hbwl, ?_⟩⟩, ⟨⟨hbwra, ⟨hbwrb, hbe⟩⟩, ?_⟩⟩,
            ctxBH_congr _ _ _ ?_ hbp⟩
          · omega
          · simp only [rbh_node, bcount] <;> omega
          · simp only [rbh_node, bcount] <;> omega
        · rw [assemble_finishD]
          simp only [assemble_cons, reattach_fromL, blackenRoot]
          rw [rrf_assemble_iff]
          refine ⟨⟨fun _ => ⟨(fun h => nomatch h), (fun h => nomatch h)⟩,
              ⟨⟨(fun h => nomatch h), ⟨hrx, hrwl⟩⟩,
                ⟨(fun h => nomatch h), ⟨hrwra, hrwrb⟩⟩⟩⟩,
            hcrp⟩
  | R34 p us x pc pv wc wl wv wr hx hwc hnbb w3 hw3 c4 w4l w4v w4r hw4 xd hxd xu hxu =>
      intro hBH hRRF hcb hcr hlast
      have hbW := hcb.1
      have hbWrbh := hcb.2.1
      have hbp := hcb.2.2
      have hrW := hcr.1
      have hcrp := hcr.2.2
      cases wc with
      | red => exact absurd rfl hwc
      | black =>
      have hbwl := hbW.1
      have hbwr := hbW.2.1
      have hbweq := hbW.2.2
      have hrwl := hrW.2.1
      have hrwr := hrW.2.2
      have hrx : RRF x := rrf_of_blacken x hx hRRF
      simp only [rbh_node, bcount] at hbWrbh
      by_cases hwl2 : colorOf wl = .black
      · rw [if_pos hwl2] at hw3
        have hwrr : colorOf wr = .red := by
          cases h2 : colorOf wr with
          | red => rfl
          | black => exact absurd ⟨h2, hwl2⟩ hnbb
        cases wr with
        | nil => simp [colorOf] at hwrr
        | node wrc wra wrv1 wrb =>
        cases wrc with
        | black => simp [colorOf] at hwrr
        | red =>
        have hlr : leftRotate rd ru
            (.node .red wl wv (blackenRoot (.node .red wra wrv1 wrb)))
            = .node .black (.node .red wl (rd (.node .red wl wv wra)) wra)
                (ru wv (.node .black
                  (.node .red wl (rd (.node .red wl wv wra)) wra) wrv1 wrb))
                wrb := rfl
        rw [hw3] at hw4
        have hw4n := hlr.symm.trans hw4
        injection hw4n with h1 h2 h3 h4
        subst h1 h2 h3 h4
        have hbwra := hbwr.1
        have hbwrb := hbwr.2.1
        have hbe : Rbh wra = Rbh wrb := hbwr.2.2
        have hrwra := hrwr.2.1
        have hrwrb := hrwr.2.2
        simp only [rbh_node, bcount] at hbweq
        refine ⟨?_, ?_, Or.inr (finishD_rootB _ _ _ _)⟩
        · rw [assemble_finishD]
          simp only [assemble_cons, reattach_fromR, blackenRoot]
          rw [bhOk_assemble_iff]
          refine ⟨⟨⟨hbwl, ⟨hbwra, ?_⟩⟩, ⟨⟨hbwrb, ⟨hBH, ?_⟩⟩, ?_⟩⟩,
            ctxBH_congr _ _ _ ?_ hbp⟩
          · omega
          · omega
          · simp only [rbh_node, bcount] <;> omega
          · simp only [rbh_node, bcount] <;> omega
        · rw [assemble_finishD]
          simp only [assemble_cons, reattach_fromR, blackenRoot]
          rw [rrf_assemble_iff]
          refine ⟨⟨fun _ => ⟨(fun h => nomatch h), (fun h => nomatch h)⟩,
              ⟨⟨(fun h => nomatch h), ⟨hrwl, hrwra⟩⟩,
                ⟨(fun h => nomatch h), ⟨hrwrb, hrx⟩⟩⟩⟩,
            hcrp⟩
      · rw [if_neg hwl2] at hw3
        have hwlr : colorOf wl = .red := by
          cases h2 : colorOf wl with
          | red => rfl
          | black => exact absurd h2 hwl2
        cases wl with
        | nil => simp [colorOf] at hwlr
        | node wlc wla wlv1 wlb =>
        cases wlc with
        | black => simp [colorOf] at hwlr
        | red =>
        rw [hw3] at hw4
        injection hw4 with h1 h2 h3 h4
        subst h1 h2 h3 h4
        have hbwla := hbwl.1
        have hbwlb := hbwl.2.1
        have hbe : Rbh wla = Rbh wlb := hbwl.2.2
        have hrwla := hrwl.2.1
        have hrwlb := hrwl.2.2
        simp only [rbh_node, bcount] at hbWrbh hbweq
        refine ⟨?_, ?_, Or.inr (finishD_rootB _ _ _ _)⟩
        · rw [assemble_finishD]
          simp only [assemble_cons, reattach_fromR, blackenRoot]
          rw [bhOk_assemble_iff]
          refine ⟨⟨⟨hbwla, ⟨hbwlb, hbe⟩⟩, ⟨⟨hbwr, ⟨hBH, ?_⟩⟩, ?_⟩⟩,
            ctxBH_congr _ _ _ ?_ hbp⟩
          · omega
          · simp only [rbh_node, bcount] <;> omega
          · simp only [rbh_node, bcount] <;> omega
        · rw [assemble_finishD]
          simp only [assemble_cons, reattach_fromR, blackenRoot]
          rw [rrf_assemble_iff]
          refine ⟨⟨fun _ => ⟨(fun h => nomatch h), (fun h => nomatch h)⟩,
              ⟨⟨(fun h => nomatch h), ⟨hrwla, hrwlb⟩⟩,
                ⟨(fun h => nomatch h), ⟨hrwr, hrx⟩⟩⟩⟩,
            hcrp⟩
  | L134 p us x pc pv w2c w2l w2v w2r wv wr hx hnbb pd hpd pu hpu w3 hw3 c4 w4l w4v w4r hw4 xd hxd xu hxu =>
      intro hBH hRRF hcb hcr hlast
      have hbW := hcb.1
      have hbWrbh := hcb.2.1
      have hbp := hcb.2.2
      have hrW := hcr.1
      have hrImp := hcr.2.1
      have hcrp := hcr.2.2
      have hpc : pc = .black := by
        cases pc with
        | red => exact absurd rfl (hrImp rfl).2
        | black => rfl
      subst hpc
      have hbW2 := hbW.1
      have hbwr := hbW.2.1
      have hbWeq := hbW.2.2
      have hw2nr : colorOf (T.node w2c w2l w2v w2r) ≠ .red := (hrW.1 rfl).1
      have hrW2 := hrW.2.1
      have hrwr := hrW.2.2
      have hw2c : w2c = .black := by
        cases w2c with
        | red => exact absurd rfl hw2nr
        | black => rfl
      subst hw2c
      have hbw2l := hbW2.1
      have hbw2r := hbW2.2.1
      have hbw2eq := hbW2.2.2
      have hrw2l := hrW2.2.1
      have hrw2r := hrW2.2.2
      have hrx : RRF x := rrf_of_blacken x hx hRRF
      simp only [rbh_node, bcount] at hbWrbh hbWeq
      by_cases hw2r2 : colorOf w2r = .black
      · rw [if_pos hw2r2] at hw3
        have hw2lr : colorOf w2l = .red := by
          cases h2 : colorOf w2l with
          | red => rfl
          | black => exact absurd ⟨h2, hw2r2⟩ hnbb
        cases w2l with
        | nil => simp [colorOf] at hw2lr
        | node w2lc w2la w2lv w2lb =>
        cases w2lc with
        | black => simp [colorOf] at hw2lr
        | red =>
        have hred : rightRotate rd ru
            (.node .red (blackenRoot (.node .red w2la w2lv w2lb)) w2v w2r)
            = .node .black w2la
                (ru w2v (.node .black w2la w2lv
                  (.node .red w2lb (rd (.node .red w2lb w2v w2r)) w2r)))
                (.node .red w2lb (rd (.node .red w2lb w2v w2r)) w2r) := rfl
        rw [hw3] at hw4
        have hw4n := hred.symm.trans hw4
        injection hw4n with h1 h2 h3 h4
        subst h1 h2 h3 h4
        have hbw2la := hbw2l.1
        have hbw2lb := hbw2l.2.1
        have hbe2 : Rbh w2la = Rbh w2lb := hbw2l.2.2
        have hrw2la := hrw2l.2.1
        have hrw2lb := hrw2l.2.2
        simp only [rbh_node, bcount] at hbWrbh hbWeq hbw2eq
        refine ⟨?_, ?_, Or.inr (finishD_rootB _ _ _ _)⟩
        · rw [assemble_finishD]
          simp only [assemble_cons, reattach_fromL, blackenRoot]
          rw [bhOk_assemble_iff]
          refine ⟨⟨⟨⟨hBH, ⟨hbw2la, ?_⟩⟩, ⟨⟨hbw2lb, ⟨hbw2r, ?_⟩⟩, ?_⟩⟩,
              ⟨hbwr, ?_⟩⟩,
            ctxBH_congr _ _ _ ?_ hbp⟩
          · omega
          · omega
          · simp only [rbh_node, bcount] <;> omega
          · simp only [rbh_node, bcount] <;> omega
          · simp only [rbh_node, bcount] <;> omega
        · rw [assemble_finishD]
          simp only [assemble_cons, reattach_fromL, blackenRoot]
          rw [rrf_assemble_iff]
          refine ⟨⟨(fun h => nomatch h),
              ⟨⟨fun _ => ⟨(fun h => nomatch h), (fun h => nomatch h)⟩,
                  ⟨⟨(fun h => nomatch h), ⟨hrx, hrw2la⟩⟩,
                    ⟨(fun h => nomatch h), ⟨hrw2lb, hrw2r⟩⟩⟩⟩,
                hrwr⟩⟩,
            hcrp⟩
      · rw [if_neg hw2r2] at hw3
        have hw2rr : colorOf w2r = .red := by
          cases h2 : colorOf w2r with
          | red => rfl
          | black => exact absurd h2 hw2r2
        cases w2r with
        | nil => simp [colorOf] at hw2rr
        | node w2rc w2ra w2rv w2rb =>
        cases w2rc with
        | black => simp [colorOf] at hw2rr
        | red =>
        rw [hw3] at hw4
        injection hw4 with h1 h2 h3 h4
        subst h1 h2 h3 h4
        have hbw2ra := hbw2r.1
        have hbw2rb := hbw2r.2.1
        have hbe2 : Rbh w2ra = Rbh w2rb := hbw2r.2.2
        have hrw2ra := hrw2r.2.1
        have hrw2rb := hrw2r.2.2
        simp only [rbh_node, bcount] at hbw2eq
        refine ⟨?_, ?_, Or.inr (finishD_rootB _ _ _ _)⟩
        · rw [assemble_finishD]
          simp only [assemble_cons, reattach_fromL, blackenRoot]
          rw [bhOk_assemble_iff]
          refine ⟨⟨⟨⟨hBH, ⟨hbw2l, ?_⟩⟩, ⟨⟨hbw2ra, ⟨hbw2rb, hbe2⟩⟩, ?_⟩⟩,
              ⟨hbwr, ?_⟩⟩,
            ctxBH_congr _ _ _ ?_ hbp⟩
          · omega
          · simp only [rbh_node, bcount] <;> omega
          · simp only [rbh_node, bcount] <;> omega
          · simp only [rbh_node, bcount] <;> omega
        · rw [assemble_finishD]
          simp only [assemble_cons, reattach_fromL, blackenRoot]
          rw [rrf_assemble_iff]
          refine ⟨⟨(fun h => nomatch h),
              ⟨⟨fun _ => ⟨(fun h => nomatch h), (fun h => nomatch h)⟩,
                  ⟨⟨(fun h => nomatch h), ⟨hrx, hrw2l⟩⟩,
                    ⟨(fun h => nomatch h), ⟨hrw2ra, hrw2rb⟩⟩⟩⟩,
                hrwr⟩⟩,
            hcrp⟩
  | R134 p us x pc pv wl wv w2c w2l w2v w2r hx hnbb pd hpd pu hpu w3 hw3 c4 w4l w4v w4r hw4 xd hxd xu hxu =>
      intro hBH hRRF hcb hcr hlast
      have hbW := hcb.1
      have hbWrbh := hcb.2.1
      have hbp := hcb.2.2
      have hrW := hcr.1
      have hrImp := hcr.2.1
      have hcrp := hcr.2.2
      have hpc : pc = .black := by
        cases pc with
        | red => exact absurd rfl (hrImp rfl).2
        | black => rfl
      subst hpc
      have hbwl := hbW.1
      have hbW2 := hbW.2.1
      have hbWeq := hbW.2.2
      have hw2nr : colorOf (T.node w2c w2l w2v w2r) ≠ .red := (hrW.1 rfl).2
      have hrwl := hrW.2.1
      have hrW2 := hrW.2.2
      have hw2c : w2c = .black := by
        cases w2c with
        | red => exact absurd rfl hw2nr
        | black => rfl
      subst hw2c
      have hbw2l := hbW2.1
      have hbw2r := hbW2.2.1
      have hbw2eq := hbW2.2.2
      have hrw2l := hrW2.2.1
      have hrw2r := hrW2.2.2
      have hrx : RRF x := rrf_of_blacken x hx hRRF
      simp only [rbh_node, bcount] at hbWrbh hbWeq
      by_cases hw2l2 : colorOf w2l = .black
      · rw [if_pos hw2l2] at hw3
        have hw2rr : colorOf w2r = .red := by
          cases h2 : colorOf w2r with
          | red => rfl
          | black => exact absurd ⟨h2, hw2l2⟩ hnbb
        cases w2r with
        | nil => simp [colorOf] at hw2rr
        | node w2rc w2ra w2rv w2rb =>
        cases w2rc with
        | black => simp [colorOf] at hw2rr
        | red =>
        have hlr : leftRotate rd ru
            (.node .red w2l w2v (blackenRoot (.node .red w2ra w2rv w2rb)))
            = .node .black (.node .red w2l (rd (.node .red w2l w2v w2ra)) w2ra)
                (ru w2v (.node .black
                  (.node .red w2l (rd (.node .red w2l w2v w2ra)) w2ra)
                  w2rv w2rb))
                w2rb := rfl
        rw [hw3] at hw4
        have hw4n := hlr.symm.trans hw4
        injection hw4n with h1 h2 h3 h4
        subst h1 h2 h3 h4
        have hbw2ra := hbw2r.1
        have hbw2rb := hbw2r.2.1
        have hbe2 : Rbh w2ra = Rbh w2rb := hbw2r.2.2
        have hrw2ra := hrw2r.2.1
        have hrw2rb := hrw2r.2.2
        simp only [rbh_node, bcount] at hbw2eq
        refine ⟨?_, ?_, Or.inr (finishD_rootB _ _ _ _)⟩
        · rw [assemble_finishD]
          simp only [assemble_cons, reattach_fromR, blackenRoot]
          rw [bhOk_assemble_iff]
          refine ⟨⟨hbwl,
              ⟨⟨⟨hbw2l, ⟨hbw2ra, ?_⟩⟩, ⟨⟨hbw2rb, ⟨hBH, ?_⟩⟩, ?_⟩⟩, ?_⟩⟩,
            ctxBH_congr _ _ _ ?_ hbp⟩
          · omega
          · omega
          · simp only [rbh_node, bcount] <;> omega
          · simp only [rbh_node, bcount] <;> omega
          · simp only [rbh_node, bcount] <;> omega
        · rw [assemble_finishD]
          simp only [assemble_cons, reattach_fromR, blackenRoot]
          rw [rrf_assemble_iff]
          refine ⟨⟨(fun h => nomatch h),
              ⟨hrwl,
                ⟨fun _ => ⟨(fun h => nomatch h), (fun h => nomatch h)⟩,
                  ⟨⟨(fun h => nomatch h), ⟨hrw2l, hrw2ra⟩⟩,
                    ⟨(fun h => nomatch h), ⟨hrw2rb, hrx⟩⟩⟩⟩⟩⟩,
            hcrp⟩
      · rw [if_neg hw2l2] at hw3
        have hw2lr : colorOf w2l = .red := by
          cases h2 : colorOf w2l with
          | red => rfl
          | black => exact absurd h2 hw2l2
        cases w2l with
        | nil => simp [colorOf] at hw2lr
        | node w2lc w2la w2lv w2lb =>
        cases w2lc with
        | black => simp [colorOf] at hw2lr
        | red =>
        rw [hw3] at hw4
        injection hw4 with h1 h2 h3 h4
        subst h1 h2 h3 h4
        have hbw2la := hbw2l.1
        have hbw2lb := hbw2l.2.1
        have hbe2 : Rbh w2la = Rbh w2lb := hbw2l.2.2
        have hrw2la := hrw2l.2.1
        have hrw2lb := hrw2l.2.2
        simp only [rbh_node, bcount] at hbWeq hbw2eq
        refine ⟨?_, ?_, Or.inr (finishD_rootB _ _ _ _)⟩
        · rw [assemble_finishD]
          simp only [assemble_cons, reattach_fromR, blackenRoot]
          rw [bhOk_assemble_iff]
          refine ⟨⟨hbwl,
              ⟨⟨⟨hbw2la, ⟨hbw2lb, hbe2⟩⟩, ⟨⟨hbw2r, ⟨hBH, ?_⟩⟩, ?_⟩⟩, ?_⟩⟩,
            ctxBH_congr _ _ _ ?_ hbp⟩
          · omega
          · simp only [rbh_node, bcount] <;> omega
          · simp only [rbh_node, bcount] <;> omega
          · simp only [rbh_node, bcount] <;> omega
        · rw [assemble_finishD]
          simp only [assemble_cons, reattach_fromR, blackenRoot]
          rw [rrf_assemble_iff]
          refine ⟨⟨(fun h => nomatch h),
              ⟨hrwl,
                ⟨fun _ => ⟨(fun h => nomatch h), (fun h => nomatch h)⟩,
                  ⟨⟨(fun h => nomatch h), ⟨hrw2la, hrw2lb⟩⟩,
                    ⟨(fun h => nomatch h), ⟨hrw2r, hrx⟩⟩⟩⟩⟩⟩,
            hcrp⟩

/-- Total black contribution of a context's frames. -/
def ctxBC : List (Ctx α) → Nat
  | [] => 0
  | f :: p => bcount (colC f) + ctxBC p

@[simp] lemma ctxBC_nil : ctxBC ([] : List (Ctx α)) = 0 := rfl

@[simp] lemma ctxBC_cons (f : Ctx α) (p : List (Ctx α)) :
    ctxBC (f :: p) = bcount (colC f) + ctxBC p := rfl

lemma ctxBH_append_intro (p q : List (Ctx α)) :
    ∀ n, CtxBH p n → CtxBH q (n + ctxBC p) → CtxBH (p ++ q) n := by
  induction p with
  | nil =>
      intro n _ h2
      exact ctxBH_congr _ _ _ (by simp) h2
  | cons f p ih =>
      intro n h1 h2
      cases f with
      | fromL c v r =>
          exact ⟨h1.1, ⟨h1.2.1, ih (n + bcount c) h1.2.2
            (ctxBH_congr _ _ _ (by simp only [ctxBC_cons, colC]; omega) h2)⟩⟩
      | fromR c l v =>
          exact ⟨h1.1, ⟨h1.2.1, ih (n + bcount c) h1.2.2
            (ctxBH_congr _ _ _ (by simp only [ctxBC_cons, colC]; omega) h2)⟩⟩

lemma ctxRRF_append_intro (p q : List (Ctx α)) :
    ∀ hc, CtxRRF p hc → CtxRRF q (lastCD p hc) → CtxRRF (p ++ q) hc := by
  induction p with
  | nil =>
      intro hc _ h2
      exact h2
  | cons f p ih =>
      intro hc h1 h2
      cases f with
      | fromL c v r => exact ⟨h1.1, ⟨h1.2.1, ih c h1.2.2 h2⟩⟩
      | fromR c l v => exact ⟨h1.1, ⟨h1.2.1, ih c h1.2.2 h2⟩⟩

lemma lastCD_append (p q : List (Ctx α)) :
    ∀ d, lastCD (p ++ q) d = lastCD q (lastCD p d) := by
  induction p with
  | nil => intro d; rfl
  | cons f p ih => intro d; exact ih (colC f)

lemma colC_decCtx (dec : α → α) (f : Ctx α) : colC (decCtx dec f) = colC f := by
  cases f <;> rfl

lemma ctxBH_decCtx_map (dec : α → α) (p : List (Ctx α)) :
    ∀ n, CtxBH (p.map (decCtx dec)) n ↔ CtxBH p n := by
  induction p with
  | nil => intro n; exact Iff.rfl
  | cons f p ih =>
      intro n
      cases f with
      | fromL c v r =>
          show (BHOk r ∧ Rbh r = n ∧ CtxBH (p.map (decCtx dec)) (n + bcount c))
            ↔ (BHOk r ∧ Rbh r = n ∧ CtxBH p (n + bcount c))
          rw [ih]
      | fromR c l v =>
          show (BHOk l ∧ Rbh l = n ∧ CtxBH (p.map (decCtx dec)) (n + bcount c))
            ↔ (BHOk l ∧ Rbh l = n ∧ CtxBH p (n + bcount c))
          rw [ih]

lemma ctxRRF_decCtx_map (dec : α → α) (p : List (Ctx α)) :
    ∀ hc, CtxRRF (p.map (decCtx dec)) hc ↔ CtxRRF p hc := by
  induction p with
  | nil => intro hc; exact Iff.rfl
  | cons f p ih =>
      intro hc
      cases f with
      | fromL c v r =>
          show (RRF r ∧ (c = .red → hc ≠ .red ∧ colorOf r ≠ .red)
              ∧ CtxRRF (p.map (decCtx dec)) c)
            ↔ (RRF r ∧ (c = .red → hc ≠ .red ∧ colorOf r ≠ .red) ∧ CtxRRF p c)
          rw [ih]
      | fromR c l v =>
          show (RRF l ∧ (c = .red → hc ≠ .red ∧ colorOf l ≠ .red)
              ∧ CtxRRF (p.map (decCtx dec)) c)
            ↔ (RRF l ∧ (c = .red → hc ≠ .red ∧ colorOf l ≠ .red) ∧ CtxRRF p c)
          rw [ih]

lemma lastCD_decCtx_map (dec : α → α) (p : List (Ctx α)) :
    ∀ d, lastCD (p.map (decCtx dec)) d = lastCD p d := by
  induction p with
  | nil => intro d; rfl
  | cons f p ih =>
      intro d
      cases f with
      | fromL c v r => exact ih c
      | fromR c l v => exact ih c

lemma ctxBC_decCtx_map (dec : α → α) (p : List (Ctx α)) :
    ctxBC (p.map (decCtx dec)) = ctxBC p := by
  induction p with
  | nil => rfl
  | cons f p ih =>
      simp only [List.map_cons, ctxBC_cons, colC_decCtx, ih]

/-- A context that is red-red-valid for a RED hole starts with a black
frame. -/
lemma ctxRRF_red_head (p : List (Ctx α)) (h : CtxRRF p .red) :
    ∀ f q, p = f :: q → colC f ≠ .red := by
  intro f q hp hc
  subst hp
  cases f with
  | fromL c v r => exact (h.2.1 hc).1 rfl
  | fromR c l v => exact (h.2.1 hc).1 rfl

/-- Assembling through left-descent frames adds their black counts to the
left-spine black height. -/
lemma rbh_assemble_fromL (p : List (Ctx α))
    (h : ∀ f ∈ p, ∃ c v r, f = Ctx.fromL c v r) :
    ∀ t : T α, Rbh (assemble p t) = Rbh t + ctxBC p := by
  induction p with
  | nil => intro t; simp
  | cons f p ih =>
      intro t
      obtain ⟨c, v, r, rfl⟩ := h f (by simp)
      show Rbh (assemble p (T.node c t v r)) = _
      rw [ih (fun g hg => h g (by simp [hg]))]
      simp only [rbh_node, ctxBC_cons, colC]
      omega

/-- The insertion descent: starting from a valid tree, the produced zipper
is a valid context around a black-height-0 hole that may hold a red node. -/
lemma insPath_rb (visit : α → α) (goL : α → Bool) :
    ∀ (t : T α) (p : List (Ctx α)),
      BHOk t → RRF t →
      CtxBH p (Rbh t) → CtxRRF p (colorOf t) → lastCD p (colorOf t) = .black →
      CtxBH (insPath visit goL t p) 0
        ∧ CtxRRF (insPath visit goL t p) .black
        ∧ lastCD (insPath visit goL t p) .black = .black := by
  intro t
  induction t with
  | nil =>
      intro p _ _ hcb hcr hl
      exact ⟨hcb, ⟨hcr, hl⟩⟩
  | node c l v r ihl ihr =>
      intro p hb hr hcb hcr hl
      simp only [insPath]
      split
      · exact ihl _ hb.1 hr.2.1
          ⟨hb.2.1, ⟨hb.2.2.symm, hcb⟩⟩
          ⟨hr.2.2, ⟨hr.1, hcr⟩⟩ hl
      · exact ihr _ hb.2.1 hr.2.2
          ⟨hb.1, ⟨hb.2.2, ctxBH_congr _ _ _ (by simp only [rbh_node, hb.2.2]) hcb⟩⟩
          ⟨hr.2.1, ⟨fun hcred => ⟨(hr.1 hcred).2, (hr.1 hcred).1⟩, hcr⟩⟩ hl

/-- The splice-out step of `remove` (plus the fix-up when a black node was
unlinked) rebuilds a tree with intact black heights and no red-red edge;
its root is black unless the `rootB` flag asks the caller to blacken it. -/
lemma rb_removeAux [Inhabited α] (rd : T α → α) (ru : α → T α → α)
    (dec : α → α) (yPay : α → T α → T α → α)
    (p : List (Ctx α)) (zc : RBColor) (zl zr : T α)
    (hBHl : BHOk zl) (hBHr : BHOk zr) (heq : Rbh zl = Rbh zr)
    (hRl : RRF zl) (hRr : RRF zr)
    (hch : zc = .red → colorOf zl ≠ .red ∧ colorOf zr ≠ .red)
    (hcb : CtxBH p (Rbh zl + bcount zc))
    (hcr : CtxRRF p zc) (hlast : lastCD p zc = .black) :
    BHOk (assemble (removeAux rd ru dec yPay p zc zl zr).path
        (removeAux rd ru dec yPay p zc zl zr).focus)
      ∧ RRF (assemble (removeAux rd ru dec yPay p zc zl zr).path
          (removeAux rd ru dec yPay p zc zl zr).focus)
      ∧ (colorOf (assemble (removeAux rd ru dec yPay p zc zl zr).path
            (removeAux rd ru dec yPay p zc zl zr).focus) ≠ .red
          ∨ (removeAux rd ru dec yPay p zc zl zr).rootB = true) := by
  cases zl with
  | nil =>
      rw [rbh_nil] at heq
      simp only [removeAux]
      by_cases hzc : zc = .black
      · subst hzc
        rw [if_pos rfl]
        exact rb_DRel rd ru (p.map (decCtx dec)) _ zr _
          (delFix_rel rd ru _ _ _) hBHr (rrf_blackenRoot _ hRr)
          ((ctxBH_decCtx_map dec p _).mpr
            (ctxBH_congr _ _ _ (by simp only [rbh_nil, bcount]; omega) hcb))
          ((ctxRRF_decCtx_map dec p _).mpr hcr)
          ((lastCD_decCtx_map dec p _).trans hlast)
      · have hzcr : zc = .red := by
          cases zc with
          | red => rfl
          | black => exact absurd rfl hzc
        subst hzcr
        rw [if_neg hzc]
        refine ⟨?_, ?_, Or.inl ?_⟩
        · rw [assemble_finishD, bhOk_assemble_iff]
          refine ⟨hBHr, (ctxBH_decCtx_map dec p _).mpr
            (ctxBH_congr _ _ _ (by simp only [rbh_nil, bcount]; omega) hcb)⟩
        · rw [assemble_finishD, rrf_assemble_iff]
          refine ⟨hRr, (ctxRRF_decCtx_map dec p _).mpr
            (ctxRRF_of_black p _ (ctxRRF_black p _ hcr) (ctxRRF_red_head p hcr))⟩
        · rw [assemble_finishD, colorOf_assemble, lastCD_decCtx_map dec p]
          cases p with
          | nil => exact absurd hlast (fun h => nomatch h)
          | cons f q =>
              rw [lastCD_indep (f :: q) (by simp) (colorOf zr) .red, hlast]
              exact (fun h => nomatch h)
  | node lc ll lv lr =>
      cases zr with
      | nil =>
          rw [rbh_nil] at heq
          simp only [removeAux]
          by_cases hzc : zc = .black
          · subst hzc
            rw [if_pos rfl]
            exact rb_DRel rd ru (p.map (decCtx dec)) _ (T.node lc ll lv lr) _
              (delFix_rel rd ru _ _ _) hBHl (rrf_blackenRoot _ hRl)
              ((ctxBH_decCtx_map dec p _).mpr
                (ctxBH_congr _ _ _ (by simp only [bcount]) hcb))
              ((ctxRRF_decCtx_map dec p _).mpr hcr)
              ((lastCD_decCtx_map dec p _).trans hlast)
          · have hzcr : zc = .red := by
              cases zc with
              | red => rfl
              | black => exact absurd rfl hzc
            subst hzcr
            rw [if_neg hzc]
            refine ⟨?_, ?_, Or.inl ?_⟩
            · rw [assemble_finishD, bhOk_assemble_iff]
              refine ⟨hBHl, (ctxBH_decCtx_map dec p _).mpr
                (ctxBH_congr _ _ _ (by simp only [bcount]; omega) hcb)⟩
            · rw [assemble_finishD, rrf_assemble_iff]
              refine ⟨hRl, (ctxRRF_decCtx_map dec p _).mpr
                (ctxRRF_of_black p _ (ctxRRF_black p _ hcr) (ctxRRF_red_head p hcr))⟩
            · rw [assemble_finishD, colorOf_assemble, lastCD_decCtx_map dec p]
              cases p with
              | nil => exact absurd hlast (fun h => nomatch h)
              | cons f q =>
                  rw [lastCD_indep (f :: q) (by simp)
                    (colorOf (T.node lc ll lv lr)) .red, hlast]
                  exact (fun h => nomatch h)
      | node rc rl rv rr =>
          rcases hms : minSplit (T.node rc rl rv rr) ([] : List (Ctx α))
            with ⟨acc, yc, yv, yr⟩
          have hasmr := minSplit_assemble rc rl rv rr ([] : List (Ctx α))
          rw [hms] at hasmr
          have haccL : ∀ f ∈ acc, ∃ c v r, f = Ctx.fromL c v r := by
            have hh := minSplit_fromL (T.node rc rl rv rr) ([] : List (Ctx α))
              (by intro f hf; exact absurd hf (List.not_mem_nil f))
            rw [hms] at hh
            exact hh
          have hbhY : BHOk (assemble acc (T.node yc T.nil yv yr)) := by
            rw [hasmr]
            exact hBHr
          rw [bhOk_assemble_iff] at hbhY
          obtain ⟨hyok, haccBH⟩ := hbhY
          have hrrfY : RRF (assemble acc (T.node yc T.nil yv yr)) := by
            rw [hasmr]
            exact hRr
          rw [rrf_assemble_iff] at hrrfY
          obtain ⟨hyRRF, haccRRF⟩ := hrrfY
          have hyr : BHOk yr := hyok.2.1
          have hyh0 : (0 : Nat) = Rbh yr := hyok.2.2
          have hyrR : RRF yr := hyRRF.2.2
          have hyimp : yc = .red → colorOf yr ≠ .red := fun hy => (hyRRF.1 hy).2
          have hcolY : lastCD acc yc = rc := by
            have hca := colorOf_assemble acc (T.node yc T.nil yv yr)
            rw [hasmr] at hca
            exact hca.symm
          have haccBH' : CtxBH acc (bcount yc) :=
            ctxBH_congr _ _ _ (by simp only [rbh_node, rbh_nil]; omega) haccBH
          have haccRRF' : CtxRRF acc yc := haccRRF
          have hrbh2 : Rbh (T.node rc rl rv rr) = bcount yc + ctxBC acc := by
            have h2 := rbh_assemble_fromL acc haccL (T.node yc T.nil yv yr)
            rw [hasmr] at h2
            rw [show Rbh (T.node yc T.nil yv yr) = bcount yc from by
              simp [rbh_node, rbh_nil]] at h2
            exact h2
          have heqn : Rbh (T.node lc ll lv lr) = bcount yc + ctxBC acc := by
            rw [← hrbh2]
            exact heq
          simp only [removeAux, hms]
          cases acc with
          | nil =>
              dsimp only
              by_cases hyc : yc = .black
              · subst hyc
                rw [if_pos rfl]
                refine rb_DRel rd ru _ _ yr _ (delFix_rel rd ru _ _ _)
                  hyr (rrf_blackenRoot _ hyrR) ?_ ?_ ?_
                · refine ⟨hBHl, ⟨?_, (ctxBH_decCtx_map dec p _).mpr
                    (ctxBH_congr _ _ _ ?_ hcb)⟩⟩
                  · simp only [ctxBC_nil, bcount] at heqn
                    omega
                  · simp only [ctxBC_nil, bcount] at heqn
                    omega
                · refine ⟨hRl, ⟨?_, (ctxRRF_decCtx_map dec p _).mpr hcr⟩⟩
                  intro hzc
                  exact ⟨(fun h => nomatch h), (hch hzc).1⟩
                · show lastCD (p.map (decCtx dec)) zc = .black
                  rw [lastCD_decCtx_map dec p]
                  exact hlast
              · have hycr : yc = .red := by
                  cases yc with
                  | red => rfl
                  | black => exact absurd rfl hyc
                subst hycr
                rw [if_neg hyc]
                refine ⟨?_, ?_, Or.inl ?_⟩
                · rw [assemble_finishD]
                  simp only [assemble_cons, reattach_fromR]
                  rw [bhOk_assemble_iff]
                  refine ⟨⟨hBHl, ⟨hyr, ?_⟩⟩, (ctxBH_decCtx_map dec p _).mpr
                    (ctxBH_congr _ _ _ ?_ hcb)⟩
                  · simp only [ctxBC_nil, bcount] at heqn
                    omega
                  · simp only [rbh_node] <;> omega
                · rw [assemble_finishD]
                  simp only [assemble_cons, reattach_fromR]
                  rw [rrf_assemble_iff]
                  refine ⟨⟨?_, ⟨hRl, hyrR⟩⟩, (ctxRRF_decCtx_map dec p _).mpr hcr⟩
                  intro hzc
                  exact ⟨(hch hzc).1, hyimp rfl⟩
                · rw [assemble_finishD, colorOf_assemble]
                  show lastCD (p.map (decCtx dec)) zc ≠ .red
                  rw [lastCD_decCtx_map dec p, hlast]
                  exact (fun h => nomatch h)
          | cons a acc' =>
              dsimp only
              have hlin : ∀ d, lastCD ((a :: acc').map (decCtx dec)) d = rc := by
                intro d
                rw [lastCD_decCtx_map dec (a :: acc'),
                  lastCD_indep (a :: acc') (by simp) d yc]
                exact hcolY
              have hbcm : ctxBC ((a :: acc').map (decCtx dec)) = ctxBC (a :: acc') :=
                ctxBC_decCtx_map dec (a :: acc')
              have haccLm : ∀ f ∈ (a :: acc').map (decCtx dec),
                  ∃ c v r, f = Ctx.fromL c v r := by
                intro f hf
                rw [List.mem_map] at hf
                obtain ⟨g, hg, rfl⟩ := hf
                obtain ⟨c, v, r, rfl⟩ := haccL g hg
                exact ⟨c, dec v, r, rfl⟩
              by_cases hyc : yc = .black
              · subst hyc
                rw [if_pos rfl]
                refine rb_DRel rd ru _ _ yr _ (delFix_rel rd ru _ _ _)
                  hyr (rrf_blackenRoot _ hyrR) ?_ ?_ ?_
                · refine ctxBH_append_intro _ _ _
                    ((ctxBH_decCtx_map dec (a :: acc') _).mpr
                      (ctxBH_congr _ _ _ ?_ haccBH')) ?_
                  · simp only [bcount]
                    omega
                  · refine ⟨hBHl, ⟨?_, (ctxBH_decCtx_map dec p _).mpr
                      (ctxBH_congr _ _ _ ?_ hcb)⟩⟩
                    · rw [hbcm]
                      simp only [bcount] at heqn
                      omega
                    · rw [hbcm]
                      simp only [bcount] at heqn
                      omega
                · refine ctxRRF_append_intro _ _ _
                    ((ctxRRF_decCtx_map dec (a :: acc') _).mpr haccRRF') ?_
                  refine ⟨hRl, ⟨?_, (ctxRRF_decCtx_map dec p _).mpr hcr⟩⟩
                  intro hzc
                  refine ⟨?_, (hch hzc).1⟩
                  rw [hlin]
                  exact (hch hzc).2
                · rw [lastCD_append]
                  show lastCD (p.map (decCtx dec)) zc = .black
                  rw [lastCD_decCtx_map dec p]
                  exact hlast
              · have hycr : yc = .red := by
                  cases yc with
                  | red => rfl
                  | black => exact absurd rfl hyc
                subst hycr
                rw [if_neg hyc]
                refine ⟨?_, ?_, Or.inl ?_⟩
                · rw [assemble_finishD, assemble_append]
                  simp only [assemble_cons, reattach_fromR]
                  rw [bhOk_assemble_iff]
                  refine ⟨⟨hBHl, ⟨?_, ?_⟩⟩, (ctxBH_decCtx_map dec p _).mpr
                    (ctxBH_congr _ _ _ ?_ hcb)⟩
                  · rw [bhOk_assemble_iff]
                    refine ⟨hyr, (ctxBH_decCtx_map dec (a :: acc') _).mpr
                      (ctxBH_congr _ _ _ ?_ haccBH')⟩
                    simp only [bcount]
                    omega
                  · rw [rbh_assemble_fromL _ haccLm yr, hbcm]
                    simp only [bcount] at heqn
                    omega
                  · simp only [rbh_node] <;> omega
                · rw [assemble_finishD, assemble_append]
                  simp only [assemble_cons, reattach_fromR]
                  rw [rrf_assemble_iff]
                  refine ⟨⟨?_, ⟨hRl, ?_⟩⟩, (ctxRRF_decCtx_map dec p _).mpr hcr⟩
                  · intro hzc
                    refine ⟨(hch hzc).1, ?_⟩
                    rw [colorOf_assemble, hlin]
                    exact (hch hzc).2
                  · rw [rrf_assemble_iff]
                    refine ⟨hyrR, (ctxRRF_decCtx_map dec (a :: acc') _).mpr
                      (ctxRRF_of_black _ _ (ctxRRF_black _ _ haccRRF')
                        (ctxRRF_red_head _ haccRRF'))⟩
                · rw [assemble_finishD, assemble_append, colorOf_assemble]
                  show lastCD (p.map (decCtx dec)) zc ≠ .red
                  rw [lastCD_decCtx_map dec p, hlast]
                  exact (fun h => nomatch h)

end RBG

/-! ## Verification layer: red-black invariants of the two instances -/

namespace OST

open RBG

/-- `insert` (src/ost.h lines 234-263, insertFixup lines 90-127) preserves
the red-black invariant. -/
lemma rbInv_insert (t : OT) (key : Int) (h : RBInv t) : RBInv (insert t key) := by
  obtain ⟨hroot, hrrf, hbh⟩ := h
  have hblack : colorOf t = .black := by
    cases hc : colorOf t with
    | red => exact absurd hc hroot
    | black => rfl
  obtain ⟨hcb0, hcr0, hl0⟩ := insPath_rb (fun v => ⟨v.k, v.sz + 1⟩)
    (fun v => decide (key < v.k)) t [] hbh hrrf trivial trivial hblack
  unfold insert
  rcases hfz : insFix rdHook ruHook
      (insPath (fun v => ⟨v.k, v.sz + 1⟩) (fun v => decide (key < v.k)) t [])
      [] (.node .red .nil ⟨key, 1⟩ .nil) with ⟨fr, z⟩
  simp only [hfz]
  have hir := rb_IRel rdHook ruHook _ _ _ _
    (insFix_rel rdHook ruHook
      (insPath (fun v => ⟨v.k, v.sz + 1⟩) (fun v => decide (key < v.k)) t [])
      [] (.node .red .nil ⟨key, 1⟩ .nil))
    ⟨trivial, ⟨trivial, rfl⟩⟩
    ⟨fun _ => ⟨(fun hh => nomatch hh), (fun hh => nomatch hh)⟩, ⟨trivial, trivial⟩⟩
    rfl hcb0 hcr0 hl0
  rw [hfz] at hir
  exact ⟨colorOf_blackenRoot _, ⟨rrf_blackenRoot _ hir.2, bhOk_blackenRoot _ hir.1⟩⟩

/-- `remove` (src/ost.h lines 265-317, deleteFixup lines 147-200) preserves
the red-black invariant. -/
lemma rbInv_remove (t : OT) (key : Int) (h : RBInv t) : RBInv (remove t key) := by
  obtain ⟨hroot, hrrf, hbh⟩ := h
  have hblack : colorOf t = .black := by
    cases hc : colorOf t with
    | red => exact absurd hc hroot
    | black => rfl
  rcases hsp : searchPath (fun v => decide (key = v.k))
      (fun v => decide (key < v.k)) t [] with _ | ⟨q, zc, zl, zv, zr⟩
  · have hre : remove t key = t := by
      unfold remove
      rw [hsp]
    rw [hre]
    exact ⟨hroot, ⟨hrrf, hbh⟩⟩
  · have hasm : assemble q (T.node zc zl zv zr) = t :=
      (searchPath_found _ _ t [] q zc zl zv zr hsp).1
    have hbh2 : BHOk (assemble q (T.node zc zl zv zr)) := by
      rw [hasm]
      exact hbh
    rw [bhOk_assemble_iff] at hbh2
    obtain ⟨hbZ, hcbq⟩ := hbh2
    have hrrf2 : RRF (assemble q (T.node zc zl zv zr)) := by
      rw [hasm]
      exact hrrf
    rw [rrf_assemble_iff] at hrrf2
    obtain ⟨hrZ, hcrq⟩ := hrrf2
    have hlastq : lastCD q zc = .black := by
      show lastCD q (colorOf (T.node zc zl zv zr)) = RBColor.black
      rw [← colorOf_assemble, hasm]
      exact hblack
    have hra := rb_removeAux rdHook ruHook (fun v => ⟨v.k, v.sz - 1⟩)
      (fun yv l r => ⟨yv.k, getSize l + getSize r + 1⟩) q zc zl zr
      hbZ.1 hbZ.2.1 hbZ.2.2 hrZ.2.1 hrZ.2.2 hrZ.1 hcbq hcrq hlastq
    unfold remove
    rw [hsp]
    dsimp only
    by_cases hrb : (removeAux rdHook ruHook (fun v => ⟨v.k, v.sz - 1⟩)
        (fun yv l r => ⟨yv.k, getSize l + getSize r + 1⟩) q zc zl zr).rootB = true
    · rw [if_pos hrb]
      exact ⟨colorOf_blackenRoot _,
        ⟨rrf_blackenRoot _ hra.2.1, bhOk_blackenRoot _ hra.1⟩⟩
    · rw [if_neg hrb]
      exact ⟨hra.2.2.resolve_right hrb, ⟨hra.2.1, hra.1⟩⟩

/-- Every tree reachable by the public mutation sequence is a red-black
tree. -/
lemma rbInv_runOps (ops : List OOp) : RBInv (runOps ops) := by
  suffices h : ∀ (l : List OOp) (t : OT), RBInv t → RBInv (l.foldl applyOp t) by
    exact h ops .nil ⟨(fun hh => nomatch hh), ⟨trivial, trivial⟩⟩
  intro l
  induction l with
  | nil =>
      intro t h
      exact h
  | cons op l ih =>
      intro t h
      cases op with
      | ins k => exact ih _ (rbInv_insert t k h)
      | del k => exact ih _ (rbInv_remove t k h)

end OST

namespace POM

open RBG

lemma colorOf_updAugT (t : PT) : colorOf (updAugT t) = colorOf t := by
  cases t <;> rfl

lemma rbh_updAugT (t : PT) : Rbh (updAugT t) = Rbh t := by
  cases t <;> rfl

lemma bhOk_updAugT (t : PT) : BHOk (updAugT t) ↔ BHOk t := by
  cases t <;> exact Iff.rfl

lemma rrf_updAugT (t : PT) : RRF (updAugT t) ↔ RRF t := by
  cases t <;> exact Iff.rfl

/-- `updateAncestors` recomputes payloads only: colors, shape and hence the
red-black facts agree with the plain reassembly. -/
lemma rb_updateUp (p : List (Ctx PPay)) : ∀ t : PT,
    (BHOk (updateUp p t) ↔ BHOk (assemble p t))
      ∧ (RRF (updateUp p t) ↔ RRF (assemble p t))
      ∧ colorOf (updateUp p t) = colorOf (assemble p t) := by
  induction p with
  | nil =>
      intro t
      exact ⟨Iff.rfl, ⟨Iff.rfl, rfl⟩⟩
  | cons f p ih =>
      intro t
      have h1 := ih (updAugT (reattach f t))
      have hbh : BHOk (assemble p (updAugT (reattach f t)))
          ↔ BHOk (assemble p (reattach f t)) := by
        rw [bhOk_assemble_iff, bhOk_assemble_iff, bhOk_updAugT, rbh_updAugT]
      have hrrf : RRF (assemble p (updAugT (reattach f t)))
          ↔ RRF (assemble p (reattach f t)) := by
        rw [rrf_assemble_iff, rrf_assemble_iff, rrf_updAugT, colorOf_updAugT]
      have hcol : colorOf (assemble p (updAugT (reattach f t)))
          = colorOf (assemble p (reattach f t)) := by
        rw [colorOf_assemble, colorOf_assemble, colorOf_updAugT]
      refine ⟨?_, ⟨?_, ?_⟩⟩
      · show BHOk (updateUp p (updAugT (reattach f t)))
          ↔ BHOk (assemble p (reattach f t))
        rw [h1.1, hbh]
      · show RRF (updateUp p (updAugT (reattach f t)))
          ↔ RRF (assemble p (reattach f t))
        rw [h1.2.1, hrrf]
      · show colorOf (updateUp p (updAugT (reattach f t)))
          = colorOf (assemble p (reattach f t))
        rw [h1.2.2, hcol]

/-- Conditionally recomputing the focus payload changes no red-black fact. -/
lemma rb_focus_if (b : Bool) (x : PT) :
    (BHOk (if b = true then updAugT x else x) ↔ BHOk x)
      ∧ (RRF (if b = true then updAugT x else x) ↔ RRF x)
      ∧ colorOf (if b = true then updAugT x else x) = colorOf x
      ∧ Rbh (if b = true then updAugT x else x) = Rbh x := by
  cases b
  · simp
  · simp [bhOk_updAugT, rrf_updAugT, colorOf_updAugT, rbh_updAugT]

/-- The post-splice `updateAncestors` pass seen through the red-black
facts of the plainly reassembled tree. -/
lemma rb_removeWrap (P : List (Ctx PPay)) (b : Bool) (x : PT) :
    (BHOk (updateUp P (if b = true then updAugT x else x)) ↔ BHOk (assemble P x))
      ∧ (RRF (updateUp P (if b = true then updAugT x else x)) ↔ RRF (assemble P x))
      ∧ colorOf (updateUp P (if b = true then updAugT x else x))
          = colorOf (assemble P x) := by
  obtain ⟨hb, hr, hc, hh⟩ := rb_focus_if b x
  obtain ⟨ub, ur, uc⟩ := rb_updateUp P (if b = true then updAugT x else x)
  refine ⟨?_, ⟨?_, ?_⟩⟩
  · rw [ub, bhOk_assemble_iff, bhOk_assemble_iff, hb, hh]
  · rw [ur, rrf_assemble_iff, rrf_assemble_iff, hr, hc]
  · rw [uc, colorOf_assemble, colorOf_assemble, hc]

/-- `insert` (src/pom.h lines 309-338, insertFixup lines 156-193) preserves
the red-black invariant. -/
lemma rbInv_insertIv (t : PT) (iv : Interval) (h : RBInv t) : RBInv (insert t iv) := by
  obtain ⟨hroot, hrrf, hbh⟩ := h
  have hblack : colorOf t = .black := by
    cases hc : colorOf t with
    | red => exact absurd hc hroot
    | black => rfl
  obtain ⟨hcb0, hcr0, hl0⟩ := insPath_rb id (fun w => decide (iv.s < w.iv.s)) t []
    hbh hrrf trivial trivial hblack
  unfold insert
  rcases hfz : insFix rdHook ruHook
      (insPath id (fun w => decide (iv.s < w.iv.s)) t [])
      [] (.node .red .nil ⟨iv, ⟨iv.v, iv.v, iv.s⟩⟩ .nil) with ⟨fr, zf⟩
  simp only [hfz]
  have hir := rb_IRel rdHook ruHook _ _ _ _
    (insFix_rel rdHook ruHook
      (insPath id (fun w => decide (iv.s < w.iv.s)) t [])
      [] (.node .red .nil ⟨iv, ⟨iv.v, iv.v, iv.s⟩⟩ .nil))
    ⟨trivial, ⟨trivial, rfl⟩⟩
    ⟨fun _ => ⟨(fun hh => nomatch hh), (fun hh => nomatch hh)⟩, ⟨trivial, trivial⟩⟩
    rfl hcb0 hcr0 hl0
  rw [hfz] at hir
  have hw := rb_updateUp fr (updAugT zf)
  have hb2 : BHOk (updateUp fr (updAugT zf)) := by
    rw [hw.1, bhOk_assemble_iff, bhOk_updAugT, rbh_updAugT, ← bhOk_assemble_iff]
    exact hir.1
  have hr2 : RRF (updateUp fr (updAugT zf)) := by
    rw [hw.2.1, rrf_assemble_iff, rrf_updAugT, colorOf_updAugT, ← rrf_assemble_iff]
    exact hir.2
  exact ⟨colorOf_blackenRoot _, ⟨rrf_blackenRoot _ hr2, bhOk_blackenRoot _ hb2⟩⟩

/-- `remove` (src/pom.h lines 340-384, deleteFixup lines 213-266) preserves
the red-black invariant. -/
lemma rbInv_removeIv (t : PT) (iv : Interval) (h : RBInv t) : RBInv (remove t iv) := by
  obtain ⟨hroot, hrrf, hbh⟩ := h
  have hblack : colorOf t = .black := by
    cases hc : colorOf t with
    | red => exact absurd hc hroot
    | black => rfl
  rcases hsp : searchPath (fun w => iv.s == w.iv.s && iv.e == w.iv.e)
      (fun w => decide (iv.s < w.iv.s)) t [] with _ | ⟨q, zc, zl, zv, zr⟩
  · have hre : remove t iv = t := by
      unfold remove
      rw [hsp]
    rw [hre]
    exact ⟨hroot, ⟨hrrf, hbh⟩⟩
  · have hasm : assemble q (T.node zc zl zv zr) = t :=
      (searchPath_found _ _ t [] q zc zl zv zr hsp).1
    have hbh2 : BHOk (assemble q (T.node zc zl zv zr)) := by
      rw [hasm]
      exact hbh
    rw [bhOk_assemble_iff] at hbh2
    obtain ⟨hbZ, hcbq⟩ := hbh2
    have hrrf2 : RRF (assemble q (T.node zc zl zv zr)) := by
      rw [hasm]
      exact hrrf
    rw [rrf_assemble_iff] at hrrf2
    obtain ⟨hrZ, hcrq⟩ := hrrf2
    have hlastq : lastCD q zc = .black := by
      show lastCD q (colorOf (T.node zc zl zv zr)) = RBColor.black
      rw [← colorOf_assemble, hasm]
      exact hblack
    have hra := rb_removeAux rdHook ruHook id (fun yv l r => yv) q zc zl zr
      hbZ.1 hbZ.2.1 hbZ.2.2 hrZ.2.1 hrZ.2.2 hrZ.1 hcbq hcrq hlastq
    unfold remove
    rw [hsp]
    dsimp only
    have hwrap := rb_removeWrap
      (removeAux rdHook ruHook id (fun yv l r => yv) q zc zl zr).path
      (removeAux rdHook ruHook id (fun yv l r => yv) q zc zl zr).updUS
      (removeAux rdHook ruHook id (fun yv l r => yv) q zc zl zr).focus
    by_cases hrb : (removeAux rdHook ruHook id
        (fun yv l r => yv) q zc zl zr).rootB = true
    · rw [if_pos hrb]
      exact ⟨colorOf_blackenRoot _,
        ⟨rrf_blackenRoot _ (hwrap.2.1.mpr hra.2.1),
          bhOk_blackenRoot _ (hwrap.1.mpr hra.1)⟩⟩
    · rw [if_neg hrb]
      refine ⟨?_, ⟨hwrap.2.1.mpr hra.2.1, hwrap.1.mpr hra.1⟩⟩
      rw [hwrap.2.2]
      exact hra.2.2.resolve_right hrb

/-- Every interval tree reachable by the public mutation sequence is a
red-black tree. -/
lemma rbInv_runPOps (ops : List POp) : RBInv (runPOps ops) := by
  suffices h : ∀ (l : List POp) (t : PT), RBInv t → RBInv (l.foldl applyP t) by
    exact h ops .nil ⟨(fun hh => nomatch hh), ⟨trivial, trivial⟩⟩
  intro l
  induction l with
  | nil =>
      intro t h
      exact h
  | cons op l ih =>
      intro t h
      cases op with
      | ins iv => exact ih _ (rbInv_insertIv t iv h)
      | del iv => exact ih _ (rbInv_removeIv t iv h)

end POM

/-! ## The claims -/

/-- The spec's own binary-search-tree ordering notion, written from its
words: every node's key is strictly less than all keys in its right subtree
and not less than all keys in its left subtree. -/
def strictBSTb : OST.OT → Bool
  | .nil => true
  | .node _ l v r =>
      ((OST.keys l).all (fun x => decide (x ≤ v.k)))
        && ((OST.keys r).all (fun y => decide (v.k < y)))
        && strictBSTb l && strictBSTb r

/-- C1 (counterexample): on n = 7, m = 3 the order-statistic generator (and
the naive one, see the amended theorem) produces [2, 5, 1, 6, 4, 0, 3],
not the spec's golden sequence [2, 5, 1, 6, 3, 0, 4]. -/
theorem josephus_golden_cex :
    Josephus.generateOST 7 3 = some [2, 5, 1, 6, 4, 0, 3]
      ∧ some [(2 : Int), 5, 1, 6, 4, 0, 3] ≠ some [(2 : Int), 5, 1, 6, 3, 0, 4] :=
  ⟨rfl, by decide⟩

/-- C1 (amended): for every n in {7, 10, 12, 15} and m in {2, 3, 4, 5} the
order-statistics-based generator and the circular-simulation reference
produce identical elimination sequences; for n = 7, m = 3 that common
sequence is [2, 5, 1, 6, 4, 0, 3]. -/
theorem josephus_methods_agree :
    (∀ n ∈ [(7 : Int), 10, 12, 15], ∀ m ∈ [(2 : Int), 3, 4, 5],
        Josephus.generateOST n m = Josephus.generateNaive n m)
      ∧ Josephus.generateOST 7 3 = some [2, 5, 1, 6, 4, 0, 3] :=
  ⟨by decide, rfl⟩

/-- C2: inserting [0,5)→10, [5,10)→−5, [10,15)→8, [15,20)→−3 in that order
yields getSum() = 10, and findPOM() returns maxpref = 13 at argmax = 10,
the values of the §4.4 recomputation rule on the in-order value sequence
(10, −5, 8, −3). -/
theorem pom_small_example :
    POM.getSum (POM.runPOps [POM.POp.ins ⟨0, 5, 10⟩, POM.POp.ins ⟨5, 10, -5⟩,
        POM.POp.ins ⟨10, 15, 8⟩, POM.POp.ins ⟨15, 20, -3⟩]) = 10
      ∧ POM.findPOM (POM.runPOps [POM.POp.ins ⟨0, 5, 10⟩, POM.POp.ins ⟨5, 10, -5⟩,
          POM.POp.ins ⟨10, 15, 8⟩, POM.POp.ins ⟨15, 20, -3⟩])
        = ⟨10, 13, 10⟩ :=
  ⟨rfl, rfl⟩

/-- C3 (code bug): after inserting (0,1)→1, (0,2)→2, (0,3)→3 and calling
remove on the PRESENT interval (0,1), the tree still contains all three
intervals (the interval multiset is unchanged) and getSum() stays 6, while
the sum of the inserted-and-not-removed values is 5.  The search in
POMTree::remove descends right on equal starts, but insertFixup's rotation
moved the equal-start node (0,1) into the left subtree, so the removal
silently misses it. -/
theorem pom_remove_miss_bug :
    POM.ivs (POM.runPOps [POM.POp.ins ⟨0, 1, 1⟩, POM.POp.ins ⟨0, 2, 2⟩,
        POM.POp.ins ⟨0, 3, 3⟩, POM.POp.del ⟨0, 1, 1⟩])
      = POM.ivs (POM.runPOps [POM.POp.ins ⟨0, 1, 1⟩, POM.POp.ins ⟨0, 2, 2⟩,
          POM.POp.ins ⟨0, 3, 3⟩])
      ∧ (⟨0, 1, 1⟩ : POM.Interval) ∈ POM.ivs (POM.runPOps [POM.POp.ins ⟨0, 1, 1⟩,
          POM.POp.ins ⟨0, 2, 2⟩, POM.POp.ins ⟨0, 3, 3⟩, POM.POp.del ⟨0, 1, 1⟩])
      ∧ POM.getSum (POM.runPOps [POM.POp.ins ⟨0, 1, 1⟩, POM.POp.ins ⟨0, 2, 2⟩,
          POM.POp.ins ⟨0, 3, 3⟩, POM.POp.del ⟨0, 1, 1⟩]) = 6 :=
  ⟨rfl, by decide, rfl⟩

/-- C4 (counterexample): after inserting the key 5 twice the tree has
size 2 and select(2) = 5, but rank(5) stops at the first (root) copy, so
rank(select(2)) = 1 ≠ 2: the inverse law fails on duplicate keys. -/
theorem rank_select_cex :
    OST.sizeI (OST.runOps [OST.OOp.ins 5, OST.OOp.ins 5]) = 2
      ∧ OST.select (OST.runOps [OST.OOp.ins 5, OST.OOp.ins 5]) 2 = some 5
      ∧ OST.rank (OST.runOps [OST.OOp.ins 5, OST.OOp.ins 5]) 5 ≠ 2 :=
  ⟨rfl, rfl, by decide⟩

/-- C4 (amended): on every reachable tree, select(rank(key)) = key holds
for every present key, and rank(select(k)) = k holds for all k in
[1, size()] whenever the stored keys are pairwise distinct. -/
theorem rank_select_inverse_amended :
    ∀ ops : List OST.OOp,
      (∀ key ∈ OST.keys (OST.runOps ops),
          OST.select (OST.runOps ops) (OST.rank (OST.runOps ops) key) = some key)
        ∧ ((OST.keys (OST.runOps ops)).Nodup →
            ∀ k : Int, 1 ≤ k → k ≤ OST.sizeI (OST.runOps ops) →
              ∃ x, OST.select (OST.runOps ops) k = some x
                ∧ OST.rank (OST.runOps ops) x = k) := by
  intro ops
  have h := OST.runOps_sizeOk ops
  have hs := OST.runOps_sorted ops
  constructor
  · intro key hmem
    exact OST.select_rank_of_mem _ key h hs hmem
  · intro hnd k h1 h2
    have h2' : k ≤ OST.cnt (OST.runOps ops) := by
      rw [← OST.getSize_eq_cnt _ h]
      exact h2
    exact OST.rank_select_of_nodup _ k h hs hnd h1 h2'

/-- C5: on every tree reached by a sequence of inserts and removes, each
node's stored size field equals the true node count of its subtree (hence
1 + size(left) + size(right)), and size() equals the number of
inserted-and-not-removed keys, counting multiplicity. -/
theorem size_field_and_live_count :
    ∀ ops : List OST.OOp,
      OST.SizeOk (OST.runOps ops)
        ∧ OST.sizeI (OST.runOps ops) = ((OST.specKeys ops).length : Int) := by
  intro ops
  have h := OST.runOps_sizeOk ops
  refine ⟨h, ?_⟩
  rw [OST.sizeI_eq_length _ h, OST.runOps_keys]

/-- C6: after any sequence of insert and remove operations, both tree
variants satisfy the red-black invariants: the root is black, no red node
has a red child, and every root-to-leaf path carries the same number of
black nodes. -/
theorem rb_invariant_both_variants :
    (∀ ops : List OST.OOp, RBG.RBInv (OST.runOps ops))
      ∧ (∀ pops : List POM.POp, RBG.RBInv (POM.runPOps pops)) :=
  ⟨OST.rbInv_runOps, POM.rbInv_runPOps⟩

/-- C7 (counterexample): inserting the key 0 twice routes the duplicate to
the right subtree, so the root's key is NOT strictly less than all keys of
its right subtree: the spec's strict BST ordering fails. -/
theorem strict_bst_cex :
    strictBSTb (OST.runOps [OST.OOp.ins 0, OST.OOp.ins 0]) = false := by
  decide

/-- C7 (amended): on every reachable tree of either variant the in-order
traversal is monotone: non-decreasing keys for the order-statistics tree,
non-decreasing starts for the interval tree.  (The strict form of the BST
property fails on duplicates, see the counterexample.) -/
theorem inorder_sorted_amended :
    (∀ ops : List OST.OOp, (OST.keys (OST.runOps ops)).Sorted (· ≤ ·))
      ∧ (∀ pops : List POM.POp, (POM.starts (POM.runPOps pops)).Sorted (· ≤ ·)) :=
  ⟨OST.runOps_sorted, POM.runPOps_sorted⟩

/-- C8: on every reachable tree, select(k) with k < 1 or k > size() reports
the distinct error (the embedded none models the std::out_of_range throw)
rather than returning a key, and every k in [1, size()] yields a key;
select never mutates (it is a pure function of the tree in this model). -/
theorem select_out_of_range_contract :
    ∀ (ops : List OST.OOp) (k : Int),
      ((k < 1 ∨ OST.sizeI (OST.runOps ops) < k) →
          OST.select (OST.runOps ops) k = none)
        ∧ (1 ≤ k → k ≤ OST.sizeI (OST.runOps ops) →
            ∃ key, OST.select (OST.runOps ops) k = some key) := by
  intro ops k
  have h := OST.runOps_sizeOk ops
  have hsz : OST.sizeI (OST.runOps ops) = OST.cnt (OST.runOps ops) :=
    OST.getSize_eq_cnt _ h
  constructor
  · intro hk
    apply OST.select_out _ _ h
    rcases hk with hk | hk
    · exact Or.inl hk
    · refine Or.inr ?_
      rw [← hsz]
      exact hk
  · intro h1 h2
    have h2' : k ≤ OST.cnt (OST.runOps ops) := by
      rw [← hsz]
      exact h2
    have hsel := OST.select_spec _ k h h1 h2'
    have hlen := OST.cnt_eq_length (OST.runOps ops)
    have hidx : (k - 1).toNat < (OST.keys (OST.runOps ops)).length := by omega
    refine ⟨(OST.keys (OST.runOps ops))[(k - 1).toNat], ?_⟩
    rw [hsel, List.get?_eq_getElem?]
    exact List.getElem?_eq_getElem hidx

/-- C9: removing a key (order-statistics tree) or an exact (start, end)
interval (interval tree) that is not present raises no error and returns
the tree completely unchanged. -/
theorem remove_absent_noop :
    (∀ (t : OST.OT) (key : Int), key ∉ OST.keys t → OST.remove t key = t)
      ∧ (∀ (t : POM.PT) (iv : POM.Interval),
          (∀ w ∈ POM.ivs t, ¬(w.s = iv.s ∧ w.e = iv.e)) → POM.remove t iv = t) :=
  ⟨OST.remove_not_mem, POM.remove_not_found⟩

/-- C10: for every n ≥ 1 and m ≥ 1, generateOST(n, m) completes without any
out-of-range select, returning a sequence of length exactly n that is a
permutation of {0, …, n−1}. -/
theorem josephus_total_perm (n m : Int) ( _hn : 1 ≤ n) (hm : 1 ≤ m) :
    ∃ res, Josephus.generateOST n m = some res
      ∧ res.length = n.toNat
      ∧ res.Perm ((List.range n.toNat).map Int.ofNat) := by
  obtain ⟨res, hres, hperm⟩ := Josephus.generateOST_perm n m hm
  refine ⟨res, hres, ?_, hperm⟩
  rw [hperm.length_eq]
  simp

/-- C10 (witness): the contract at the concrete instance n = 7, m = 3. -/
theorem josephus_total_perm_witness :
    ∃ res, Josephus.generateOST 7 3 = some res
      ∧ res.length = (7 : Int).toNat
      ∧ res.Perm ((List.range (7 : Int).toNat).map Int.ofNat) :=
  josephus_total_perm 7 3 (by decide) (by decide)
